import Mathlib

/-!
# Word-frequency analyzer: a shallow embedding of `parser.cc` and `main.cc`

The C++ program reads a text file into `g_word_vector`, splits the index range
`[0, g_num_words - 1]` among `kNumThreads` workers (`Parser::operator()`), lets each
worker move its tokens into the shared `std::map<std::string, int> g_word_count_map`
under `g_mutex`, and finally checks in `printResults` that the counts add up to
`g_num_words`.

Conventions of the embedding.

* `int` is modelled by `Int` together with `wrapInt`, the reduction into
  `[-2^31, 2^31 - 1]` applied after every arithmetic operation (two's complement
  wrap-around, what the x64 target of the project does on signed overflow).
  `size_t` is modelled by `Nat` below `2^64`.
* `/` and `%` on `int` are `Int.tdiv` and `Int.tmod` (truncation toward zero).
* `std::map<std::string, int>` is a list of key/value pairs kept in strictly
  increasing key order (`Table`); `operator[]` is `Table.subscript`.
* `std::vector<std::string>` is a `List String`; reading an index outside the vector
  is undefined behaviour and yields `none`.
* `std::string temp(std::move(g_word_vector[i]))` leaves the moved-from element
  empty (what the move constructor of every mainstream `std::string` does).
* A `for` loop is unrolled with a fuel argument; running out of fuel yields `none`.
* The concurrent phase is modelled at two levels, both as sequentially consistent
  interleavings named by a schedule: of whole loop iterations (`interleave`,
  `concurrentPhase`), and of the single steps of an iteration, with `g_mutex` as a
  piece of state (`lockStep`, `lockRun`).
-/

namespace WordFreq

/-! ## Machine integers -/

/-- Largest value of the 32-bit `int` type. -/
def INT_MAX : Int := 2147483647

/-- Smallest value of the 32-bit `int` type. -/
def INT_MIN : Int := -2147483648

/-- Reduction of a mathematical integer to the 32-bit two's complement `int` it is
stored as: the residue modulo `2^32` in `[0, 2^32)`, less `2^32` when it is `2^31` or
more. -/
@[irreducible]
def wrapInt (x : Int) : Int :=
  if (x % 4294967296).toNat < 2147483648 then x % 4294967296 else x % 4294967296 - 4294967296

/-- Number of values of the 64-bit `size_t` type. -/
def SIZE_MOD : Nat := 18446744073709551616

/-- The conversion `static_cast<int>(datatype)` of a `size_t` value. -/
def castToInt (n : Nat) : Int := wrapInt (Int.ofNat n)

/-- The conversion `static_cast<size_t>(t)` of an `int` value. -/
def castToSize (t : Int) : Nat := (t % (Int.ofNat SIZE_MOD)).toNat

/-! ## The frequency table `std::map<std::string, int>` -/

/-- Lexicographic comparison of two character sequences by code unit, the order
`std::less<std::string>` puts on keys. -/
def ltChars : List Char → List Char → Bool
  | _, [] => false
  | [], _ :: _ => true
  | a :: as, b :: bs =>
    if a.toNat < b.toNat then true
    else if a.toNat = b.toNat then ltChars as bs
    else false

/-- Key order of the map: `a < b` for `std::string`. -/
def keyLt (a b : String) : Bool := ltChars a.data b.data

/-- A `std::map<std::string, int>`: its entries in iteration order. -/
abbrev Table := List (String × Int)

/-- The map invariant: keys strictly increasing along the iteration order. -/
def Table.WF (m : Table) : Prop := m.Pairwise (fun a b => keyLt a.1 b.1 = true)

/-- Lookup `m.find(k)`: the stored count, if the key is present. -/
def Table.find : Table → String → Option Int
  | [], _ => none
  | (k', v) :: rest, k => if k' = k then some v else Table.find rest k

/-- The map after evaluating `m[k]`: an absent key is inserted with the
value-initialised count `0` at its place in the key order. -/
def Table.subscript : Table → String → Table
  | [], k => [(k, 0)]
  | (k', v) :: rest, k =>
    if keyLt k k' then (k, 0) :: (k', v) :: rest
    else if keyLt k' k then (k', v) :: Table.subscript rest k
    else (k', v) :: rest

/-- The value the reference `m[k]` denotes once the key is present. -/
def Table.get (m : Table) (k : String) : Int := (m.find k).getD 0

/-- Assignment through the reference `m[k]`. -/
def Table.assign : Table → String → Int → Table
  | [], _, _ => []
  | (k', v) :: rest, k, x =>
    if k' = k then (k', x) :: rest else (k', v) :: Table.assign rest k x

/-- The critical section of a worker,
`if (g_word_count_map[temp] >= 0) { ++g_word_count_map[temp]; }`. -/
def criticalSection (m : Table) (temp : String) : Table :=
  let m1 := m.subscript temp
  if m1.get temp ≥ 0 then
    let m2 := m1.subscript temp
    m2.assign temp (wrapInt (m2.get temp + 1))
  else m1

/-! ## The global state and the worker `Parser::operator()` -/

/-- The function object `Parser` of `parser.h`. -/
structure Parser where
  offset : Int
  b_fair_chunk_size : Bool
  b_case_sensitive : Bool := false
  deriving DecidableEq, Repr

/-- The globals of `parser.cc` (the mutex has no state of its own here). -/
structure Globals where
  g_num_words : Int
  g_word_count_map : Table
  g_word_vector : List String
  deriving DecidableEq, Repr

/-- A `for (int i = lo; i <= hi; ++i) body` loop over a state `σ`. -/
def forLoop {σ : Type} (body : Int → σ → Option σ) : Nat → Int → Int → σ → Option σ
  | 0, i, hi, s => if i ≤ hi then none else some s
  | fuel + 1, i, hi, s =>
    if i ≤ hi then
      match body i s with
      | some s' => forLoop body fuel (wrapInt (i + 1)) hi s'
      | none => none
    else some s

/-- The loop bounds `(first value of i, last value of i)` of the three branches of
`Parser::operator()(start_index, num_threads)`; the branches differ in nothing else. -/
def Parser.bounds (p : Parser) (g_num_words start_index num_threads : Int) : Int × Int :=
  if p.b_fair_chunk_size = true then
    (wrapInt (start_index * p.offset),
      wrapInt (wrapInt (wrapInt (start_index + 1) * p.offset) - 1))
  else if p.b_fair_chunk_size = false ∧ start_index ≠ wrapInt (num_threads - 1) then
    (wrapInt (wrapInt (start_index * p.offset) + (if start_index > 0 then 1 else 0)),
      wrapInt (wrapInt (start_index + 1) * p.offset))
  else
    (wrapInt (wrapInt (start_index * p.offset) + (if start_index > 0 then 1 else 0)),
      wrapInt (wrapInt (wrapInt (start_index + 1) * p.offset)
        + wrapInt (Int.tmod g_num_words num_threads - 1)))

/-- The control structure of `Parser::operator()(start_index, num_threads)`: the loop
`for (int i = lo; i <= hi; ++i)` of the branch taken, with the loop body left as a
parameter. -/
def Parser.loops {σ : Type} (p : Parser) (g_num_words : Int) (body : Int → σ → Option σ)
    (fuel : Nat) (start_index num_threads : Int) (s : σ) : Option σ :=
  forLoop body fuel (p.bounds g_num_words start_index num_threads).1
    (p.bounds g_num_words start_index num_threads).2 s

/-- The loop body shared by the three branches: move `g_word_vector[i]` into `temp`,
then run the critical section on `g_word_count_map`. -/
def tokenUpdate (i : Int) (g : Globals) : Option Globals :=
  if 0 ≤ i ∧ i.toNat < g.g_word_vector.length then
    let temp := g.g_word_vector.getD i.toNat ""
    some { g with
      g_word_vector := g.g_word_vector.set i.toNat ""
      g_word_count_map := criticalSection g.g_word_count_map temp }
  else none

/-- The worker `Parser::operator()(start_index, num_threads)` acting on the globals. -/
def Parser.operator (p : Parser) (fuel : Nat) (start_index num_threads : Int)
    (g : Globals) : Option Globals :=
  p.loops g.g_num_words tokenUpdate fuel start_index num_threads g

/-- The indices a worker's loop visits, in order: the same control structure with a
body that only records `i`. -/
def Parser.indices (p : Parser) (g_num_words : Int) (fuel : Nat)
    (start_index num_threads : Int) : Option (List Int) :=
  p.loops g_num_words (fun i acc => some (acc ++ [i])) fuel start_index num_threads []

/-- Lines 108-110 of `main`: `offset = g_num_words / kNumThreads` and
`b_fair_chunk_size = (g_num_words % kNumThreads == 0)`. -/
def configure (p : Parser) (g_num_words kNumThreads : Int) : Parser :=
  { p with
    offset := wrapInt (Int.tdiv g_num_words kNumThreads)
    b_fair_chunk_size := if Int.tmod g_num_words kNumThreads = 0 then true else false }

/-! ## The concurrent phase of `main`

`g_mutex` makes every loop iteration's critical section atomic, and the move out of
`g_word_vector[i]` touches an element no other worker's range contains, so an
execution of the concurrent phase is an interleaving of whole loop iterations. A
schedule names the worker that makes the next iteration; when the schedule is
exhausted, `join` lets every worker run to completion. -/

/-- A worker in flight: the loop variable `i` and the loop bound it compares with. -/
structure Thread where
  i : Int
  hi : Int
  deriving DecidableEq, Repr

/-- The worker `Parser::operator()(start_index, num_threads)` at the start of its loop. -/
def Parser.spawn (p : Parser) (g_num_words start_index num_threads : Int) : Thread :=
  ⟨(p.bounds g_num_words start_index num_threads).1,
    (p.bounds g_num_words start_index num_threads).2⟩

/-- One loop iteration of a worker (test `i <= hi`, body, `++i`); a worker whose loop
has ended does nothing. -/
def Thread.step (t : Thread) (g : Globals) : Option (Thread × Globals) :=
  if t.i ≤ t.hi then
    match tokenUpdate t.i g with
    | some g' => some (⟨wrapInt (t.i + 1), t.hi⟩, g')
    | none => none
  else some (t, g)

/-- The rest of a worker's loop, run without interruption. -/
def Thread.finish (fuel : Nat) (t : Thread) (g : Globals) : Option Globals :=
  forLoop tokenUpdate fuel t.i t.hi g

/-- Execution of a schedule: each entry lets the named worker make one iteration
(an entry that names no worker is skipped). -/
def interleave : List Nat → List Thread → Globals → Option (List Thread × Globals)
  | [], ts, g => some (ts, g)
  | n :: sched, ts, g =>
    match ts[n]? with
    | none => interleave sched ts g
    | some t =>
      match t.step g with
      | some (t', g') => interleave sched (ts.set n t') g'
      | none => none

/-- Waiting for the workers: each runs what is left of its loop. -/
def joinAll (fuel : Nat) : List Thread → Globals → Option Globals
  | [], g => some g
  | t :: ts, g =>
    match t.finish fuel g with
    | some g' => joinAll fuel ts g'
    | none => none

/-- The worker numbers `0, ..., W - 1`. -/
def workerIds (W : Nat) : List Int := (List.range W).map Int.ofNat

/-- Lines 116-125 of `main`, for `kNumThreads ≥ 1` (`main` gets here in no other
case): workers `0 .. kNumThreads - 2` on spawned threads and worker `kNumThreads - 1` on
the main thread, interleaved as `sched` says, then joined. -/
def concurrentPhase (p : Parser) (fuel : Nat) (kNumThreads : Int) (sched : List Nat)
    (g : Globals) : Option Globals :=
  match interleave sched
      ((workerIds kNumThreads.toNat).map (fun n => p.spawn g.g_num_words n kNumThreads)) g with
  | some (ts, g') => joinAll fuel ts g'
  | none => none

/-- The workers run one after the other, each to completion, in the order given. -/
def runWorkers (p : Parser) (fuel : Nat) (kNumThreads : Int) :
    List Int → Globals → Option Globals
  | [], g => some g
  | n :: rest, g =>
    match p.operator fuel n kNumThreads g with
    | some g' => runWorkers p fuel kNumThreads rest g'
    | none => none

/-! ## The concurrent phase at the level of `g_mutex`

Here a loop iteration is not taken as one step. A worker advances from one program
point to the next, each step making at most one access to a shared object (an element
of `g_word_vector`, `g_mutex`, `g_word_count_map`), and an execution is an interleaving
of such steps, as the schedule says. -/

/-- The program points of the loop of `Parser::operator()`: before the loop test, before
the construction of `lck`, before the evaluation of `g_word_count_map[temp] >= 0`,
before `++g_word_count_map[temp]`, before the end of the iteration (where `lck` is
destroyed), and after the loop. -/
inductive Pc where
  | test
  | lock
  | guard
  | increment
  | unlock
  | done
  deriving DecidableEq, Repr

/-- A worker in flight: its program point, the loop variable `i`, the loop bound, and
the local string `temp` (empty while no iteration is under way). -/
structure Worker where
  pc : Pc
  i : Int
  hi : Int
  temp : String
  deriving DecidableEq, Repr

/-- An operation of worker `n` on `g_mutex` or on `g_word_count_map`: `g_mutex.lock()`
returning, the evaluation of `g_word_count_map[key] >= 0`, the execution of
`++g_word_count_map[key]`, and `g_mutex.unlock()`. -/
inductive Event where
  | lock (n : Nat)
  | read (n : Nat) (key : String)
  | write (n : Nat) (key : String)
  | unlock (n : Nat)
  deriving DecidableEq, Repr

/-- The state of the concurrent phase: the globals, the owner of `g_mutex` if it is
locked, the workers (worker `n` at position `n`), and the operations made so far on the
mutex and the table, oldest first. -/
structure LockState where
  g : Globals
  g_mutex : Option Nat
  workers : List Worker
  history : List Event
  deriving DecidableEq, Repr

/-- One step of worker `n`. At `test`: the loop test and, if it holds,
`std::string temp(std::move(g_word_vector[i]))`. At `lock`: the constructor of `lck`,
which returns only when the mutex is free (otherwise the worker stays where it is). At
`guard` and `increment`: the two accesses to the table. At `unlock`: the destructor of
`lck` (undefined if the worker does not own the mutex), then `++i`. -/
def lockStep (n : Nat) (s : LockState) : Option LockState :=
  match s.workers[n]? with
  | none => some s
  | some w =>
    match w.pc with
    | Pc.test =>
      if w.i ≤ w.hi then
        if 0 ≤ w.i ∧ w.i.toNat < s.g.g_word_vector.length then
          some { s with
            g := { s.g with g_word_vector := s.g.g_word_vector.set w.i.toNat "" }
            workers := s.workers.set n
              { w with pc := Pc.lock, temp := s.g.g_word_vector.getD w.i.toNat "" } }
        else none
      else some { s with workers := s.workers.set n { w with pc := Pc.done } }
    | Pc.lock =>
      match s.g_mutex with
      | none =>
        some { s with
          g_mutex := some n
          workers := s.workers.set n { w with pc := Pc.guard }
          history := s.history ++ [Event.lock n] }
      | some _ => some s
    | Pc.guard =>
      let m1 := s.g.g_word_count_map.subscript w.temp
      some { s with
        g := { s.g with g_word_count_map := m1 }
        workers := s.workers.set n
          { w with pc := if m1.get w.temp ≥ 0 then Pc.increment else Pc.unlock }
        history := s.history ++ [Event.read n w.temp] }
    | Pc.increment =>
      let m2 := s.g.g_word_count_map.subscript w.temp
      some { s with
        g := { s.g with g_word_count_map := m2.assign w.temp (wrapInt (m2.get w.temp + 1)) }
        workers := s.workers.set n { w with pc := Pc.unlock }
        history := s.history ++ [Event.write n w.temp] }
    | Pc.unlock =>
      if s.g_mutex = some n then
        some { s with
          g_mutex := none
          workers := s.workers.set n { w with pc := Pc.test, i := wrapInt (w.i + 1), temp := "" }
          history := s.history ++ [Event.unlock n] }
      else none
    | Pc.done => some s

/-- Execution of a schedule of steps: each entry lets the named worker make one step. -/
def lockRun : List Nat → LockState → Option LockState
  | [], s => some s
  | n :: sched, s =>
    match lockStep n s with
    | some s' => lockRun sched s'
    | none => none

/-- The concurrent phase at its start: every worker before its loop, the mutex free. -/
def lockInit (p : Parser) (kNumThreads : Int) (g : Globals) : LockState :=
  { g := g
    g_mutex := none
    workers := (workerIds kNumThreads.toNat).map (fun n =>
      { pc := Pc.test
        i := (p.spawn g.g_num_words n kNumThreads).i
        hi := (p.spawn g.g_num_words n kNumThreads).hi
        temp := "" })
    history := [] }

/-! ## `main.cc`: reading the file, validation, thread count, checksum -/

/-- How a run can end other than normally: the two exception types the program
throws itself, the `std::length_error` of a vector constructed with a negative size,
and undefined behaviour (an index outside `g_word_vector`, a division by zero). -/
inductive Failure where
  | invalid_argument
  | runtime_error
  | length_error
  | undefined_behaviour
  deriving DecidableEq, Repr

/-- The character class `[:space:]` in the classic locale. -/
def isSpace (c : Char) : Bool :=
  c.toNat = 32 || c.toNat = 9 || c.toNat = 10 || c.toNat = 11 || c.toNat = 12 || c.toNat = 13

/-- A character outside the class `[^[:space:],;:.-]`, that is, a delimiter:
white space, `,` (44), `;` (59), `:` (58), `.` (46) or `-` (45). -/
def isDelimiter (c : Char) : Bool :=
  isSpace c || c.toNat = 44 || c.toNat = 59 || c.toNat = 58 || c.toNat = 46 || c.toNat = 45

/-- The conversion `tolower(c, lc)` in the classic locale: `A`-`Z` (65-90) to `a`-`z`. -/
def tolower (c : Char) : Char :=
  if 65 ≤ c.toNat ∧ c.toNat ≤ 90 then Char.ofNat (c.toNat + 32) else c

/-- The successive results of `getline(input_file, line_of_text)`; `cur` holds the
characters of the line being read. -/
def getlines (cur : List Char) : List Char → List (List Char)
  | [] => if cur = [] then [] else [cur]
  | c :: cs => if c.toNat = 10 then cur :: getlines [] cs else getlines (cur ++ [c]) cs

/-- The matches of the regular expression `[^[:space:],;:.-]+` in a line, in order:
the maximal runs of non-delimiters; `cur` holds the run being read. -/
def regexTokens (cur : List Char) : List Char → List String
  | [] => if cur = [] then [] else [String.mk cur]
  | c :: cs =>
    if isDelimiter c then
      (if cur = [] then regexTokens [] cs else String.mk cur :: regexTokens [] cs)
    else regexTokens (cur ++ [c]) cs

/-- The tokens `readFile` appends to `g_word_vector` for one line of text. -/
def lineTokens (b_case_sensitive : Bool) (line_of_text : List Char) : List String :=
  if line_of_text = [] then []
  else if b_case_sensitive = false then regexTokens [] (line_of_text.map tolower)
  else regexTokens [] line_of_text

/-- The tokens the two `while (getline(...))` loops of `readFile` append to
`g_word_vector` for a file with content `text`, in order. -/
def fileTokens (b_case_sensitive : Bool) (text : String) : List String :=
  (getlines [] text.data).flatMap (lineTokens b_case_sensitive)

/-- The function `size_validation(datatype, file)`. -/
def size_validation (datatype : Nat) : Except Failure Int :=
  let t := castToInt datatype
  if castToSize t ≠ datatype then Except.error Failure.runtime_error
  else if t = 0 then Except.error Failure.invalid_argument
  else Except.ok t

/-- The function `readFile(file, accumulator)`: `file` is the content of the input
file, or `none` when it cannot be opened. Returns `max_string_size` and the globals
with `g_word_vector` and `g_num_words` set. -/
def readFile (file : Option String) (accumulator : Parser) (g : Globals) :
    Except Failure (Nat × Globals) :=
  match file with
  | none => Except.error Failure.invalid_argument
  | some text =>
    let words := fileTokens accumulator.b_case_sensitive text
    let g_word_vector := g.g_word_vector ++ words
    let max_string_size := words.foldl (fun acc w => if w.length > acc then w.length else acc) 0
    match size_validation g_word_vector.length with
    | Except.error e => Except.error e
    | Except.ok n =>
      Except.ok (max_string_size, { g with g_word_vector := g_word_vector, g_num_words := n })

/-- The constant `kMinPerThread` of `main`. -/
def kMinPerThread : Int := 30

/-- The constant `kMaxThreads = (g_num_words - 1 + kMinPerThread) / kMinPerThread`. -/
def kMaxThreads (g_num_words : Int) : Int :=
  Int.tdiv (wrapInt (wrapInt (g_num_words - 1) + kMinPerThread)) kMinPerThread

/-- The constant
`kNumThreads = std::min(kHardwareThreadSupport != 0 ? kHardwareThreadSupport : 2, kMaxThreads)`. -/
def kNumThreads (g_num_words kHardwareThreadSupport : Int) : Int :=
  min (if kHardwareThreadSupport ≠ 0 then kHardwareThreadSupport else 2) (kMaxThreads g_num_words)

/-- The checksum loop of `printResults`: `int sum = 0; sum += iter->second;` over the
map in iteration order. -/
def checksum (word_count_map : Table) : Int :=
  word_count_map.foldl (fun sum e => wrapInt (sum + e.2)) 0

/-- The function `printResults`, without the console output: it throws `runtime_error`
when the checksum differs from `g_num_words` and otherwise returns (here: the sum it
printed as WORD COUNT). -/
def printResults (g_num_words : Int) (word_count_map : Table) : Except Failure Int :=
  if checksum word_count_map ≠ g_num_words then Except.error Failure.runtime_error
  else Except.ok (checksum word_count_map)

/-- The function `main` after the prompt: `b_case_sensitive` is the answer `n` to the
prompt, `file` the content of the input file, `kHardwareThreadSupport` the value of
`std::thread::hardware_concurrency()` as stored in the `const int`, `sched` the
interleaving of the workers. The result is the state of the globals when `printResults`
has returned. -/
def main (b_case_sensitive : Bool) (file : Option String) (kHardwareThreadSupport : Int)
    (sched : List Nat) : Except Failure Globals :=
  match readFile file ⟨0, false, b_case_sensitive⟩ ⟨0, [], []⟩ with
  | Except.error e => Except.error e
  | Except.ok (_, g) =>
    if kNumThreads g.g_num_words kHardwareThreadSupport = 0 then
      Except.error Failure.undefined_behaviour
    else if wrapInt (kNumThreads g.g_num_words kHardwareThreadSupport - 1) < 0 then
      Except.error Failure.length_error
    else
      match concurrentPhase
          (configure ⟨0, false, b_case_sensitive⟩ g.g_num_words
            (kNumThreads g.g_num_words kHardwareThreadSupport))
          g.g_word_vector.length (kNumThreads g.g_num_words kHardwareThreadSupport) sched g with
      | none => Except.error Failure.undefined_behaviour
      | some g' =>
        match printResults g'.g_num_words g'.g_word_count_map with
        | Except.error e => Except.error e
        | Except.ok _ => Except.ok g'

/-! ## Auxiliary definitions used to state and prove the properties -/

/-- The integers `lo, lo + 1, ..., lo + n - 1`. -/
def intRange (lo : Int) : Nat → List Int
  | 0 => []
  | n + 1 => lo :: intRange (lo + 1) n

/-- Running a loop body over an explicit list of indices. -/
def runList {σ : Type} (body : Int → σ → Option σ) : List Int → σ → Option σ
  | [], s => some s
  | i :: l, s =>
    match body i s with
    | some s' => runList body l s'
    | none => none

/-- First index of worker `i` among `W` workers over `N` tokens, in closed form. -/
def rangeLo (N W i : Nat) : Nat :=
  if N % W = 0 then i * (N / W) else i * (N / W) + (if i > 0 then 1 else 0)

/-- One past the last index of worker `i` among `W` workers over `N` tokens, in
closed form. -/
def rangeEnd (N W i : Nat) : Nat :=
  if N % W = 0 then (i + 1) * (N / W)
  else if i + 1 = W then N
  else (i + 1) * (N / W) + 1

/-- The critical section in closed form: one pass that inserts the key with count `1`
or increments a non-negative count. -/
def bump : Table → String → Table
  | [], k => [(k, 1)]
  | (k', v) :: rest, k =>
    if keyLt k k' then (k, 1) :: (k', v) :: rest
    else if keyLt k' k then (k', v) :: bump rest k
    else (k', if v ≥ 0 then wrapInt (v + 1) else v) :: rest

/-- The mathematical sum of all counts of a table. -/
def Table.total (m : Table) : Int := (m.map Prod.snd).sum

/-- The keys of a table, in iteration order. -/
def Table.keys (m : Table) : List String := m.map Prod.fst

/-- The table obtained from the empty one by one critical section per token. -/
def tableOf (tokens : List String) : Table := tokens.foldl criticalSection []

/-- The count the critical section leaves at the key it updates, given what `find`
returned for that key before. -/
def bumped : Option Int → Int
  | none => 1
  | some v => if v ≥ 0 then wrapInt (v + 1) else v

/-- The relation between the workers' progress and the globals during the concurrent
phase over the token sequence `orig` and initial table `m0`: worker `k` has advanced
its loop variable to `prog k`, `J` lists the indices processed so far in the order in
which they were processed. -/
def Progress (N W : Nat) (orig : List String) (m0 : Table) (prog : Nat → Nat) (J : List Nat)
    (g : Globals) : Prop :=
  (∀ k, k < W → rangeLo N W k ≤ prog k ∧ prog k ≤ rangeEnd N W k) ∧
  g.g_num_words = N ∧ g.g_word_vector.length = N ∧
  (∀ j, j < N → g.g_word_vector.getD j "" = if j ∈ J then "" else orig.getD j "") ∧
  g.g_word_count_map = (J.map (fun j => orig.getD j "")).foldl criticalSection m0 ∧
  J.Nodup ∧ (∀ j, j ∈ J ↔ ∃ k, k < W ∧ rangeLo N W k ≤ j ∧ j < prog k)

/-- The thread list that belongs to the progress `prog`. -/
def Matches (N W : Nat) (ts : List Thread) (prog : Nat → Nat) : Prop :=
  ts.length = W ∧ ∀ k, k < W → ts[k]? = some ⟨(prog k : Int), (rangeEnd N W k : Int) - 1⟩

/-- A string with every character converted by `tolower`. -/
def lowerString (s : String) : String := String.mk (s.data.map tolower)

/-- The three branches of `Parser::operator()`: the `if`, the `else if` and the `else`. -/
inductive Branch where
  | fair
  | notLast
  | last
  deriving DecidableEq, Repr

/-- The branch `Parser::operator()(start_index, num_threads)` takes: the conditions of
its `if` / `else if` / `else`, as in `Parser.bounds`. -/
def Parser.branch (p : Parser) (start_index num_threads : Int) : Branch :=
  if p.b_fair_chunk_size = true then Branch.fair
  else if p.b_fair_chunk_size = false ∧ start_index ≠ wrapInt (num_threads - 1) then
    Branch.notLast
  else Branch.last

/-- The loop bounds written in each branch of `Parser::operator()`. -/
def Parser.branchBounds (p : Parser) (g_num_words start_index num_threads : Int) :
    Branch → Int × Int
  | Branch.fair =>
    (wrapInt (start_index * p.offset),
      wrapInt (wrapInt (wrapInt (start_index + 1) * p.offset) - 1))
  | Branch.notLast =>
    (wrapInt (wrapInt (start_index * p.offset) + (if start_index > 0 then 1 else 0)),
      wrapInt (wrapInt (start_index + 1) * p.offset))
  | Branch.last =>
    (wrapInt (wrapInt (start_index * p.offset) + (if start_index > 0 then 1 else 0)),
      wrapInt (wrapInt (wrapInt (start_index + 1) * p.offset)
        + wrapInt (Int.tmod g_num_words num_threads - 1)))

/-- The program points between the construction and the destruction of `lck`. -/
def Pc.holding : Pc → Bool
  | Pc.guard => true
  | Pc.increment => true
  | Pc.unlock => true
  | _ => false

/-- The program points at which `temp` holds the token of the current iteration. -/
def Pc.inFlight : Pc → Bool
  | Pc.lock => true
  | Pc.guard => true
  | Pc.increment => true
  | Pc.unlock => true
  | _ => false

/-- The operations of one whole critical section of worker `n` for the token `key`. -/
def criticalEvents (n : Nat) (key : String) : List Event :=
  [Event.lock n, Event.read n key, Event.write n key, Event.unlock n]

/-- The operations a worker has made in the critical section it is in. -/
def heldEvents (n : Nat) (key : String) : Pc → List Event
  | Pc.guard => [Event.lock n]
  | Pc.increment => [Event.lock n, Event.read n key]
  | Pc.unlock => [Event.lock n, Event.read n key, Event.write n key]
  | _ => []

/-- The operations of the critical section under way in a state, if there is one. -/
def pendingEvents (s : LockState) : List Event :=
  match s.g_mutex with
  | none => []
  | some n =>
    match s.workers[n]? with
    | none => []
    | some w => heldEvents n w.temp w.pc

/-- The table while a worker is in its critical section for `key`, entered at the
table `base`. -/
def heldTable (base : Table) (key : String) : Pc → Table
  | Pc.increment => base.subscript key
  | Pc.unlock => criticalSection base key
  | _ => base

/-- The number of steps a worker at program point `pc` has left when `todo` indices of
its range (the current one included) are not yet done. -/
def remaining (pc : Pc) (todo : Nat) : Nat :=
  match pc with
  | Pc.test => 5 * todo + 1
  | Pc.lock => 5 * todo
  | Pc.guard => 5 * todo - 1
  | Pc.increment => 5 * todo - 2
  | Pc.unlock => 5 * todo - 3
  | Pc.done => 0

/-- The invariant of the concurrent phase over the token sequence `orig`: worker `k` is
at program point `pcs k` with loop variable `prog k`, and `D` lists the critical
sections completed so far, as pairs of worker and index, in the order of completion. -/
structure LockInv (N W : Nat) (orig : List String) (prog : Nat → Nat) (pcs : Nat → Pc)
    (D : List (Nat × Nat)) (s : LockState) : Prop where
  bounds : ∀ k, k < W → rangeLo N W k ≤ prog k ∧ prog k ≤ rangeEnd N W k
  nodup : (D.map Prod.snd).Nodup
  mem : ∀ j, j ∈ D.map Prod.snd ↔ ∃ k, k < W ∧ rangeLo N W k ≤ j ∧ j < prog k
  len : s.workers.length = W
  worker : ∀ k, k < W → s.workers[k]? = some ⟨pcs k, (prog k : Int),
    (rangeEnd N W k : Int) - 1, if (pcs k).inFlight = true then orig.getD (prog k) "" else ""⟩
  inflight : ∀ k, k < W → (pcs k).inFlight = true → prog k < rangeEnd N W k
  finished : ∀ k, k < W → pcs k = Pc.done → prog k = rangeEnd N W k
  holder : ∀ k, k < W → ((pcs k).holding = true ↔ s.g_mutex = some k)
  holder_lt : ∀ n, s.g_mutex = some n → n < W
  num : s.g.g_num_words = N
  vlen : s.g.g_word_vector.length = N
  vec : ∀ j, j < N → s.g.g_word_vector.getD j ""
    = if j ∈ D.map Prod.snd ∨ (∃ k, k < W ∧ (pcs k).inFlight = true ∧ j = prog k) then ""
      else orig.getD j ""
  table : s.g.g_word_count_map
    = match s.g_mutex with
      | none => (D.map (fun d => orig.getD d.2 "")).foldl criticalSection []
      | some n => heldTable ((D.map (fun d => orig.getD d.2 "")).foldl criticalSection [])
          (orig.getD (prog n) "") (pcs n)
  hist : s.history = D.flatMap (fun d => criticalEvents d.1 (orig.getD d.2 ""))
    ++ match s.g_mutex with
      | none => []
      | some n => heldEvents n (orig.getD (prog n) "") (pcs n)

/-! # Theorems -/

/-! ## Machine arithmetic -/

theorem wrapInt_id {x : Int} (h1 : -2147483648 ≤ x) (h2 : x ≤ 2147483647) : wrapInt x = x := by
  unfold wrapInt
  split_ifs <;> omega

theorem wrapInt_natCast {n : Nat} (h : n ≤ 2147483647) : wrapInt (n : Int) = n :=
  wrapInt_id (by omega) (by omega)

/-! ## Loops -/

theorem forLoop_eq_runList {σ : Type} (body : Int → σ → Option σ) :
    ∀ (n fuel : Nat) (lo : Int) (s : σ), -2147483648 ≤ lo → lo + n ≤ 2147483647 → n ≤ fuel →
      forLoop body fuel lo (lo + n - 1) s = runList body (intRange lo n) s := by
  intro n
  induction n with
  | zero =>
    intro fuel lo s _ _ _
    cases fuel <;> simp [forLoop, intRange, runList]
  | succ n ih =>
    intro fuel lo s h1 h2 h3
    cases fuel with
    | zero => omega
    | succ f =>
      have hle : lo ≤ lo + (n + 1 : Nat) - 1 := by omega
      have hw : wrapInt (lo + 1) = lo + 1 := wrapInt_id (by omega) (by omega)
      have hrec := ih f (lo + 1) 
      simp only [forLoop, hle, if_true, intRange, runList, hw]
      cases hb : body lo s with
      | none => rfl
      | some s' =>
        have := hrec s' (by omega) (by push_cast at h2 ⊢; omega) (by omega)
        simp only []
        rw [← this]
        congr 1
        push_cast; omega

/-! ## The index arithmetic of the three branches -/

/-- The quantities the index arithmetic is made of, as plain numbers: quotient `q`,
remainder `r`, and the products `a = i * q` and `b = W * q`. -/
theorem range_atoms (N W i : Nat) (hW : 1 ≤ W) (hi : i < W) :
    ∃ q r a b : Nat, N / W = q ∧ N % W = r ∧ i * q = a ∧ W * q = b ∧ b + r = N ∧ r < W ∧
      a + q ≤ b ∧ (i + 1 < W → a + q + q ≤ b) ∧ (i + 1 = W → a + q = b) ∧
      rangeLo N W i = (if r = 0 then a else a + (if i > 0 then 1 else 0)) ∧
      rangeEnd N W i = (if r = 0 then a + q else if i + 1 = W then N else a + q + 1) := by
  refine ⟨N / W, N % W, i * (N / W), W * (N / W), rfl, rfl, rfl, rfl, Nat.div_add_mod N W,
    Nat.mod_lt _ (by omega), ?_, ?_, ?_, ?_, ?_⟩
  · have := Nat.mul_le_mul_right (N / W) (show i + 1 ≤ W by omega)
    rw [Nat.succ_mul] at this
    exact this
  · intro h
    have := Nat.mul_le_mul_right (N / W) (show i + 1 + 1 ≤ W by omega)
    rw [Nat.succ_mul, Nat.succ_mul] at this
    exact this
  · intro h
    rw [← h, Nat.succ_mul]
  · rfl
  · unfold rangeEnd
    rw [Nat.succ_mul]

theorem rangeLo_le_rangeEnd (N W i : Nat) (hW : 1 ≤ W) (hi : i < W) :
    rangeLo N W i ≤ rangeEnd N W i := by
  obtain ⟨q, r, a, b, -, -, -, -, h1, h2, h3, h4, h5, h6, h7⟩ := range_atoms N W i hW hi
  rw [h6, h7]
  split_ifs <;> omega

theorem rangeEnd_le (N W i : Nat) (hW : 1 ≤ W) (hi : i < W) : rangeEnd N W i ≤ N := by
  obtain ⟨q, r, a, b, -, -, -, -, h1, h2, h3, h4, h5, h6, h7⟩ := range_atoms N W i hW hi
  rw [h7]
  split_ifs <;> omega

theorem rangeLo_zero (N W : Nat) : rangeLo N W 0 = 0 := by
  simp [rangeLo]

theorem rangeLo_succ (N W i : Nat) (hW : 1 ≤ W) (hi : i + 1 < W) :
    rangeLo N W (i + 1) = rangeEnd N W i := by
  obtain ⟨q, r, a, b, e1, e2, e3, -, h1, h2, h3, h4, h5, h6, h7⟩ :=
    range_atoms N W i hW (by omega)
  rw [h7]
  unfold rangeLo
  rw [e1, e2, Nat.succ_mul, e3]
  split_ifs <;> omega

theorem rangeEnd_last (N W : Nat) (hW : 1 ≤ W) : rangeEnd N W (W - 1) = N := by
  obtain ⟨q, r, a, b, -, -, -, -, h1, h2, h3, h4, h5, h6, h7⟩ :=
    range_atoms N W (W - 1) hW (by omega)
  rw [h7]
  split_ifs <;> omega

theorem bounds_configure (p0 : Parser) (N W i : Nat)
    (hN : N ≤ 2147483647) (hW : 1 ≤ W) (hWmax : W ≤ 2147483647) (hi : i < W) :
    (configure p0 N W).bounds N i W = ((rangeLo N W i : Int), (rangeEnd N W i : Int) - 1) := by
  have key : ∀ lo hi' : Int, lo = (rangeLo N W i : Int) → hi' = (rangeEnd N W i : Int) - 1 →
      (lo, hi') = ((rangeLo N W i : Int), (rangeEnd N W i : Int) - 1) := by
    intro lo hi' e1 e2
    rw [e1, e2]
  have hq : Int.tdiv (N : Int) (W : Int) = ((N / W : Nat) : Int) := (Int.ofNat_tdiv N W).symm
  have hr : Int.tmod (N : Int) (W : Int) = ((N % W : Nat) : Int) := (Int.ofNat_tmod N W).symm
  obtain ⟨q, r, a, b, e1, e2, e3, -, h1, h2, h3, h4, h5, h6, h7⟩ := range_atoms N W i hW hi
  rw [e1] at hq
  rw [e2] at hr
  have hm1 : (i : Int) * (q : Int) = (a : Int) := by rw [← e3]; exact (Nat.cast_mul i q).symm
  have hm2 : ((i : Int) + 1) * (q : Int) = (a : Int) + (q : Int) := by
    rw [add_mul, one_mul, hm1]
  have hb1 : (-2147483648 : Int) ≤ (r : Int) - 1 ∧ (r : Int) - 1 ≤ 2147483647 ∧
      (-2147483648 : Int) ≤ (a : Int) + 1 ∧ (r ≠ 0 → (a : Int) + 1 ≤ 2147483647) ∧
      (i + 1 = W → (-2147483648 : Int) ≤ (a : Int) + (q : Int) + ((r : Int) - 1) ∧
        (a : Int) + (q : Int) + ((r : Int) - 1) ≤ 2147483647 ∧
        (a : Int) + (q : Int) + ((r : Int) - 1) = (N : Int) - 1) := by
    refine ⟨by omega, by omega, by omega, ?_, ?_⟩
    · intro hr0
      omega
    · intro hl
      have := h5 hl
      omega
  obtain ⟨hb1, hb2, hb3, hb4, hb5⟩ := hb1
  have ws : wrapInt (q : Int) = q ∧ wrapInt (a : Int) = a ∧ wrapInt ((i : Int) + 1) = i + 1 ∧
      wrapInt ((a : Int) + (q : Int)) = a + q ∧ wrapInt ((W : Int) - 1) = W - 1 ∧
      wrapInt ((a : Int) + (q : Int) - 1) = a + q - 1 ∧ wrapInt ((r : Int) - 1) = r - 1 ∧
      (r ≠ 0 → wrapInt ((a : Int) + 1) = a + 1) :=
    ⟨wrapInt_natCast (by omega), wrapInt_natCast (by omega), wrapInt_id (by omega) (by omega),
      wrapInt_id (by omega) (by omega), wrapInt_id (by omega) (by omega),
      wrapInt_id (by omega) (by omega), wrapInt_id hb1 hb2, fun h => wrapInt_id hb3 (hb4 h)⟩
  obtain ⟨w1, w2, w3, w4, w5, w6, w7, w8⟩ := ws
  unfold Parser.bounds configure
  simp only [hq, hr, w1, hm1, w2, w3, hm2, w4, w5, w6, w7]
  by_cases hfair : r = 0
  · have hf' : (r : Int) = 0 := by exact_mod_cast hfair
    simp only [hf', if_true]
    apply key
    · rw [h6]; simp [hfair]
    · rw [h7]; simp [hfair]
  · have hf' : ¬ (r : Int) = 0 := by exact_mod_cast hfair
    simp only [hf', if_false, Bool.false_eq_true, true_and]
    have hlo : wrapInt ((a : Int) + (if (i : Int) > 0 then 1 else 0)) = (rangeLo N W i : Int) := by
      rw [h6]
      by_cases hi0 : i = 0
      · subst hi0; simp [hfair, w2]
      · have hpos : (i : Int) > 0 := by
          have : 0 < i := Nat.pos_of_ne_zero hi0
          exact_mod_cast this
        have hgt : i > 0 := Nat.pos_of_ne_zero hi0
        simp only [hpos, if_true, hfair, if_false, hgt, w8 hfair]
        push_cast; ring
    rw [hlo]
    by_cases hlast : i + 1 = W
    · have hl : ¬ ((i : Int) ≠ (W : Int) - 1) := by
        have : (i : Int) + 1 = W := by exact_mod_cast hlast
        intro hne; apply hne; linarith
      simp only [hl, if_false]
      apply key _ _ rfl
      obtain ⟨hc1, hc2, hc3⟩ := hb5 hlast
      rw [wrapInt_id hc1 hc2, h7]
      simp only [hfair, hlast, if_false, if_true]
      exact hc3
    · have hl : (i : Int) ≠ (W : Int) - 1 := by
        intro he
        apply hlast
        have : (i : Int) + 1 = W := by linarith
        exact_mod_cast this
      simp only [hl, if_true, ne_eq, not_false_eq_true]
      apply key _ _ rfl
      rw [h7]
      simp only [hfair, hlast, if_false]
      push_cast; ring

theorem loops_configure {σ : Type} (body : Int → σ → Option σ) (p0 : Parser) (N W i fuel : Nat)
    (hN : N ≤ 2147483647) (hW : 1 ≤ W) (hWmax : W ≤ 2147483647) (hi : i < W)
    (hfuel : N ≤ fuel) (s : σ) :
    (configure p0 N W).loops N body fuel i W s
      = runList body (intRange (rangeLo N W i) (rangeEnd N W i - rangeLo N W i)) s := by
  have hle := rangeLo_le_rangeEnd N W i hW hi
  have hend := rangeEnd_le N W i hW hi
  unfold Parser.loops
  rw [bounds_configure p0 N W i hN hW hWmax hi]
  have := forLoop_eq_runList body (rangeEnd N W i - rangeLo N W i) fuel (rangeLo N W i) s
    (by omega) (by omega) (by omega)
  rw [← this]
  congr 1
  omega

/-! ## Index lists -/

theorem mem_intRange (n : Nat) : ∀ (lo j : Int), j ∈ intRange lo n ↔ lo ≤ j ∧ j < lo + n := by
  induction n with
  | zero => intro lo j; simp [intRange]
  | succ n ih =>
    intro lo j
    simp only [intRange, List.mem_cons, ih]
    push_cast
    omega

theorem nodup_intRange (n : Nat) : ∀ lo : Int, (intRange lo n).Nodup := by
  induction n with
  | zero => intro lo; simp [intRange]
  | succ n ih =>
    intro lo
    simp only [intRange, List.nodup_cons, mem_intRange]
    exact ⟨by omega, ih _⟩

theorem intRange_append (m n : Nat) :
    ∀ lo : Int, intRange lo (m + n) = intRange lo m ++ intRange (lo + m) n := by
  induction m with
  | zero => intro lo; simp [intRange]
  | succ m ih =>
    intro lo
    have e : m + 1 + n = (m + n) + 1 := by omega
    rw [e]
    simp only [intRange, List.cons_append, ih]
    congr 3
    push_cast; ring

theorem length_intRange (n : Nat) : ∀ lo : Int, (intRange lo n).length = n := by
  induction n with
  | zero => intro lo; rfl
  | succ n ih => intro lo; simp [intRange, ih]

theorem runList_record (l : List Int) :
    ∀ acc : List Int, runList (fun i acc => some (acc ++ [i])) l acc = some (acc ++ l) := by
  induction l with
  | nil => intro acc; simp [runList]
  | cons x l ih => intro acc; simp [runList, ih]

/-- The indices visited by worker `i`, in closed form. -/
theorem indices_configure (p0 : Parser) (N W i fuel : Nat)
    (hN : N ≤ 2147483647) (hW : 1 ≤ W) (hWmax : W ≤ 2147483647) (hi : i < W)
    (hfuel : N ≤ fuel) :
    (configure p0 N W).indices N fuel i W
      = some (intRange (rangeLo N W i) (rangeEnd N W i - rangeLo N W i)) := by
  unfold Parser.indices
  rw [loops_configure _ p0 N W i fuel hN hW hWmax hi hfuel, runList_record]
  rfl

theorem rangeLo_mono (N W : Nat) (hW : 1 ≤ W) :
    ∀ d i : Nat, i + d < W → rangeLo N W i ≤ rangeLo N W (i + d) := by
  intro d
  induction d with
  | zero => intro i _; exact le_refl _
  | succ d ih =>
    intro i h
    have h1 := ih i (by omega)
    have h2 := rangeLo_succ N W (i + d) hW (by omega)
    have h3 := rangeLo_le_rangeEnd N W (i + d) hW (by omega)
    have e : i + (d + 1) = i + d + 1 := by omega
    rw [e]
    omega

theorem rangeEnd_le_rangeLo (N W i k : Nat) (hW : 1 ≤ W) (hik : i < k) (hk : k < W) :
    rangeEnd N W i ≤ rangeLo N W k := by
  have h1 := rangeLo_succ N W i hW (by omega)
  have h2 := rangeLo_mono N W hW (k - (i + 1)) (i + 1) (by omega)
  have e : i + 1 + (k - (i + 1)) = k := by omega
  rw [e] at h2
  omega

theorem range_cover (N W : Nat) (hW : 1 ≤ W) :
    ∀ k : Nat, k < W → ∀ j : Nat, j < rangeEnd N W k →
      ∃ i, i ≤ k ∧ rangeLo N W i ≤ j ∧ j < rangeEnd N W i := by
  intro k
  induction k with
  | zero =>
    intro _ j hj
    exact ⟨0, le_refl _, by rw [rangeLo_zero]; omega, hj⟩
  | succ k ih =>
    intro hk j hj
    by_cases hlt : j < rangeEnd N W k
    · obtain ⟨i, h1, h2, h3⟩ := ih (by omega) j hlt
      exact ⟨i, by omega, h2, h3⟩
    · refine ⟨k + 1, le_refl _, ?_, hj⟩
      rw [rangeLo_succ N W k hW hk]
      omega

theorem join_ranges (N W : Nat) (hW : 1 ≤ W) :
    ∀ k : Nat, k < W →
      ((List.range (k + 1)).map
        (fun i => intRange (rangeLo N W i) (rangeEnd N W i - rangeLo N W i))).flatten
        = intRange 0 (rangeEnd N W k) := by
  intro k
  induction k with
  | zero =>
    intro _
    simp [List.range_succ, rangeLo_zero]
  | succ k ih =>
    intro hk
    rw [List.range_succ, List.map_append, List.flatten_append, ih (by omega)]
    have h1 := rangeLo_succ N W k hW hk
    have h2 := rangeLo_le_rangeEnd N W (k + 1) hW hk
    have e : rangeEnd N W (k + 1)
        = rangeEnd N W k + (rangeEnd N W (k + 1) - rangeLo N W (k + 1)) := by omega
    conv_rhs => rw [e, intRange_append]
    simp [h1]

/-! ## The key order -/

theorem char_toNat_inj {a b : Char} (h : a.toNat = b.toNat) : a = b := by
  apply Char.ext
  apply UInt32.ext
  exact h

theorem ltChars_irrefl : ∀ a : List Char, ltChars a a = false := by
  intro a
  induction a with
  | nil => rfl
  | cons x xs ih => simp [ltChars, ih]

theorem ltChars_trans : ∀ a b c : List Char, ltChars a b = true → ltChars b c = true →
    ltChars a c = true := by
  intro a
  induction a with
  | nil =>
    intro b c h1 h2
    cases b with
    | nil => simp [ltChars] at h1
    | cons y ys =>
      cases c with
      | nil => simp [ltChars] at h2
      | cons z zs => simp [ltChars]
  | cons x xs ih =>
    intro b c h1 h2
    cases b with
    | nil => simp [ltChars] at h1
    | cons y ys =>
      cases c with
      | nil => simp [ltChars] at h2
      | cons z zs =>
        simp only [ltChars] at h1 h2 ⊢
        split_ifs at h1 h2 ⊢ <;> first | rfl | omega | (exact ih _ _ h1 h2)

theorem ltChars_total : ∀ a b : List Char, ltChars a b = false → ltChars b a = false → a = b := by
  intro a
  induction a with
  | nil =>
    intro b h1 h2
    cases b with
    | nil => rfl
    | cons y ys => simp [ltChars] at h1
  | cons x xs ih =>
    intro b h1 h2
    cases b with
    | nil => simp [ltChars] at h2
    | cons y ys =>
      simp only [ltChars] at h1 h2
      split_ifs at h1 h2 with c1 c2 c3 c4 <;> first | omega | simp at h1 | simp at h2 | skip
      rw [char_toNat_inj c2, ih ys h1 h2]

theorem keyLt_irrefl (a : String) : keyLt a a = false := ltChars_irrefl _

theorem keyLt_trans {a b c : String} (h1 : keyLt a b = true) (h2 : keyLt b c = true) :
    keyLt a c = true := ltChars_trans _ _ _ h1 h2

theorem keyLt_total {a b : String} (h1 : keyLt a b = false) (h2 : keyLt b a = false) : a = b := by
  have := ltChars_total _ _ h1 h2
  cases a; cases b
  simp_all

theorem keyLt_ne {a b : String} (h : keyLt a b = true) : a ≠ b := by
  intro e; subst e; rw [keyLt_irrefl] at h; cases h

theorem keyLt_asymm {a b : String} (h : keyLt a b = true) : keyLt b a = false := by
  cases h2 : keyLt b a with
  | false => rfl
  | true =>
    have := keyLt_trans h h2
    rw [keyLt_irrefl] at this
    cases this

/-! ## The critical section -/

theorem wrapInt_one : wrapInt 1 = 1 := wrapInt_id (by decide) (by decide)

theorem criticalSection_eq_bump : ∀ (m : Table) (k : String), criticalSection m k = bump m k := by
  intro m k
  induction m with
  | nil =>
    simp [criticalSection, Table.subscript, Table.get, Table.find, Table.assign, bump,
      keyLt_irrefl, wrapInt_one]
  | cons e rest ih =>
    obtain ⟨k', v⟩ := e
    cases h1 : keyLt k k' with
    | true =>
      simp [criticalSection, Table.subscript, Table.get, Table.find, Table.assign, bump,
        keyLt_irrefl, wrapInt_one, h1]
    | false =>
      cases h2 : keyLt k' k with
      | true =>
        have hne : k' ≠ k := keyLt_ne h2
        simp only [criticalSection, Table.subscript, h1, h2, Table.get, Table.find, hne,
          if_false, if_true, Table.assign, bump, Bool.false_eq_true] at ih ⊢
        rw [← ih]
        split_ifs <;> rfl
      | false =>
        have he : k' = k := (keyLt_total h1 h2).symm
        subst he
        simp only [criticalSection, Table.subscript, h1, Table.get, Table.find,
          if_false, if_true, Table.assign, bump, Bool.false_eq_true, Option.getD_some]
        split_ifs <;> rfl

/-! ## Lookup after an update -/

theorem keyLt_cases (k k' : String) :
    keyLt k k' = true ∨ (keyLt k k' = false ∧ keyLt k' k = true) ∨ k' = k := by
  cases h1 : keyLt k k' with
  | true => exact Or.inl rfl
  | false =>
    cases h2 : keyLt k' k with
    | true => exact Or.inr (Or.inl ⟨rfl, rfl⟩)
    | false => exact Or.inr (Or.inr (keyLt_total h1 h2).symm)

theorem bump_cons_lt {k k' : String} (v : Int) (rest : Table) (h : keyLt k k' = true) :
    bump ((k', v) :: rest) k = (k, 1) :: (k', v) :: rest := by
  simp [bump, h]

theorem bump_cons_gt {k k' : String} (v : Int) (rest : Table) (h1 : keyLt k k' = false)
    (h2 : keyLt k' k = true) : bump ((k', v) :: rest) k = (k', v) :: bump rest k := by
  simp [bump, h1, h2]

theorem bump_cons_eq (k : String) (v : Int) (rest : Table) :
    bump ((k, v) :: rest) k = (k, if v ≥ 0 then wrapInt (v + 1) else v) :: rest := by
  simp [bump, keyLt_irrefl]

theorem find_bump_ne (m : Table) (k w : String) (h : w ≠ k) :
    (bump m k).find w = m.find w := by
  induction m with
  | nil => simp [bump, Table.find, h.symm]
  | cons e rest ih =>
    obtain ⟨k', v⟩ := e
    rcases keyLt_cases k k' with h1 | ⟨h1, h2⟩ | he
    · rw [bump_cons_lt v rest h1]
      simp [Table.find, h.symm]
    · rw [bump_cons_gt v rest h1 h2]
      simp [Table.find, ih]
    · subst he
      rw [bump_cons_eq]
      simp [Table.find, h.symm]

theorem find_eq_none_of_lt (m : Table) (k : String)
    (h : ∀ e ∈ m, keyLt k e.1 = true) : m.find k = none := by
  induction m with
  | nil => rfl
  | cons e rest ih =>
    obtain ⟨k', v⟩ := e
    have h1 : k' ≠ k := (keyLt_ne (h (k', v) (List.mem_cons_self _ _))).symm
    simp only [Table.find, h1, if_false]
    exact ih (fun e he => h e (List.mem_cons_of_mem _ he))

theorem find_bump_self (m : Table) (k : String) (hwf : m.WF) :
    (bump m k).find k = some (bumped (m.find k)) := by
  induction m with
  | nil => simp [bump, Table.find, bumped]
  | cons e rest ih =>
    obtain ⟨k', v⟩ := e
    have hwf2 := List.pairwise_cons.mp hwf
    rcases keyLt_cases k k' with h1 | ⟨h1, h2⟩ | he
    · have hn : Table.find ((k', v) :: rest) k = none := by
        apply find_eq_none_of_lt
        intro e he
        rcases List.mem_cons.mp he with rfl | he
        · exact h1
        · exact keyLt_trans h1 (hwf2.1 e he)
      rw [bump_cons_lt v rest h1, hn]
      simp [Table.find, bumped]
    · have hne : k' ≠ k := keyLt_ne h2
      rw [bump_cons_gt v rest h1 h2]
      simp only [Table.find, hne, if_false]
      exact ih hwf2.2
    · subst he
      rw [bump_cons_eq]
      simp [Table.find, bumped]

theorem mem_keys_bump (m : Table) (k w : String) :
    w ∈ (bump m k).keys ↔ w = k ∨ w ∈ m.keys := by
  induction m with
  | nil => simp [bump, Table.keys]
  | cons e rest ih =>
    obtain ⟨k', v⟩ := e
    rcases keyLt_cases k k' with h1 | ⟨h1, h2⟩ | he
    · rw [bump_cons_lt v rest h1]
      simp [Table.keys]
    · rw [bump_cons_gt v rest h1 h2]
      simp only [Table.keys, List.map_cons, List.mem_cons] at ih ⊢
      rw [ih]
      tauto
    · subst he
      rw [bump_cons_eq]
      simp [Table.keys]

theorem bump_WF (m : Table) (k : String) (hwf : m.WF) : (bump m k).WF := by
  induction m with
  | nil => simp [bump, Table.WF]
  | cons e rest ih =>
    obtain ⟨k', v⟩ := e
    have hwf2 := List.pairwise_cons.mp hwf
    rcases keyLt_cases k k' with h1 | ⟨h1, h2⟩ | he
    · rw [bump_cons_lt v rest h1]
      apply List.pairwise_cons.mpr
      refine ⟨?_, hwf⟩
      intro e he
      rcases List.mem_cons.mp he with rfl | he
      · exact h1
      · exact keyLt_trans h1 (hwf2.1 e he)
    · rw [bump_cons_gt v rest h1 h2]
      apply List.pairwise_cons.mpr
      refine ⟨?_, ih hwf2.2⟩
      intro e he
      have hk : e.1 ∈ (bump rest k).keys := List.mem_map_of_mem Prod.fst he
      rcases (mem_keys_bump rest k e.1).mp hk with h | h
      · rw [h]; exact h2
      · obtain ⟨e', he', hfst⟩ := List.mem_map.mp h
        rw [← hfst]
        exact hwf2.1 e' he'
    · subst he
      rw [bump_cons_eq]
      apply List.pairwise_cons.mpr
      exact ⟨fun e he => hwf2.1 e he, hwf2.2⟩

theorem find_eq_none_iff (m : Table) (w : String) : m.find w = none ↔ w ∉ m.keys := by
  induction m with
  | nil => simp [Table.find, Table.keys]
  | cons e rest ih =>
    obtain ⟨k', v⟩ := e
    simp only [Table.find, Table.keys, List.map_cons, List.mem_cons] at ih ⊢
    split_ifs with h
    · simp [h]
    · rw [ih]
      constructor
      · intro hn hc
        rcases hc with hc | hc
        · exact h hc.symm
        · exact hn hc
      · intro hn hc
        exact hn (Or.inr hc)

/-! ## Totals -/

theorem le_total_of_mem (m : Table) (hnn : ∀ e ∈ m, 0 ≤ e.2) : ∀ e ∈ m, e.2 ≤ m.total := by
  induction m with
  | nil => intro e he; cases he
  | cons x rest ih =>
    intro e he
    have h0 : 0 ≤ x.2 := hnn x (List.mem_cons_self _ _)
    have hrest : ∀ e ∈ rest, 0 ≤ e.2 := fun e he => hnn e (List.mem_cons_of_mem _ he)
    have hsum : 0 ≤ Table.total rest := by
      unfold Table.total
      apply List.sum_nonneg
      intro v hv
      obtain ⟨e', he', rfl⟩ := List.mem_map.mp hv
      exact hrest e' he'
    have ht : Table.total (x :: rest) = x.2 + Table.total rest := by
      simp [Table.total]
    rw [ht]
    rcases List.mem_cons.mp he with rfl | he
    · omega
    · have := ih hrest e he
      omega

theorem bump_total (m : Table) (k : String) (hnn : ∀ e ∈ m, 0 ≤ e.2)
    (hlt : m.total < 2147483647) :
    (∀ e ∈ bump m k, 0 ≤ e.2) ∧ (bump m k).total = m.total + 1 := by
  induction m with
  | nil =>
    simp [bump, Table.total]
  | cons x rest ih =>
    obtain ⟨k', v⟩ := x
    have h0 : 0 ≤ v := hnn (k', v) (List.mem_cons_self _ _)
    have hrest : ∀ e ∈ rest, 0 ≤ e.2 := fun e he => hnn e (List.mem_cons_of_mem _ he)
    have hv : v ≤ Table.total ((k', v) :: rest) :=
      le_total_of_mem _ hnn (k', v) (List.mem_cons_self _ _)
    have ht : Table.total ((k', v) :: rest) = v + Table.total rest := by
      simp [Table.total]
    have hsum : 0 ≤ Table.total rest := by
      unfold Table.total
      apply List.sum_nonneg
      intro v hv
      obtain ⟨e', he', rfl⟩ := List.mem_map.mp hv
      exact hrest e' he'
    rcases keyLt_cases k k' with h1 | ⟨h1, h2⟩ | he
    · rw [bump_cons_lt v rest h1]
      constructor
      · intro e he
        rcases List.mem_cons.mp he with rfl | he
        · show (0 : Int) ≤ 1
          decide
        · exact hnn e he
      · simp [Table.total]; ring
    · rw [bump_cons_gt v rest h1 h2]
      obtain ⟨i1, i2⟩ := ih hrest (by omega)
      constructor
      · intro e he
        rcases List.mem_cons.mp he with rfl | he
        · exact h0
        · exact i1 e he
      · have : Table.total ((k', v) :: bump rest k) = v + Table.total (bump rest k) := by
          simp [Table.total]
        rw [this, i2, ht]; ring
    · subst he
      rw [bump_cons_eq]
      have hw : wrapInt (v + 1) = v + 1 := wrapInt_id (by omega) (by omega)
      simp only [ge_iff_le, h0, if_true, hw]
      constructor
      · intro e he
        rcases List.mem_cons.mp he with rfl | he
        · show 0 ≤ v + 1
          omega
        · exact hrest e he
      · simp [Table.total]; ring

/-! ## The table built from a token list -/

theorem foldl_criticalSection (l : List String) :
    ∀ m : Table, l.foldl criticalSection m = l.foldl bump m := by
  induction l with
  | nil => intro m; rfl
  | cons k l ih => intro m; simp [List.foldl, criticalSection_eq_bump, ih]

theorem foldl_bump_find (l2 : List String) :
    ∀ (m : Table) (l1 : List String), m.WF →
      (∀ w, m.find w = if l1.count w = 0 then none else some (l1.count w : Int)) →
      l1.length + l2.length ≤ 2147483647 →
      (l2.foldl bump m).WF ∧
        ∀ w, (l2.foldl bump m).find w
          = if (l1 ++ l2).count w = 0 then none else some ((l1 ++ l2).count w : Int) := by
  induction l2 with
  | nil => intro m l1 hwf hf _; simpa using ⟨hwf, hf⟩
  | cons k l2 ih =>
    intro m l1 hwf hf hlen
    simp only [List.length_cons] at hlen
    have hstep : ∀ w, (bump m k).find w
        = if (l1 ++ [k]).count w = 0 then none else some ((l1 ++ [k]).count w : Int) := by
      intro w
      by_cases hw : w = k
      · subst hw
        rw [find_bump_self m w hwf, hf w]
        have hc : l1.count w ≤ l1.length := List.count_le_length _ _
        have hc2 : (l1 ++ [w]).count w = l1.count w + 1 := by simp
        rw [hc2]
        by_cases h0 : l1.count w = 0
        · simp [h0, bumped]
        · have hw1 : wrapInt ((l1.count w : Int) + 1) = (l1.count w : Int) + 1 :=
            wrapInt_id (by omega) (by omega)
          simp [h0, bumped, hw1]
      · rw [find_bump_ne m k w hw, hf w]
        have hc2 : (l1 ++ [k]).count w = l1.count w := by
          simp [List.count_singleton, Ne.symm hw]
        rw [hc2]
    have := ih (bump m k) (l1 ++ [k]) (bump_WF m k hwf) hstep (by simp; omega)
    simpa [List.foldl] using this

theorem foldl_bump_total (l : List String) :
    ∀ m : Table, (∀ e ∈ m, 0 ≤ e.2) → m.total + l.length ≤ 2147483647 →
      (∀ e ∈ l.foldl bump m, 0 ≤ e.2) ∧ (l.foldl bump m).total = m.total + l.length := by
  induction l with
  | nil => intro m h1 _; simpa using h1
  | cons k l ih =>
    intro m h1 h2
    simp only [List.length_cons, Nat.cast_add, Nat.cast_one] at h2
    obtain ⟨b1, b2⟩ := bump_total m k h1 (by omega)
    obtain ⟨c1, c2⟩ := ih (bump m k) b1 (by omega)
    refine ⟨c1, ?_⟩
    simp only [List.foldl, c2, b2, List.length_cons, Nat.cast_add, Nat.cast_one]
    ring

/-- Lookup in the table of a token list: the number of occurrences. -/
theorem tableOf_find (tokens : List String) (h : tokens.length ≤ 2147483647) :
    (tableOf tokens).WF ∧
      ∀ w, (tableOf tokens).find w
        = if tokens.count w = 0 then none else some (tokens.count w : Int) := by
  have := foldl_bump_find tokens [] [] (by simp [Table.WF]) (by simp [Table.find]) (by simpa using h)
  unfold tableOf
  rw [foldl_criticalSection]
  simpa using this

/-- Total of the table of a token list: the number of tokens. -/
theorem tableOf_total (tokens : List String) (h : tokens.length ≤ 2147483647) :
    (∀ e ∈ tableOf tokens, 0 ≤ e.2) ∧ (tableOf tokens).total = tokens.length := by
  have := foldl_bump_total tokens [] (by simp) (by simp [Table.total]; omega)
  unfold tableOf
  rw [foldl_criticalSection]
  simpa [Table.total] using this

/-! ## One worker -/

theorem tokenUpdate_at (nw : Int) (m : Table) (pre post : List String) (t : String) :
    tokenUpdate (pre.length : Int) ⟨nw, m, pre ++ t :: post⟩
      = some ⟨nw, criticalSection m t, (pre ++ [""]) ++ post⟩ := by
  unfold tokenUpdate
  have h1 : (0 : Int) ≤ (pre.length : Int) := Int.ofNat_nonneg _
  simp only [Int.toNat_ofNat, List.length_append, List.length_cons, h1, true_and]
  have h2 : pre.length < pre.length + (post.length + 1) := by omega
  have h3 : (pre ++ t :: post)[pre.length]? = some t := by
    rw [List.getElem?_append_right (le_refl _)]
    simp
  simp [h2, List.getD_eq_getElem?_getD, h3]

theorem runList_tokenUpdate (ts : List String) :
    ∀ (nw : Int) (m : Table) (pre post : List String),
      runList tokenUpdate (intRange (pre.length : Int) ts.length) ⟨nw, m, pre ++ (ts ++ post)⟩
        = some ⟨nw, ts.foldl criticalSection m, pre ++ (List.replicate ts.length "" ++ post)⟩ := by
  induction ts with
  | nil => intro nw m pre post; simp [intRange, runList]
  | cons t ts ih =>
    intro nw m pre post
    simp only [List.length_cons, intRange, runList, List.cons_append, tokenUpdate_at]
    have := ih nw (criticalSection m t) (pre ++ [""]) post
    simp only [List.length_append, List.length_singleton, Nat.cast_add, Nat.cast_one] at this
    simp only [List.append_assoc] at this ⊢
    rw [this]
    simp [List.replicate_succ]

theorem operator_configure (p0 : Parser) (N W i fuel : Nat) (m : Table)
    (pre ts post : List String)
    (hN : N ≤ 2147483647) (hW : 1 ≤ W) (hWmax : W ≤ 2147483647) (hi : i < W)
    (hfuel : N ≤ fuel) (hpre : pre.length = rangeLo N W i)
    (hts : ts.length = rangeEnd N W i - rangeLo N W i) :
    (configure p0 N W).operator fuel i W ⟨N, m, pre ++ (ts ++ post)⟩
      = some ⟨N, ts.foldl criticalSection m, pre ++ (List.replicate ts.length "" ++ post)⟩ := by
  unfold Parser.operator
  simp only []
  rw [loops_configure tokenUpdate p0 N W i fuel hN hW hWmax hi hfuel, ← hts, ← hpre]
  exact runList_tokenUpdate ts N m pre post

/-! ## All workers, one after the other -/

theorem runWorkers_append (p : Parser) (fuel : Nat) (W : Int) (l1 l2 : List Int) :
    ∀ g : Globals, runWorkers p fuel W (l1 ++ l2) g
      = (runWorkers p fuel W l1 g).bind (runWorkers p fuel W l2) := by
  induction l1 with
  | nil => intro g; simp [runWorkers]
  | cons n l1 ih =>
    intro g
    simp only [List.cons_append, runWorkers]
    cases p.operator fuel n W g with
    | none => rfl
    | some g' => exact ih g'

theorem workerIds_succ (k : Nat) : workerIds (k + 1) = workerIds k ++ [(k : Int)] := by
  simp [workerIds, List.range_succ]

theorem runWorkers_upto (p0 : Parser) (N W fuel : Nat) (tokens : List String) (m : Table)
    (hN : N ≤ 2147483647) (hW : 1 ≤ W) (hWmax : W ≤ 2147483647) (hfuel : N ≤ fuel)
    (hlen : tokens.length = N) :
    ∀ k : Nat, k < W →
      runWorkers (configure p0 N W) fuel W (workerIds (k + 1)) ⟨N, m, tokens⟩
        = some ⟨N, (tokens.take (rangeEnd N W k)).foldl criticalSection m,
            List.replicate (rangeEnd N W k) "" ++ tokens.drop (rangeEnd N W k)⟩ := by
  intro k
  induction k with
  | zero =>
    intro hk
    have h0 := rangeLo_zero N W
    have hle := rangeEnd_le N W 0 hW hk
    have := operator_configure p0 N W 0 fuel m [] (tokens.take (rangeEnd N W 0))
      (tokens.drop (rangeEnd N W 0)) hN hW hWmax hk hfuel (by simp [h0])
      (by rw [List.length_take, h0]; omega)
    simp only [List.nil_append, List.take_append_drop] at this
    simp only [workerIds, List.range_succ, List.range_zero, List.nil_append, List.map_cons,
      List.map_nil, runWorkers]
    simp only [Int.ofNat_eq_coe, Nat.cast_zero] at this ⊢
    rw [this]
    simp only [List.length_take]
    have e : min (rangeEnd N W 0) tokens.length = rangeEnd N W 0 := by omega
    rw [e]
  | succ k ih =>
    intro hk
    have hlo := rangeLo_succ N W k hW hk
    have hle1 := rangeLo_le_rangeEnd N W (k + 1) hW hk
    have hle2 := rangeEnd_le N W (k + 1) hW hk
    rw [workerIds_succ, runWorkers_append, ih (by omega)]
    simp only [Option.some_bind, runWorkers]
    have hsplit : tokens.drop (rangeEnd N W k)
        = (tokens.drop (rangeEnd N W k)).take (rangeEnd N W (k + 1) - rangeEnd N W k)
          ++ tokens.drop (rangeEnd N W (k + 1)) := by
      conv_lhs => rw [← List.take_append_drop (rangeEnd N W (k + 1) - rangeEnd N W k)
        (tokens.drop (rangeEnd N W k))]
      rw [List.drop_drop]
      congr 2
      omega
    have := operator_configure p0 N W (k + 1) fuel
      ((tokens.take (rangeEnd N W k)).foldl criticalSection m)
      (List.replicate (rangeEnd N W k) "")
      ((tokens.drop (rangeEnd N W k)).take (rangeEnd N W (k + 1) - rangeEnd N W k))
      (tokens.drop (rangeEnd N W (k + 1))) hN hW hWmax hk hfuel
      (by simp [hlo])
      (by rw [List.length_take, List.length_drop, hlo]; omega)
    rw [← hsplit] at this
    simp only [Nat.cast_add, Nat.cast_one] at this ⊢
    rw [this]
    have hlen2 : ((tokens.drop (rangeEnd N W k)).take
        (rangeEnd N W (k + 1) - rangeEnd N W k)).length
          = rangeEnd N W (k + 1) - rangeEnd N W k := by
      rw [List.length_take, List.length_drop]; omega
    have htake : tokens.take (rangeEnd N W (k + 1))
        = tokens.take (rangeEnd N W k)
          ++ (tokens.drop (rangeEnd N W k)).take (rangeEnd N W (k + 1) - rangeEnd N W k) := by
      have e : rangeEnd N W (k + 1)
          = rangeEnd N W k + (rangeEnd N W (k + 1) - rangeEnd N W k) := by omega
      conv_lhs => rw [e]
      rw [List.take_add]
    rw [hlen2, htake, List.foldl_append, ← List.append_assoc, ← List.replicate_add]
    have e : rangeEnd N W k + (rangeEnd N W (k + 1) - rangeEnd N W k)
        = rangeEnd N W (k + 1) := by omega
    rw [e]

/-- The sequential run of all `W` workers over `tokens`. -/
theorem runWorkers_all (p0 : Parser) (W fuel : Nat) (tokens : List String) (m : Table)
    (hN : tokens.length ≤ 2147483647) (hW : 1 ≤ W) (hWmax : W ≤ 2147483647)
    (hfuel : tokens.length ≤ fuel) :
    runWorkers (configure p0 tokens.length W) fuel W (workerIds W) ⟨tokens.length, m, tokens⟩
      = some ⟨tokens.length, tokens.foldl criticalSection m,
          List.replicate tokens.length ""⟩ := by
  have := runWorkers_upto p0 tokens.length W fuel tokens m hN hW hWmax hfuel rfl (W - 1)
    (by omega)
  have e : W - 1 + 1 = W := by omega
  rw [e, rangeEnd_last _ _ hW] at this
  simpa using this

/-! ## Commutation of updates -/

theorem bump_comm_lt (m : Table) (a b : String) (hab : keyLt a b = true) :
    bump (bump m a) b = bump (bump m b) a := by
  have hba : keyLt b a = false := keyLt_asymm hab
  induction m with
  | nil =>
    simp [bump, hab, hba]
  | cons e rest ih =>
    obtain ⟨k, v⟩ := e
    rcases keyLt_cases a k with h1 | ⟨h1, h2⟩ | he
    · -- a < k
      rw [bump_cons_lt v rest h1, bump_cons_gt 1 _ hba hab]
      rcases keyLt_cases b k with g1 | ⟨g1, g2⟩ | ge
      · rw [bump_cons_lt v rest g1, bump_cons_lt 1 _ hab]
      · rw [bump_cons_gt v rest g1 g2, bump_cons_lt v _ h1]
      · subst ge
        rw [bump_cons_eq, bump_cons_lt _ _ hab]
    · -- k < a, hence k < b
      have g2 : keyLt k b = true := keyLt_trans h2 hab
      have g1 : keyLt b k = false := keyLt_asymm g2
      rw [bump_cons_gt v rest h1 h2, bump_cons_gt v _ g1 g2, bump_cons_gt v rest g1 g2,
        bump_cons_gt v _ h1 h2, ih]
    · -- k = a
      subst he
      rw [bump_cons_eq, bump_cons_gt _ _ hba hab, bump_cons_gt v _ hba hab, bump_cons_eq]

theorem bump_comm (m : Table) (a b : String) : bump (bump m a) b = bump (bump m b) a := by
  rcases keyLt_cases a b with h | ⟨_, h⟩ | h
  · exact bump_comm_lt m a b h
  · exact (bump_comm_lt m b a h).symm
  · rw [h]

theorem criticalSection_comm (m : Table) (a b : String) :
    criticalSection (criticalSection m a) b = criticalSection (criticalSection m b) a := by
  simp only [criticalSection_eq_bump, bump_comm m a b]

theorem foldl_criticalSection_perm {l1 l2 : List String} (h : l1.Perm l2) (m : Table) :
    l1.foldl criticalSection m = l2.foldl criticalSection m :=
  h.foldl_eq' (fun x _ y _ z => criticalSection_comm z x y) m

/-! ## The concurrent phase under an arbitrary schedule -/

theorem not_mem_of_progress {N W : Nat} {orig : List String} {m0 : Table} {prog : Nat → Nat}
    {J : List Nat} {g : Globals} (hW : 1 ≤ W) (h : Progress N W orig m0 prog J g)
    (k : Nat) (hk : k < W) (hlt : prog k < rangeEnd N W k) : prog k ∉ J := by
  obtain ⟨hb, -, -, -, -, -, hmem⟩ := h
  intro hc
  obtain ⟨k', hk', h1, h2⟩ := (hmem (prog k)).mp hc
  have hbk := hb k hk
  have hbk' := hb k' hk'
  rcases Nat.lt_trichotomy k' k with hlt' | heq | hgt
  · have := rangeEnd_le_rangeLo N W k' k hW hlt' hk
    omega
  · subst heq; omega
  · have := rangeEnd_le_rangeLo N W k k' hW hgt hk'
    omega

theorem progress_step {N W : Nat} {orig : List String} {m0 : Table} {prog : Nat → Nat}
    {J : List Nat} {g : Globals} (hW : 1 ≤ W) (h : Progress N W orig m0 prog J g)
    (k : Nat) (hk : k < W) (hlt : prog k < rangeEnd N W k) :
    ∃ g', tokenUpdate (prog k : Int) g = some g' ∧
      Progress N W orig m0 (Function.update prog k (prog k + 1)) (J ++ [prog k]) g' := by
  have hnot := not_mem_of_progress hW h k hk hlt
  obtain ⟨hb, hnw, hlen, hvec, hmap, hnd, hmem⟩ := h
  have hend := rangeEnd_le N W k hW hk
  have hcN : prog k < N := by omega
  have hbk := hb k hk
  refine ⟨{ g with
      g_word_vector := g.g_word_vector.set (prog k) ""
      g_word_count_map := criticalSection g.g_word_count_map (g.g_word_vector.getD (prog k) "") },
    ?_, ?_, hnw, ?_, ?_, ?_, ?_, ?_⟩
  · unfold tokenUpdate
    have h1 : (0 : Int) ≤ (prog k : Int) := Int.ofNat_nonneg _
    have h2 : prog k < g.g_word_vector.length := by omega
    simp [h1, h2]
  · intro k' hk'
    by_cases e : k' = k
    · subst e
      simp only [Function.update_same]
      omega
    · simp only [Function.update_noteq e]
      exact hb k' hk'
  · simp [hlen]
  · intro j hj
    simp only [List.getD_eq_getElem?_getD, List.getElem?_set, List.mem_append,
      List.mem_singleton]
    by_cases e : prog k = j
    · subst e
      have : prog k < g.g_word_vector.length := by omega
      simp [this]
    · have e' : ¬ j = prog k := fun h => e h.symm
      have := hvec j hj
      simp only [List.getD_eq_getElem?_getD] at this
      simp only [e, e', if_false, or_false]
      exact this
  · simp only [List.map_append, List.map_cons, List.map_nil, List.foldl_append, List.foldl_cons,
      List.foldl_nil, ← hmap]
    have := hvec (prog k) hcN
    simp only [hnot, if_false] at this
    rw [this]
  · rw [List.nodup_append]
    refine ⟨hnd, List.nodup_singleton _, ?_⟩
    intro a ha hb'
    rw [List.mem_singleton] at hb'
    subst hb'
    exact hnot ha
  · intro j
    simp only [List.mem_append, List.mem_singleton, hmem]
    constructor
    · rintro (⟨k', hk', h1, h2⟩ | rfl)
      · refine ⟨k', hk', h1, ?_⟩
        by_cases e : k' = k
        · subst e; simp only [Function.update_same]; omega
        · simp only [Function.update_noteq e]; exact h2
      · exact ⟨k, hk, hbk.1, by simp⟩
    · rintro ⟨k', hk', h1, h2⟩
      by_cases e : k' = k
      · subst e
        simp only [Function.update_same] at h2
        by_cases e2 : j = prog k'
        · exact Or.inr e2
        · exact Or.inl ⟨k', hk', h1, by omega⟩
      · simp only [Function.update_noteq e] at h2
        exact Or.inl ⟨k', hk', h1, h2⟩

theorem interleave_progress {N W : Nat} {orig : List String} {m0 : Table}
    (hN : N ≤ 2147483647) (hW : 1 ≤ W) (sched : List Nat) :
    ∀ (ts : List Thread) (g : Globals) (prog : Nat → Nat) (J : List Nat),
      Matches N W ts prog → Progress N W orig m0 prog J g →
      ∃ ts' g' prog' J', interleave sched ts g = some (ts', g') ∧
        Matches N W ts' prog' ∧ Progress N W orig m0 prog' J' g' := by
  induction sched with
  | nil =>
    intro ts g prog J hm hp
    exact ⟨ts, g, prog, J, rfl, hm, hp⟩
  | cons n sched ih =>
    intro ts g prog J hm hp
    by_cases hn : n < W
    · have hts := hm.2 n hn
      simp only [interleave, hts, Thread.step]
      by_cases hlt : prog n < rangeEnd N W n
      · have hcond : (prog n : Int) ≤ (rangeEnd N W n : Int) - 1 := by omega
        obtain ⟨g1, hg1, hp1⟩ := progress_step hW hp n hn hlt
        have hend := rangeEnd_le N W n hW hn
        have hw : wrapInt ((prog n : Int) + 1) = ((prog n + 1 : Nat) : Int) := by
          rw [wrapInt_id (by omega) (by omega)]
          push_cast; rfl
        simp only [hcond, if_true, hg1, hw]
        apply ih _ g1 (Function.update prog n (prog n + 1)) (J ++ [prog n]) _ hp1
        refine ⟨by simp [hm.1], ?_⟩
        intro k hk
        by_cases e : k = n
        · subst e
          have : k < ts.length := by rw [hm.1]; exact hk
          simp [List.getElem?_set, this]
        · have e' : ¬ n = k := fun h => e h.symm
          simp only [List.getElem?_set, e', if_false, Function.update_noteq e]
          exact hm.2 k hk
      · have hcond : ¬ (prog n : Int) ≤ (rangeEnd N W n : Int) - 1 := by omega
        simp only [hcond, if_false]
        apply ih _ g prog J _ hp
        refine ⟨by simp [hm.1], ?_⟩
        intro k hk
        by_cases e : k = n
        · subst e
          have : k < ts.length := by rw [hm.1]; exact hk
          simp [List.getElem?_set, this]
        · have e' : ¬ n = k := fun h => e h.symm
          simp only [List.getElem?_set, e', if_false]
          exact hm.2 k hk
    · have hts : ts[n]? = none := by
        apply List.getElem?_eq_none
        rw [hm.1]; omega
      simp only [interleave, hts]
      exact ih ts g prog J hm hp

theorem finish_progress {N W : Nat} {orig : List String} {m0 : Table}
    (hN : N ≤ 2147483647) (hW : 1 ≤ W) (k : Nat) (hk : k < W) :
    ∀ (n fuel : Nat) (prog : Nat → Nat) (J : List Nat) (g : Globals),
      Progress N W orig m0 prog J g → prog k + n = rangeEnd N W k → n ≤ fuel →
      ∃ g' J', forLoop tokenUpdate fuel (prog k : Int) ((rangeEnd N W k : Int) - 1) g = some g' ∧
        Progress N W orig m0 (Function.update prog k (rangeEnd N W k)) J' g' := by
  intro n
  induction n with
  | zero =>
    intro fuel prog J g hp he _
    have hcond : ¬ (prog k : Int) ≤ (rangeEnd N W k : Int) - 1 := by omega
    refine ⟨g, J, ?_, ?_⟩
    · cases fuel <;> simp [forLoop, hcond]
    · have : Function.update prog k (rangeEnd N W k) = prog := by
        rw [← he]; simp
      rw [this]; exact hp
  | succ n ih =>
    intro fuel prog J g hp he hf
    cases fuel with
    | zero => omega
    | succ f =>
      have hlt : prog k < rangeEnd N W k := by omega
      have hcond : (prog k : Int) ≤ (rangeEnd N W k : Int) - 1 := by omega
      obtain ⟨g1, hg1, hp1⟩ := progress_step hW hp k hk hlt
      have hend := rangeEnd_le N W k hW hk
      have hw : wrapInt ((prog k : Int) + 1) = ((prog k + 1 : Nat) : Int) := by
        rw [wrapInt_id (by omega) (by omega)]
        push_cast; rfl
      simp only [forLoop, hcond, if_true, hg1, hw]
      have := ih f (Function.update prog k (prog k + 1)) (J ++ [prog k]) g1 hp1
        (by simp; omega) (by omega)
      simpa using this

theorem joinAll_progress {N W : Nat} {orig : List String} {m0 : Table}
    (hN : N ≤ 2147483647) (hW : 1 ≤ W) (fuel : Nat) (hfuel : N ≤ fuel)
    (ts : List Thread) (prog0 : Nat → Nat) (hm : Matches N W ts prog0) :
    ∀ (d i : Nat), i + d = W → ∀ (J : List Nat) (g : Globals),
      Progress N W orig m0 (fun x => if x < i then rangeEnd N W x else prog0 x) J g →
      ∃ g' J', joinAll fuel (ts.drop i) g = some g' ∧
        Progress N W orig m0 (fun x => if x < W then rangeEnd N W x else prog0 x) J' g' := by
  intro d
  induction d with
  | zero =>
    intro i hi J g hp
    have : i = W := by omega
    subst this
    have hdrop : ts.drop i = [] := List.drop_eq_nil_of_le (by rw [hm.1])
    exact ⟨g, J, by simp [hdrop, joinAll], hp⟩
  | succ d ih =>
    intro i hi J g hp
    have hiW : i < W := by omega
    have hlen : i < ts.length := by rw [hm.1]; exact hiW
    have hget : ts[i] = ⟨(prog0 i : Int), (rangeEnd N W i : Int) - 1⟩ := by
      have := hm.2 i hiW
      rw [List.getElem?_eq_getElem hlen] at this
      exact Option.some.inj this
    rw [List.drop_eq_getElem_cons hlen, hget]
    simp only [joinAll, Thread.finish]
    have hb := hp.1 i hiW
    simp only [lt_irrefl, if_false] at hb
    have hend := rangeEnd_le N W i hW hiW
    obtain ⟨g1, J1, hg1, hp1⟩ := finish_progress hN hW i hiW (rangeEnd N W i - prog0 i) fuel
      (fun x => if x < i then rangeEnd N W x else prog0 x) J g hp
      (by simp only [lt_irrefl, if_false]; omega) (by omega)
    simp only [lt_irrefl, if_false] at hg1
    simp only [hg1]
    apply ih (i + 1) (by omega) J1 g1
    have : (fun x => if x < i + 1 then rangeEnd N W x else prog0 x)
        = Function.update (fun x => if x < i then rangeEnd N W x else prog0 x) i
            (rangeEnd N W i) := by
      funext x
      by_cases e : x = i
      · subst e; simp
      · simp only [Function.update_noteq e]
        by_cases h1 : x < i
        · have : x < i + 1 := by omega
          simp [h1, this]
        · have : ¬ x < i + 1 := by omega
          simp [h1, this]
    rw [this]
    exact hp1

theorem progress_final {N W : Nat} {orig : List String} {m0 : Table} {prog0 : Nat → Nat}
    {J : List Nat} {g : Globals} (hW : 1 ≤ W) (hlen : orig.length = N)
    (hp : Progress N W orig m0 (fun x => if x < W then rangeEnd N W x else prog0 x) J g) :
    g = ⟨N, orig.foldl criticalSection m0, List.replicate N ""⟩ := by
  obtain ⟨-, hnw, hl, hvec, hmap, hnd, hmem⟩ := hp
  have hJ : ∀ j, j ∈ J ↔ j < N := by
    intro j
    rw [hmem]
    constructor
    · rintro ⟨k, hk, h1, h2⟩
      simp only [hk, if_true] at h2
      have := rangeEnd_le N W k hW hk
      omega
    · intro hj
      have hlast := rangeEnd_last N W hW
      obtain ⟨i, h1, h2, h3⟩ := range_cover N W hW (W - 1) (by omega) j (by omega)
      have hi : i < W := by omega
      exact ⟨i, hi, h2, by simp only [hi, if_true]; exact h3⟩
  have hperm : J.Perm (List.range N) := by
    apply (List.perm_ext_iff_of_nodup hnd (List.nodup_range N)).mpr
    intro a
    rw [hJ, List.mem_range]
  have hmapr : (List.range N).map (fun j => orig.getD j "") = orig := by
    apply List.ext_getElem
    · simp [hlen]
    · intro n h1 h2
      simp [List.getD_eq_getElem?_getD, List.getElem?_eq_getElem h2]
  have hvec2 : g.g_word_vector = List.replicate N "" := by
    apply List.ext_getElem
    · simp [hl]
    · intro n h1 h2
      have hn : n < N := by omega
      have := hvec n hn
      simp only [(hJ n).mpr hn, if_true, List.getD_eq_getElem?_getD,
        List.getElem?_eq_getElem h1, Option.getD_some] at this
      simp [this]
  have hmap2 : g.g_word_count_map = orig.foldl criticalSection m0 := by
    rw [hmap, foldl_criticalSection_perm (hperm.map _), hmapr]
  cases g
  simp only [Globals.mk.injEq]
  exact ⟨hnw, hmap2, hvec2⟩

/-- The concurrent phase, under every schedule, leaves the table of the whole token
sequence and an emptied vector. -/
theorem concurrentPhase_eq (p0 : Parser) (W fuel : Nat) (tokens : List String) (m0 : Table)
    (sched : List Nat) (hN : tokens.length ≤ 2147483647) (hW : 1 ≤ W) (hWmax : W ≤ 2147483647)
    (hfuel : tokens.length ≤ fuel) :
    concurrentPhase (configure p0 tokens.length W) fuel W sched ⟨tokens.length, m0, tokens⟩
      = some ⟨tokens.length, tokens.foldl criticalSection m0,
          List.replicate tokens.length ""⟩ := by
  have hm : Matches tokens.length W
      ((workerIds W).map (fun n => (configure p0 tokens.length W).spawn tokens.length n W))
      (fun k => rangeLo tokens.length W k) := by
    refine ⟨by simp [workerIds], ?_⟩
    intro k hk
    simp only [workerIds, List.map_map, List.getElem?_map, List.getElem?_range hk,
      Option.map_some', Function.comp, Parser.spawn, Int.ofNat_eq_coe,
      bounds_configure p0 tokens.length W k hN hW hWmax hk]
  have hp : Progress tokens.length W tokens m0 (fun k => rangeLo tokens.length W k) []
      ⟨tokens.length, m0, tokens⟩ := by
    refine ⟨fun k hk => ⟨le_refl _, rangeLo_le_rangeEnd _ _ _ hW hk⟩, rfl, rfl, ?_, rfl,
      List.nodup_nil, ?_⟩
    · intro j _; simp
    · intro j
      simp only [List.not_mem_nil, false_iff, not_exists, not_and]
      intro k _ h1
      omega
  obtain ⟨ts1, g1, prog1, J1, hi1, hm1, hp1⟩ :=
    interleave_progress hN hW sched _ _ _ _ hm hp
  have hp1' : Progress tokens.length W tokens m0
      (fun x => if x < 0 then rangeEnd tokens.length W x else prog1 x) J1 g1 := by
    simpa using hp1
  obtain ⟨g2, J2, hj2, hp2⟩ :=
    joinAll_progress hN hW fuel hfuel ts1 prog1 hm1 W 0 (by omega) J1 g1 hp1'
  have hfin := progress_final hW rfl hp2
  unfold concurrentPhase
  simp only [Int.toNat_ofNat, hi1]
  rw [List.drop_zero] at hj2
  rw [hj2, hfin]

/-! ## The checksum -/

theorem total_cons (e : String × Int) (m : Table) : Table.total (e :: m) = e.2 + Table.total m := by
  simp [Table.total]

theorem total_nonneg (m : Table) (hnn : ∀ e ∈ m, 0 ≤ e.2) : 0 ≤ m.total := by
  unfold Table.total
  apply List.sum_nonneg
  intro v hv
  obtain ⟨e, he, rfl⟩ := List.mem_map.mp hv
  exact hnn e he

theorem checksum_foldl (m : Table) :
    ∀ acc : Int, 0 ≤ acc → (∀ e ∈ m, 0 ≤ e.2) → acc + m.total ≤ 2147483647 →
      m.foldl (fun sum e => wrapInt (sum + e.2)) acc = acc + m.total := by
  induction m with
  | nil => intro acc _ _ _; simp [Table.total]
  | cons e rest ih =>
    intro acc h0 hnn hfit
    have he : 0 ≤ e.2 := hnn e (List.mem_cons_self _ _)
    have hrest : ∀ x ∈ rest, 0 ≤ x.2 := fun x hx => hnn x (List.mem_cons_of_mem _ hx)
    have hr := total_nonneg rest hrest
    rw [total_cons] at hfit
    have hw : wrapInt (acc + e.2) = acc + e.2 := wrapInt_id (by omega) (by omega)
    simp only [List.foldl_cons, hw]
    rw [ih (acc + e.2) (by omega) hrest (by omega), total_cons]
    ring

/-- The checksum of `printResults` is the true sum when the counts are non-negative
and the sum fits the type `int`. -/
theorem checksum_eq_total (m : Table) (hnn : ∀ e ∈ m, 0 ≤ e.2) (hfit : m.total ≤ 2147483647) :
    checksum m = m.total := by
  have := checksum_foldl m 0 (le_refl _) hnn (by omega)
  unfold checksum
  rw [this]
  ring

/-! ## Validation and thread count -/

theorem size_validation_ok (n : Nat) (h1 : 1 ≤ n) (h2 : n ≤ 2147483647) :
    size_validation n = Except.ok (n : Int) := by
  have hc : castToInt n = (n : Int) := by
    unfold castToInt
    exact wrapInt_natCast h2
  have hs : castToSize (n : Int) = n := by
    unfold castToSize SIZE_MOD
    have : ((n : Int) % (Int.ofNat 18446744073709551616)) = (n : Int) := by
      apply Int.emod_eq_of_lt
      · omega
      · simp only [Int.ofNat_eq_coe]; omega
    rw [this]
    simp
  have hz : ¬ ((n : Int) = 0) := by omega
  simp [size_validation, hc, hs, hz]

theorem kMaxThreads_eq (N : Int) (h1 : 1 ≤ N) (h2 : N ≤ 2147483618) :
    kMaxThreads N = (N + 29) / 30 := by
  unfold kMaxThreads kMinPerThread
  rw [wrapInt_id (by omega : (-2147483648 : Int) ≤ N - 1) (by omega),
    wrapInt_id (by omega : (-2147483648 : Int) ≤ N - 1 + 30) (by omega)]
  have e : N - 1 + 30 = N + 29 := by ring
  rw [e, Int.tdiv_eq_ediv (by omega) (by omega)]

theorem kMaxThreads_bounds (N : Int) (h1 : 1 ≤ N) (h2 : N ≤ 2147483618) :
    1 ≤ kMaxThreads N ∧ kMaxThreads N ≤ N ∧ 30 * (kMaxThreads N - 1) < N ∧
      N ≤ 30 * kMaxThreads N := by
  rw [kMaxThreads_eq N h1 h2]
  omega

theorem kNumThreads_bounds (N H : Int) (h1 : 1 ≤ N) (h2 : N ≤ 2147483618) (hH : 0 ≤ H) :
    1 ≤ kNumThreads N H ∧ kNumThreads N H ≤ kMaxThreads N := by
  obtain ⟨b1, -, -, -⟩ := kMaxThreads_bounds N h1 h2
  unfold kNumThreads
  constructor
  · apply le_min
    · split_ifs <;> omega
    · exact b1
  · exact min_le_right _ _

/-! ## Tokens and case folding -/

theorem toNat_ofNat_small (n : Nat) (h : n < 55296) : (Char.ofNat n).toNat = n := by
  have hv : n.isValidChar := Or.inl h
  simp only [Char.ofNat, hv, dite_true, Char.toNat, Char.ofNatAux]
  rfl

theorem isDelimiter_tolower (c : Char) : isDelimiter (tolower c) = isDelimiter c := by
  unfold tolower
  split_ifs with h
  · have h1 : (Char.ofNat (c.toNat + 32)).toNat = c.toNat + 32 := toNat_ofNat_small _ (by omega)
    have a : isDelimiter c = false := by
      simp only [isDelimiter, isSpace, Bool.or_eq_false_iff, decide_eq_false_iff_not]
      omega
    have b : isDelimiter (Char.ofNat (c.toNat + 32)) = false := by
      simp only [isDelimiter, isSpace, h1, Bool.or_eq_false_iff, decide_eq_false_iff_not]
      omega
    rw [a, b]
  · rfl

theorem regexTokens_tolower (l : List Char) :
    ∀ cur : List Char, regexTokens (cur.map tolower) (l.map tolower)
      = (regexTokens cur l).map lowerString := by
  induction l with
  | nil =>
    intro cur
    cases cur <;> simp [regexTokens, lowerString]
  | cons c cs ih =>
    intro cur
    have h0 := ih []
    have h1 := ih (cur ++ [c])
    simp only [List.map_nil, List.map_append, List.map_cons] at h0 h1
    simp only [List.map_cons, regexTokens, isDelimiter_tolower]
    by_cases hd : isDelimiter c = true
    · cases cur with
      | nil => simp [hd, h0]
      | cons x xs => simp [hd, h0, lowerString]
    · simp only [hd, if_false, Bool.false_eq_true]
      exact h1

theorem lineTokens_fold (line : List Char) :
    lineTokens false line = (lineTokens true line).map lowerString := by
  unfold lineTokens
  by_cases h : line = []
  · simp [h]
  · have := regexTokens_tolower line []
    simp only [List.map_nil] at this
    simp [h, this]

/-- Case-insensitive reading yields the lower-cased tokens of case-sensitive reading. -/
theorem fileTokens_fold (text : String) :
    fileTokens false text = (fileTokens true text).map lowerString := by
  unfold fileTokens
  rw [List.map_flatMap]
  congr 1
  funext line
  exact lineTokens_fold line

/-! ## The whole run -/

theorem readFile_ok (b : Bool) (text : String) (h1 : 1 ≤ (fileTokens b text).length)
    (h2 : (fileTokens b text).length ≤ 2147483647) :
    ∃ mss, readFile (some text) ⟨0, false, b⟩ ⟨0, [], []⟩
      = Except.ok (mss, ⟨((fileTokens b text).length : Int), [], fileTokens b text⟩) := by
  simp only [readFile, List.nil_append, size_validation_ok _ h1 h2]
  exact ⟨_, rfl⟩

/-- A run of `main` on a readable file with between 1 and `INT_MAX - 29` tokens ends
normally, with the table of the tokens, whatever the hardware parallelism and the
schedule. -/
theorem main_ok (b : Bool) (text : String) (H : Int) (sched : List Nat)
    (h1 : 1 ≤ (fileTokens b text).length) (h2 : (fileTokens b text).length ≤ 2147483618)
    (hH : 0 ≤ H) :
    main b (some text) H sched
      = Except.ok ⟨((fileTokens b text).length : Int), tableOf (fileTokens b text),
          List.replicate (fileTokens b text).length ""⟩ := by
  obtain ⟨mss, hr⟩ := readFile_ok b text h1 (by omega)
  obtain ⟨w1, w2⟩ := kNumThreads_bounds ((fileTokens b text).length : Int) H (by omega)
    (by omega) hH
  obtain ⟨-, w3, -, -⟩ := kMaxThreads_bounds ((fileTokens b text).length : Int) (by omega)
    (by omega)
  obtain ⟨W, hWdef⟩ : ∃ W : Nat, kNumThreads ((fileTokens b text).length : Int) H = (W : Int) :=
    ⟨(kNumThreads ((fileTokens b text).length : Int) H).toNat, by rw [Int.toNat_of_nonneg]; omega⟩
  rw [hWdef] at w1 w2
  have hW1 : 1 ≤ W := by omega
  have hW2 : W ≤ 2147483647 := by omega
  have hz : ¬ ((W : Int) = 0) := by omega
  have hneg : ¬ (wrapInt ((W : Int) - 1) < 0) := by
    rw [wrapInt_id (by omega) (by omega)]
    omega
  have hc := concurrentPhase_eq ⟨0, false, b⟩ W (fileTokens b text).length (fileTokens b text) []
    sched (by omega) hW1 hW2 (le_refl _)
  obtain ⟨t1, t2⟩ := tableOf_total (fileTokens b text) (by omega)
  have hsum : checksum (tableOf (fileTokens b text)) = ((fileTokens b text).length : Int) := by
    rw [checksum_eq_total _ t1 (by rw [t2]; omega), t2]
  have htab : List.foldl criticalSection [] (fileTokens b text) = tableOf (fileTokens b text) :=
    rfl
  unfold main
  simp only [hr, hWdef, hz, if_false, hneg, hc]
  simp only [printResults, htab, hsum, ne_eq, not_true_eq_false, if_false]

/-! ## The claims -/

/-- C1 (coverage). For every token count `N` of type `int` (the claim's `N ≥ 1`, and
`N = 0` as well) and every worker count `W` of type `int` with `W ≥ 1`, with `offset`
and `b_fair_chunk_size` set as `main` sets them, each worker `i < W` visits a list of
indices `ranges i` such that every index of `[0, N-1]` lies in the range of exactly one
worker, no range holds an index outside `[0, N-1]` or an index twice, and the ranges of
workers `0, ..., W-1` put end to end are `0, 1, ..., N-1`. This includes `W > N`. -/
theorem C1_coverage (N W fuel : Nat) (p0 : Parser) (hNmax : (N : Int) ≤ INT_MAX)
    (hW : 1 ≤ W) (hWmax : (W : Int) ≤ INT_MAX) (hfuel : N ≤ fuel) :
    ∃ ranges : Nat → List Int,
      (∀ i, i < W → (configure p0 N W).indices N fuel i W = some (ranges i)) ∧
      (∀ j : Int, 0 ≤ j → j < N → ∃! i, i < W ∧ j ∈ ranges i) ∧
      (∀ i, i < W → (ranges i).Nodup ∧ ∀ j ∈ ranges i, 0 ≤ j ∧ j < N) ∧
      ((List.range W).map ranges).flatten = intRange 0 N := by
  have hN' : N ≤ 2147483647 := by unfold INT_MAX at hNmax; omega
  have hW' : W ≤ 2147483647 := by unfold INT_MAX at hWmax; omega
  refine ⟨fun i => intRange (rangeLo N W i) (rangeEnd N W i - rangeLo N W i), ?_, ?_, ?_, ?_⟩
  · intro i hi
    exact indices_configure p0 N W i fuel hN' hW hW' hi hfuel
  · intro j hj0 hjN
    obtain ⟨n, rfl⟩ := Int.eq_ofNat_of_zero_le hj0
    have hn : n < N := by omega
    have hlast := rangeEnd_last N W hW
    obtain ⟨i, h1, h2, h3⟩ := range_cover N W hW (W - 1) (by omega) n (by omega)
    have hi : i < W := by omega
    refine ⟨i, ⟨hi, ?_⟩, ?_⟩
    · simp only [mem_intRange]
      omega
    · rintro i' ⟨hi', hmem⟩
      simp only [mem_intRange] at hmem
      have hle' := rangeLo_le_rangeEnd N W i' hW hi'
      rcases Nat.lt_trichotomy i' i with hlt | heq | hgt
      · have := rangeEnd_le_rangeLo N W i' i hW hlt hi
        omega
      · exact heq
      · have := rangeEnd_le_rangeLo N W i i' hW hgt hi'
        omega
  · intro i hi
    refine ⟨nodup_intRange _ _, ?_⟩
    intro j hj
    simp only [mem_intRange] at hj
    have hle := rangeLo_le_rangeEnd N W i hW hi
    have hend := rangeEnd_le N W i hW hi
    omega
  · have := join_ranges N W hW (W - 1) (by omega)
    have e : W - 1 + 1 = W := by omega
    rw [e, rangeEnd_last N W hW] at this
    exact this

/-- Witness of C1: seven tokens among three workers. -/
theorem C1_coverage_witness :
    (((7 : Nat) : Int) ≤ INT_MAX ∧ 1 ≤ 3 ∧ ((3 : Nat) : Int) ≤ INT_MAX ∧ 7 ≤ 7) ∧
    ∃ ranges : Nat → List Int,
      (∀ i : Nat, i < 3 → (configure ⟨0, false, false⟩ (7 : Nat) (3 : Nat)).indices (7 : Nat) 7
        (i : Int) (3 : Nat) = some (ranges i)) ∧
      (∀ j : Int, 0 ≤ j → j < (7 : Nat) → ∃! i, i < 3 ∧ j ∈ ranges i) ∧
      (∀ i, i < 3 → (ranges i).Nodup ∧ ∀ j ∈ ranges i, 0 ≤ j ∧ j < (7 : Nat)) ∧
      ((List.range 3).map ranges).flatten = intRange 0 7 :=
  ⟨⟨by decide, by decide, by decide, by decide⟩,
    C1_coverage 7 3 7 ⟨0, false, false⟩ (by decide) (by decide) (by decide) (by decide)⟩

/-- C2 (count conservation). For every token sequence of a length `N` of type `int`
(the claim's `N ≥ 1`, and `N = 0` as well) and every worker count `W` of type `int`
with `W ≥ 1`, running all `W` workers
from the empty table - concurrently under any schedule, or one after the other in the
order `0, ..., W-1` - returns, and leaves a table whose counts sum to exactly `N`, so
that the checksum of `printResults` passes. -/
theorem C2_count_conservation (tokens : List String) (W fuel : Nat) (p0 : Parser)
    (sched : List Nat) (hNmax : (tokens.length : Int) ≤ INT_MAX)
    (hW : 1 ≤ W) (hWmax : (W : Int) ≤ INT_MAX) (hfuel : tokens.length ≤ fuel) :
    ∃ g : Globals,
      concurrentPhase (configure p0 tokens.length W) fuel W sched ⟨tokens.length, [], tokens⟩
        = some g ∧
      runWorkers (configure p0 tokens.length W) fuel W (workerIds W) ⟨tokens.length, [], tokens⟩
        = some g ∧
      g.g_word_count_map.total = tokens.length ∧
      printResults g.g_num_words g.g_word_count_map = Except.ok (tokens.length : Int) := by
  have hN' : tokens.length ≤ 2147483647 := by unfold INT_MAX at hNmax; omega
  have hW' : W ≤ 2147483647 := by unfold INT_MAX at hWmax; omega
  obtain ⟨t1, t2⟩ := tableOf_total tokens hN'
  have hsum : checksum (tableOf tokens) = (tokens.length : Int) := by
    rw [checksum_eq_total _ t1 (by rw [t2]; omega), t2]
  refine ⟨⟨tokens.length, tableOf tokens, List.replicate tokens.length ""⟩,
    concurrentPhase_eq p0 W fuel tokens [] sched hN' hW hW' hfuel,
    runWorkers_all p0 W fuel tokens [] hN' hW hW' hfuel, t2, ?_⟩
  simp [printResults, hsum]

/-- Witness of C2: four tokens, three workers, a schedule that interleaves them. -/
theorem C2_count_conservation_witness :
    (((["the", "quick", "the", "Quick"].length : Nat) : Int) ≤ INT_MAX ∧ 1 ≤ 3 ∧
      ((3 : Nat) : Int) ≤ INT_MAX ∧ ["the", "quick", "the", "Quick"].length ≤ 4) ∧
    ∃ g : Globals,
      concurrentPhase (configure ⟨0, false, true⟩ (["the", "quick", "the", "Quick"].length : Nat)
          (3 : Nat)) 4 (3 : Nat) [2, 0, 1, 2]
        ⟨(["the", "quick", "the", "Quick"].length : Nat), [], ["the", "quick", "the", "Quick"]⟩
        = some g ∧
      runWorkers (configure ⟨0, false, true⟩ (["the", "quick", "the", "Quick"].length : Nat)
          (3 : Nat)) 4 (3 : Nat) (workerIds 3)
        ⟨(["the", "quick", "the", "Quick"].length : Nat), [], ["the", "quick", "the", "Quick"]⟩
        = some g ∧
      g.g_word_count_map.total = (["the", "quick", "the", "Quick"].length : Nat) ∧
      printResults g.g_num_words g.g_word_count_map
        = Except.ok ((["the", "quick", "the", "Quick"].length : Nat) : Int) :=
  ⟨⟨by decide, by decide, by decide, by decide⟩,
    C2_count_conservation ["the", "quick", "the", "Quick"] 3 4 ⟨0, false, true⟩ [2, 0, 1, 2]
      (by decide) (by decide) (by decide) (by decide)⟩

/-- C3 (exact counts). For every token sequence of a length `N` of type `int` (the
claim's `N ≥ 1`, and `N = 0` as well) and every worker count `W` of type `int` with
`W ≥ 1`, after all `W` workers have run from the empty
table (under any schedule) the keys of `g_word_count_map` are strictly increasing, hence
distinct, they are exactly the tokens of the sequence, and the count stored for each
word is the number of its occurrences in the sequence. -/
theorem C3_exact_counts (tokens : List String) (W fuel : Nat) (p0 : Parser)
    (sched : List Nat) (hNmax : (tokens.length : Int) ≤ INT_MAX)
    (hW : 1 ≤ W) (hWmax : (W : Int) ≤ INT_MAX) (hfuel : tokens.length ≤ fuel) :
    ∃ g : Globals,
      concurrentPhase (configure p0 tokens.length W) fuel W sched ⟨tokens.length, [], tokens⟩
        = some g ∧
      g.g_word_count_map.WF ∧
      (∀ w, w ∈ g.g_word_count_map.keys ↔ w ∈ tokens) ∧
      (∀ w, w ∈ tokens → g.g_word_count_map.find w = some (tokens.count w : Int)) := by
  have hN' : tokens.length ≤ 2147483647 := by unfold INT_MAX at hNmax; omega
  have hW' : W ≤ 2147483647 := by unfold INT_MAX at hWmax; omega
  obtain ⟨f1, f2⟩ := tableOf_find tokens hN'
  refine ⟨⟨tokens.length, tableOf tokens, List.replicate tokens.length ""⟩,
    concurrentPhase_eq p0 W fuel tokens [] sched hN' hW hW' hfuel, f1, ?_, ?_⟩
  · intro w
    have h := find_eq_none_iff (tableOf tokens) w
    rw [f2 w] at h
    by_cases hc : tokens.count w = 0
    · rw [if_pos hc] at h
      have hk : w ∉ (tableOf tokens).keys := h.mp rfl
      have hm : w ∉ tokens := List.count_eq_zero.mp hc
      exact ⟨fun x => absurd x hk, fun x => absurd x hm⟩
    · rw [if_neg hc] at h
      have hk : w ∈ (tableOf tokens).keys := by
        by_contra hn
        have := h.mpr hn
        cases this
      have hm : w ∈ tokens := by
        by_contra hn
        exact hc (List.count_eq_zero.mpr hn)
      exact ⟨fun _ => hm, fun _ => hk⟩
  · intro w hw
    have hc : tokens.count w ≠ 0 := fun h0 => List.count_eq_zero.mp h0 hw
    rw [f2 w]
    simp [hc]

/-- Witness of C3: seven tokens, three workers, a schedule that interleaves them. -/
theorem C3_exact_counts_witness :
    (((["a", "b", "c", "a", "b", "c", "a"].length : Nat) : Int) ≤ INT_MAX ∧ 1 ≤ 3 ∧
      ((3 : Nat) : Int) ≤ INT_MAX ∧ ["a", "b", "c", "a", "b", "c", "a"].length ≤ 7) ∧
    ∃ g : Globals,
      concurrentPhase
          (configure ⟨0, false, true⟩ (["a", "b", "c", "a", "b", "c", "a"].length : Nat)
            (3 : Nat)) 7 (3 : Nat) [2, 1, 0, 2, 2, 2, 1, 5]
          ⟨(["a", "b", "c", "a", "b", "c", "a"].length : Nat), [],
            ["a", "b", "c", "a", "b", "c", "a"]⟩ = some g ∧
      g.g_word_count_map.WF ∧
      (∀ w, w ∈ g.g_word_count_map.keys ↔ w ∈ ["a", "b", "c", "a", "b", "c", "a"]) ∧
      (∀ w, w ∈ ["a", "b", "c", "a", "b", "c", "a"] →
        g.g_word_count_map.find w
          = some ((["a", "b", "c", "a", "b", "c", "a"].count w : Nat) : Int)) :=
  ⟨⟨by decide, by decide, by decide, by decide⟩,
    C3_exact_counts ["a", "b", "c", "a", "b", "c", "a"] 3 7 ⟨0, false, true⟩
      [2, 1, 0, 2, 2, 2, 1, 5] (by decide) (by decide) (by decide) (by decide)⟩

/-- C4, counterexample to the claim as stated. The counts `INT_MAX`, `INT_MAX` and `3`
sum to `2^32 + 1`, which differs from `N = 1`, yet the `int` accumulator of
`printResults` wraps around to `1` and the function returns normally. -/
theorem C4_counterexample :
    Table.WF [("a", 2147483647), ("b", 2147483647), ("c", 3)] ∧
    Table.total [("a", 2147483647), ("b", 2147483647), ("c", 3)] ≠ 1 ∧
    printResults 1 [("a", 2147483647), ("b", 2147483647), ("c", 3)] = Except.ok 1 := by
  refine ⟨by unfold Table.WF; decide, by decide, ?_⟩
  with_unfolding_all rfl

/-- C4 (checksum validation), amended. For every frequency table with non-negative
counts whose sum does not exceed `INT_MAX`, and every `N`, `printResults` raises
`runtime_error` if and only if the sum of the counts differs from `N`; a table whose
counts sum to `N` makes it return normally, a table with one increment missing
(sum `N - 1`) makes it raise the error. -/
theorem C4_checksum_validation (m : Table) (N : Int) (hnn : ∀ e ∈ m, 0 ≤ e.2)
    (hfit : m.total ≤ INT_MAX) :
    (printResults N m = Except.error Failure.runtime_error ↔ m.total ≠ N) ∧
    (m.total = N → printResults N m = Except.ok N) ∧
    (m.total = N - 1 → printResults N m = Except.error Failure.runtime_error) := by
  have hs : checksum m = m.total := checksum_eq_total m hnn (by unfold INT_MAX at hfit; omega)
  unfold printResults
  rw [hs]
  refine ⟨?_, ?_, ?_⟩
  · by_cases h : m.total = N
    · simp [h]
    · simp [h]
  · intro h
    simp [h]
  · intro h
    have : m.total ≠ N := by omega
    simp [this]

/-- Witness of C4: the table of the words the, quick, the, Quick with `N = 4`. -/
theorem C4_checksum_validation_witness :
    ((∀ e ∈ ([("Quick", 1), ("quick", 1), ("the", 2)] : Table), 0 ≤ e.2) ∧
      Table.total [("Quick", 1), ("quick", 1), ("the", 2)] ≤ INT_MAX) ∧
    (printResults 4 [("Quick", 1), ("quick", 1), ("the", 2)]
        = Except.error Failure.runtime_error ↔
      Table.total [("Quick", 1), ("quick", 1), ("the", 2)] ≠ 4) ∧
    (Table.total [("Quick", 1), ("quick", 1), ("the", 2)] = 4 →
      printResults 4 [("Quick", 1), ("quick", 1), ("the", 2)] = Except.ok 4) ∧
    (Table.total [("Quick", 1), ("quick", 1), ("the", 2)] = 4 - 1 →
      printResults 4 [("Quick", 1), ("quick", 1), ("the", 2)]
        = Except.error Failure.runtime_error) :=
  ⟨⟨by decide, by decide⟩,
    C4_checksum_validation [("Quick", 1), ("quick", 1), ("the", 2)] 4 (by decide) (by decide)⟩

/-- C5 (determinism across worker counts). For every token sequence of a length `N` of
type `int` (the claim's `N ≥ 1`, and `N = 0` as well) and every two worker counts `W1`
and `W2` of type `int`, both at least 1, the
run with `W1` workers and the run with `W2` workers, each under any schedule, both
return and leave identical frequency tables. -/
theorem C5_determinism (tokens : List String) (W1 W2 fuel1 fuel2 : Nat) (p1 p2 : Parser)
    (sched1 sched2 : List Nat) (hNmax : (tokens.length : Int) ≤ INT_MAX)
    (hW1 : 1 ≤ W1) (hW1max : (W1 : Int) ≤ INT_MAX) (hW2 : 1 ≤ W2)
    (hW2max : (W2 : Int) ≤ INT_MAX) (hfuel1 : tokens.length ≤ fuel1)
    (hfuel2 : tokens.length ≤ fuel2) :
    ∃ g1 g2 : Globals,
      concurrentPhase (configure p1 tokens.length W1) fuel1 W1 sched1
        ⟨tokens.length, [], tokens⟩ = some g1 ∧
      concurrentPhase (configure p2 tokens.length W2) fuel2 W2 sched2
        ⟨tokens.length, [], tokens⟩ = some g2 ∧
      g1.g_word_count_map = g2.g_word_count_map := by
  have hN' : tokens.length ≤ 2147483647 := by unfold INT_MAX at hNmax; omega
  have hW1' : W1 ≤ 2147483647 := by unfold INT_MAX at hW1max; omega
  have hW2' : W2 ≤ 2147483647 := by unfold INT_MAX at hW2max; omega
  exact ⟨_, _, concurrentPhase_eq p1 W1 fuel1 tokens [] sched1 hN' hW1 hW1' hfuel1,
    concurrentPhase_eq p2 W2 fuel2 tokens [] sched2 hN' hW2 hW2' hfuel2, rfl⟩

/-- Witness of C5: five tokens with one worker and with three interleaved workers. -/
theorem C5_determinism_witness :
    (((["b", "a", "b", "c", "b"].length : Nat) : Int) ≤ INT_MAX ∧
      1 ≤ 1 ∧ ((1 : Nat) : Int) ≤ INT_MAX ∧ 1 ≤ 3 ∧ ((3 : Nat) : Int) ≤ INT_MAX ∧
      ["b", "a", "b", "c", "b"].length ≤ 5 ∧ ["b", "a", "b", "c", "b"].length ≤ 9) ∧
    ∃ g1 g2 : Globals,
      concurrentPhase (configure ⟨0, false, true⟩ (["b", "a", "b", "c", "b"].length : Nat)
          (1 : Nat)) 5 (1 : Nat) []
        ⟨(["b", "a", "b", "c", "b"].length : Nat), [], ["b", "a", "b", "c", "b"]⟩ = some g1 ∧
      concurrentPhase (configure ⟨7, true, true⟩ (["b", "a", "b", "c", "b"].length : Nat)
          (3 : Nat)) 9 (3 : Nat) [2, 2, 0, 1]
        ⟨(["b", "a", "b", "c", "b"].length : Nat), [], ["b", "a", "b", "c", "b"]⟩ = some g2 ∧
      g1.g_word_count_map = g2.g_word_count_map :=
  ⟨⟨by decide, by decide, by decide, by decide, by decide, by decide, by decide⟩,
    C5_determinism ["b", "a", "b", "c", "b"] 1 3 5 9 ⟨0, false, true⟩ ⟨7, true, true⟩ []
      [2, 2, 0, 1] (by decide) (by decide) (by decide) (by decide) (by decide) (by decide)
      (by decide)⟩

/-- C6, counterexample to the claim as stated. A key present with the non-negative
count `INT_MAX` does not get its count raised by 1: the `int` wraps to `INT_MIN`. -/
theorem C6_counterexample :
    Table.WF [("a", 2147483647)] ∧
    Table.find [("a", 2147483647)] "a" = some 2147483647 ∧
    Table.find (criticalSection [("a", 2147483647)] "a") "a" = some (-2147483648) := by
  refine ⟨by unfold Table.WF; decide, by decide, ?_⟩
  with_unfolding_all rfl

/-- C6 (increment), amended. For every frequency table (a map: keys strictly
increasing) and every key, the critical section inserts the key with count 1 when it is
absent, adds exactly 1 to its count when it is present with a non-negative count below
`INT_MAX`, and leaves the count of every other key unchanged; the result is again a
map, whose keys are the old keys and the key updated. -/
theorem C6_increment (m : Table) (k : String) (hwf : m.WF) :
    (m.find k = none → (criticalSection m k).find k = some 1) ∧
    (∀ v, m.find k = some v → 0 ≤ v → v < INT_MAX →
      (criticalSection m k).find k = some (v + 1)) ∧
    (∀ w, w ≠ k → (criticalSection m k).find w = m.find w) ∧
    (criticalSection m k).WF ∧
    (∀ w, w ∈ (criticalSection m k).keys ↔ w = k ∨ w ∈ m.keys) := by
  rw [criticalSection_eq_bump]
  refine ⟨?_, ?_, ?_, bump_WF m k hwf, mem_keys_bump m k⟩
  · intro h
    rw [find_bump_self m k hwf, h]
    rfl
  · intro v h h0 hmax
    have hw : wrapInt (v + 1) = v + 1 := by
      unfold INT_MAX at hmax
      exact wrapInt_id (by omega) (by omega)
    rw [find_bump_self m k hwf, h]
    simp [bumped, h0, hw]
  · intro w hw
    exact find_bump_ne m k w hw

/-- Witness of C6: the table quick:1, the:2 and the key "the". -/
theorem C6_increment_witness :
    Table.WF [("quick", 1), ("the", 2)] ∧
    ((Table.find [("quick", 1), ("the", 2)] "the" = none →
        (criticalSection [("quick", 1), ("the", 2)] "the").find "the" = some 1) ∧
      (∀ v, Table.find [("quick", 1), ("the", 2)] "the" = some v → 0 ≤ v → v < INT_MAX →
        (criticalSection [("quick", 1), ("the", 2)] "the").find "the" = some (v + 1)) ∧
      (∀ w, w ≠ "the" → (criticalSection [("quick", 1), ("the", 2)] "the").find w
        = Table.find [("quick", 1), ("the", 2)] w) ∧
      (criticalSection [("quick", 1), ("the", 2)] "the").WF ∧
      (∀ w, w ∈ (criticalSection [("quick", 1), ("the", 2)] "the").keys ↔
        w = "the" ∨ w ∈ Table.keys [("quick", 1), ("the", 2)])) :=
  ⟨by unfold Table.WF; decide,
    C6_increment [("quick", 1), ("the", 2)] "the" (by unfold Table.WF; decide)⟩

/-- The four cases of `size_validation` on a 64-bit `size_t` value: zero is rejected
as `invalid_argument`, `1 .. INT_MAX` is returned unchanged, everything from `INT_MAX + 1`
up to `2^64 - 2^31 - 1` is rejected as `runtime_error`, and the top `2^31` values pass
the round trip by sign extension and are returned as negative numbers. -/
theorem size_validation_cases (n : Nat) (hn : n < SIZE_MOD) :
    (n = 0 → size_validation n = Except.error Failure.invalid_argument) ∧
    (1 ≤ n → n ≤ 2147483647 → size_validation n = Except.ok (n : Int)) ∧
    (2147483647 < n → n < 18446744071562067968 →
      size_validation n = Except.error Failure.runtime_error) ∧
    (18446744071562067968 ≤ n →
      size_validation n = Except.ok ((n : Int) - 18446744073709551616)) := by
  unfold SIZE_MOD at hn
  refine ⟨?_, fun h1 h2 => size_validation_ok n h1 h2, ?_, ?_⟩
  · intro h
    subst h
    with_unfolding_all rfl
  · intro h1 h2
    have hne : castToSize (castToInt n) ≠ n := by
      unfold castToSize castToInt wrapInt SIZE_MOD
      simp only [Int.ofNat_eq_coe]
      split_ifs <;> omega
    simp [size_validation, hne]
  · intro h1
    have hc : castToInt n = (n : Int) - 18446744073709551616 := by
      unfold castToInt wrapInt
      simp only [Int.ofNat_eq_coe]
      split_ifs <;> omega
    have hs : castToSize ((n : Int) - 18446744073709551616) = n := by
      unfold castToSize SIZE_MOD
      simp only [Int.ofNat_eq_coe]
      omega
    have hz : ¬ ((n : Int) - 18446744073709551616 = 0) := by omega
    simp [size_validation, hc, hs, hz]

/-- C9, the code at the failing input. For the `size_t` value `2^64 - 1` the cast to
`int` gives `-1`, the cast back gives `2^64 - 1` again, so the narrowing test passes and
`size_validation` returns `-1` instead of raising `runtime_error`. -/
theorem C9_size_validation_at_size_max :
    size_validation 18446744073709551615 = Except.ok (-1) := by
  with_unfolding_all rfl

/-- The thread-count formula of `main` where its `int` arithmetic does not overflow:
for `1 ≤ N ≤ INT_MAX - 29`, `kMaxThreads` is `ceil(N / 30)` and `kNumThreads` is the
minimum of that and the hardware parallelism (2 when unknown). -/
theorem kNumThreads_eq (N H : Int) (h1 : 1 ≤ N) (h2 : N ≤ INT_MAX - 29) :
    kMaxThreads N = (N + 29) / 30 ∧ 30 * (kMaxThreads N - 1) < N ∧ N ≤ 30 * kMaxThreads N ∧
    kNumThreads N H = min (if H ≠ 0 then H else 2) ((N + 29) / 30) := by
  have h2' : N ≤ 2147483618 := by unfold INT_MAX at h2; omega
  obtain ⟨-, -, b3, b4⟩ := kMaxThreads_bounds N h1 h2'
  refine ⟨kMaxThreads_eq N h1 h2', b3, b4, ?_⟩
  unfold kNumThreads
  rw [kMaxThreads_eq N h1 h2']

/-- C10, the code at the failing input. For `N = INT_MAX` the sum
`g_num_words - 1 + kMinPerThread` overflows the type `int`: `kMaxThreads` is
`-71582787` instead of `ceil(N / 30) = 71582789`, and with four hardware threads
`kNumThreads` is `-71582787` instead of `4`. -/
theorem C10_worker_count_at_int_max :
    kMaxThreads INT_MAX = -71582787 ∧ (INT_MAX + 29) / 30 = 71582789 ∧
    kNumThreads INT_MAX 4 = -71582787 ∧ min (4 : Int) ((INT_MAX + 29) / 30) = 4 := by
  refine ⟨?_, by decide, ?_, by decide⟩
  · with_unfolding_all decide
  · with_unfolding_all decide

theorem tableOf_scenario_folded :
    tableOf ["the", "quick", "the", "quick"] = [("quick", 2), ("the", 2)] := by
  with_unfolding_all rfl

theorem tableOf_scenario_spelled :
    tableOf ["the", "quick", "the", "Quick"] = [("Quick", 1), ("quick", 1), ("the", 2)] := by
  with_unfolding_all rfl

/-- C7 (case-insensitive folding). With `b_case_sensitive = false`, for every readable
file with a token count of type `int` (at least 1), every worker count `W ≥ 1` and every
schedule: the tokens `readFile` stores are the lower-cased tokens of the file, the
concurrent phase returns, and for every token `u` as spelled in the file the key
`lowerString u` of the final table counts all tokens that differ from `u` at most in
letter case. For the input words the, quick, the, Quick, `main` ends normally with the
final table quick:2, the:2, whatever the hardware parallelism and the schedule, and the
checksum is `4 = N`. -/
theorem C7_case_insensitive (text : String) (W fuel : Nat) (H : Int) (sched : List Nat)
    (h1 : 1 ≤ (fileTokens false text).length)
    (h2 : ((fileTokens false text).length : Int) ≤ INT_MAX)
    (hW : 1 ≤ W) (hWmax : (W : Int) ≤ INT_MAX)
    (hfuel : (fileTokens false text).length ≤ fuel) (hH : 0 ≤ H) :
    fileTokens false text = (fileTokens true text).map lowerString ∧
    (∃ (mss : Nat) (g0 g : Globals),
      readFile (some text) ⟨0, false, false⟩ ⟨0, [], []⟩ = Except.ok (mss, g0) ∧
      g0.g_word_vector = (fileTokens true text).map lowerString ∧
      concurrentPhase (configure ⟨0, false, false⟩ g0.g_num_words W) fuel W sched g0 = some g ∧
      ∀ u, u ∈ fileTokens true text →
        g.g_word_count_map.find (lowerString u)
          = some (((fileTokens true text).countP
              (fun t => decide (lowerString t = lowerString u)) : Nat) : Int)) ∧
    main false (some "the quick the Quick") H sched
      = Except.ok ⟨4, [("quick", 2), ("the", 2)], ["", "", "", ""]⟩ ∧
    printResults 4 [("quick", 2), ("the", 2)] = Except.ok 4 := by
  have h2' : (fileTokens false text).length ≤ 2147483647 := by unfold INT_MAX at h2; omega
  have hW' : W ≤ 2147483647 := by unfold INT_MAX at hWmax; omega
  obtain ⟨mss, hr⟩ := readFile_ok false text h1 h2'
  refine ⟨fileTokens_fold text, ⟨mss, _, _, hr, fileTokens_fold text,
    concurrentPhase_eq ⟨0, false, false⟩ W fuel (fileTokens false text) [] sched h2' hW hW'
      hfuel, ?_⟩, ?_, ?_⟩
  · intro u hu
    obtain ⟨-, f2⟩ := tableOf_find (fileTokens false text) h2'
    have htab : List.foldl criticalSection [] (fileTokens false text)
        = tableOf (fileTokens false text) := rfl
    simp only [htab, f2]
    have hmem : lowerString u ∈ fileTokens false text := by
      rw [fileTokens_fold]
      exact List.mem_map_of_mem _ hu
    have hc : (fileTokens false text).count (lowerString u) ≠ 0 :=
      fun h0 => List.count_eq_zero.mp h0 hmem
    simp only [hc, if_false]
    congr 2
    rw [fileTokens_fold, List.count, List.countP_map]
    congr 1
  · have ht : fileTokens false "the quick the Quick" = ["the", "quick", "the", "quick"] := by
      rfl
    have := main_ok false "the quick the Quick" H sched (by rw [ht]; decide)
      (by rw [ht]; decide) hH
    rw [ht, tableOf_scenario_folded] at this
    exact this
  · with_unfolding_all rfl

/-- Witness of C7: a two-line file with the words of the scenario in mixed case, two
workers. -/
theorem C7_case_insensitive_witness :
    (1 ≤ (fileTokens false "The quick\nthe Quick").length ∧
      ((fileTokens false "The quick\nthe Quick").length : Int) ≤ INT_MAX ∧
      1 ≤ 2 ∧ ((2 : Nat) : Int) ≤ INT_MAX ∧
      (fileTokens false "The quick\nthe Quick").length ≤ 4 ∧ (0 : Int) ≤ 8) ∧
    (fileTokens false "The quick\nthe Quick"
        = (fileTokens true "The quick\nthe Quick").map lowerString ∧
      (∃ (mss : Nat) (g0 g : Globals),
        readFile (some "The quick\nthe Quick") ⟨0, false, false⟩ ⟨0, [], []⟩
          = Except.ok (mss, g0) ∧
        g0.g_word_vector = (fileTokens true "The quick\nthe Quick").map lowerString ∧
        concurrentPhase (configure ⟨0, false, false⟩ g0.g_num_words (2 : Nat)) 4 (2 : Nat)
          [1, 0, 1] g0 = some g ∧
        ∀ u, u ∈ fileTokens true "The quick\nthe Quick" →
          g.g_word_count_map.find (lowerString u)
            = some (((fileTokens true "The quick\nthe Quick").countP
                (fun t => decide (lowerString t = lowerString u)) : Nat) : Int)) ∧
      main false (some "the quick the Quick") 8 [1, 0, 1]
        = Except.ok ⟨4, [("quick", 2), ("the", 2)], ["", "", "", ""]⟩ ∧
      printResults 4 [("quick", 2), ("the", 2)] = Except.ok 4) :=
  ⟨⟨by decide, by decide, by decide, by decide, by decide, by decide⟩,
    C7_case_insensitive "The quick\nthe Quick" 2 4 8 [1, 0, 1] (by decide) (by decide)
      (by decide) (by decide) (by decide) (by decide)⟩

/-- C8 (case-sensitive counting). With `b_case_sensitive = true`, for every readable
file with a token count of type `int` (at least 1), every worker count `W ≥ 1` and every
schedule, `readFile` stores the tokens as spelled, the concurrent phase returns, and the
final table has exactly the tokens of the file as keys, each as spelled, with the number
of its exact occurrences as count; two tokens that differ, be it only in letter case,
are two keys with their own counts. For the input words the, quick, the, Quick, `main`
ends normally with the final table Quick:1, quick:1, the:2, whatever the hardware
parallelism and the schedule, and the checksum is 4. -/
theorem C8_case_sensitive (text : String) (W fuel : Nat) (H : Int) (sched : List Nat)
    (h1 : 1 ≤ (fileTokens true text).length)
    (h2 : ((fileTokens true text).length : Int) ≤ INT_MAX)
    (hW : 1 ≤ W) (hWmax : (W : Int) ≤ INT_MAX)
    (hfuel : (fileTokens true text).length ≤ fuel) (hH : 0 ≤ H) :
    (∃ (mss : Nat) (g0 g : Globals),
      readFile (some text) ⟨0, false, true⟩ ⟨0, [], []⟩ = Except.ok (mss, g0) ∧
      g0.g_word_vector = fileTokens true text ∧
      concurrentPhase (configure ⟨0, false, true⟩ g0.g_num_words W) fuel W sched g0 = some g ∧
      g.g_word_count_map.WF ∧
      (∀ w, w ∈ g.g_word_count_map.keys ↔ w ∈ fileTokens true text) ∧
      (∀ w, w ∈ fileTokens true text →
        g.g_word_count_map.find w = some ((fileTokens true text).count w : Int)) ∧
      (∀ u v, u ∈ fileTokens true text → v ∈ fileTokens true text → u ≠ v →
        lowerString u = lowerString v →
        g.g_word_count_map.find u = some ((fileTokens true text).count u : Int) ∧
        g.g_word_count_map.find v = some ((fileTokens true text).count v : Int))) ∧
    main true (some "the quick the Quick") H sched
      = Except.ok ⟨4, [("Quick", 1), ("quick", 1), ("the", 2)], ["", "", "", ""]⟩ ∧
    printResults 4 [("Quick", 1), ("quick", 1), ("the", 2)] = Except.ok 4 := by
  have h2' : (fileTokens true text).length ≤ 2147483647 := by unfold INT_MAX at h2; omega
  have hW' : W ≤ 2147483647 := by unfold INT_MAX at hWmax; omega
  obtain ⟨mss, hr⟩ := readFile_ok true text h1 h2'
  obtain ⟨f1, f2⟩ := tableOf_find (fileTokens true text) h2'
  have hcount : ∀ w, w ∈ fileTokens true text →
      (tableOf (fileTokens true text)).find w = some ((fileTokens true text).count w : Int) := by
    intro w hw
    have hc : (fileTokens true text).count w ≠ 0 := fun h0 => List.count_eq_zero.mp h0 hw
    simp only [f2 w, hc, if_false]
  refine ⟨⟨mss, _, _, hr, rfl,
    concurrentPhase_eq ⟨0, false, true⟩ W fuel (fileTokens true text) [] sched h2' hW hW'
      hfuel, f1, ?_, hcount, fun u v hu hv _ _ => ⟨hcount u hu, hcount v hv⟩⟩, ?_, ?_⟩
  · intro w
    have h := find_eq_none_iff (tableOf (fileTokens true text)) w
    rw [f2 w] at h
    by_cases hc : (fileTokens true text).count w = 0
    · rw [if_pos hc] at h
      have hk : w ∉ (tableOf (fileTokens true text)).keys := h.mp rfl
      have hm : w ∉ fileTokens true text := List.count_eq_zero.mp hc
      exact ⟨fun x => absurd x hk, fun x => absurd x hm⟩
    · rw [if_neg hc] at h
      have hk : w ∈ (tableOf (fileTokens true text)).keys := by
        by_contra hn
        have := h.mpr hn
        cases this
      have hm : w ∈ fileTokens true text := by
        by_contra hn
        exact hc (List.count_eq_zero.mpr hn)
      exact ⟨fun _ => hm, fun _ => hk⟩
  · have ht : fileTokens true "the quick the Quick" = ["the", "quick", "the", "Quick"] := by
      rfl
    have := main_ok true "the quick the Quick" H sched (by rw [ht]; decide)
      (by rw [ht]; decide) hH
    rw [ht, tableOf_scenario_spelled] at this
    exact this
  · with_unfolding_all rfl

/-- Witness of C8: a two-line file with the words of the scenario in mixed case, two
workers. -/
theorem C8_case_sensitive_witness :
    (1 ≤ (fileTokens true "The quick\nthe Quick").length ∧
      ((fileTokens true "The quick\nthe Quick").length : Int) ≤ INT_MAX ∧
      1 ≤ 2 ∧ ((2 : Nat) : Int) ≤ INT_MAX ∧
      (fileTokens true "The quick\nthe Quick").length ≤ 4 ∧ (0 : Int) ≤ 8) ∧
    ((∃ (mss : Nat) (g0 g : Globals),
        readFile (some "The quick\nthe Quick") ⟨0, false, true⟩ ⟨0, [], []⟩
          = Except.ok (mss, g0) ∧
        g0.g_word_vector = fileTokens true "The quick\nthe Quick" ∧
        concurrentPhase (configure ⟨0, false, true⟩ g0.g_num_words (2 : Nat)) 4 (2 : Nat)
          [1, 0, 1] g0 = some g ∧
        g.g_word_count_map.WF ∧
        (∀ w, w ∈ g.g_word_count_map.keys ↔ w ∈ fileTokens true "The quick\nthe Quick") ∧
        (∀ w, w ∈ fileTokens true "The quick\nthe Quick" →
          g.g_word_count_map.find w
            = some ((fileTokens true "The quick\nthe Quick").count w : Int)) ∧
        (∀ u v, u ∈ fileTokens true "The quick\nthe Quick" →
          v ∈ fileTokens true "The quick\nthe Quick" → u ≠ v →
          lowerString u = lowerString v →
          g.g_word_count_map.find u
            = some ((fileTokens true "The quick\nthe Quick").count u : Int) ∧
          g.g_word_count_map.find v
            = some ((fileTokens true "The quick\nthe Quick").count v : Int))) ∧
      main true (some "the quick the Quick") 8 [1, 0, 1]
        = Except.ok ⟨4, [("Quick", 1), ("quick", 1), ("the", 2)], ["", "", "", ""]⟩ ∧
      printResults 4 [("Quick", 1), ("quick", 1), ("the", 2)] = Except.ok 4) :=
  ⟨⟨by decide, by decide, by decide, by decide, by decide, by decide⟩,
    C8_case_sensitive "The quick\nthe Quick" 2 4 8 [1, 0, 1] (by decide) (by decide)
      (by decide) (by decide) (by decide) (by decide)⟩

/-! ## Sizes and shapes of the ranges -/

/-- The loop bounds of a worker are those of the branch it takes. -/
theorem bounds_eq_branchBounds (p : Parser) (g_num_words start_index num_threads : Int) :
    p.bounds g_num_words start_index num_threads
      = p.branchBounds g_num_words start_index num_threads (p.branch start_index num_threads) := by
  unfold Parser.bounds Parser.branch
  by_cases h1 : p.b_fair_chunk_size = true
  · rw [if_pos h1, if_pos h1]
    rfl
  · rw [if_neg h1, if_neg h1]
    by_cases h2 : p.b_fair_chunk_size = false ∧ start_index ≠ wrapInt (num_threads - 1)
    · rw [if_pos h2, if_pos h2]
      rfl
    · rw [if_neg h2, if_neg h2]
      rfl

theorem configure_fair_iff (p0 : Parser) (N W : Nat) :
    (configure p0 N W).b_fair_chunk_size = true ↔ N % W = 0 := by
  have hr : Int.tmod (N : Int) (W : Int) = ((N % W : Nat) : Int) := (Int.ofNat_tmod N W).symm
  have hb : (configure p0 N W).b_fair_chunk_size
      = if ((N % W : Nat) : Int) = 0 then true else false := by
    unfold configure
    rw [hr]
  rw [hb]
  by_cases h0 : N % W = 0
  · have : ((N % W : Nat) : Int) = 0 := by exact_mod_cast h0
    rw [if_pos this]
    exact ⟨fun _ => h0, fun _ => rfl⟩
  · have : ¬ (((N % W : Nat) : Int) = 0) := by exact_mod_cast h0
    rw [if_neg this]
    exact ⟨fun h => absurd h (by decide), fun h => absurd h h0⟩

theorem configure_offset (p0 : Parser) (N W : Nat) (hN : N ≤ 2147483647) :
    (configure p0 N W).offset = ((N / W : Nat) : Int) := by
  have hq : Int.tdiv (N : Int) (W : Int) = ((N / W : Nat) : Int) := (Int.ofNat_tdiv N W).symm
  have hle : N / W ≤ N := Nat.div_le_self N W
  unfold configure
  simp only [hq]
  exact wrapInt_natCast (by omega)

/-- The closed forms in the fair case. -/
theorem range_fair (N W i : Nat) (hfair : N % W = 0) :
    rangeLo N W i = i * (N / W) ∧ rangeEnd N W i - rangeLo N W i = N / W := by
  unfold rangeLo rangeEnd
  rw [if_pos hfair, if_pos hfair, Nat.succ_mul]
  exact ⟨rfl, Nat.add_sub_cancel_left _ _⟩

/-- The closed forms in the unfair case. -/
theorem range_unfair (N W i : Nat) (hW : 1 ≤ W) (hi : i < W) (hunfair : N % W ≠ 0) :
    2 ≤ W ∧ 1 ≤ N % W ∧
    rangeLo N W i = (if i = 0 then 0 else i * (N / W) + 1) ∧
    rangeEnd N W i - rangeLo N W i
      = (if i + 1 = W then N / W + N % W - 1 else if i = 0 then N / W + 1 else N / W) := by
  obtain ⟨q, r, a, b, e1, e2, e3, e4, h1, h2, h3, h4, h5, h6, h7⟩ := range_atoms N W i hW hi
  have hW2 : 2 ≤ W := by
    by_contra hlt
    have hW1 : W = 1 := by omega
    rw [hW1, Nat.mod_one] at hunfair
    exact hunfair rfl
  rw [h6, h7, e1, e2]
  rw [e2] at hunfair
  refine ⟨hW2, by omega, ?_, ?_⟩
  · by_cases hi0 : i = 0
    · subst hi0
      have : a = 0 := by rw [← e3]; simp
      simp [hunfair, this]
    · have hpos : i > 0 := Nat.pos_of_ne_zero hi0
      simp only [hunfair, if_false, hpos, if_true, hi0, e3]
  · by_cases hi0 : i = 0
    · subst hi0
      have ha : a = 0 := by rw [← e3]; simp
      have hl : ¬ (0 + 1 = W) := by omega
      simp only [hunfair, if_false, hl, ha, lt_irrefl, if_true]
      omega
    · have hpos : i > 0 := Nat.pos_of_ne_zero hi0
      by_cases hl : i + 1 = W
      · have := h5 hl
        simp only [hunfair, if_false, hl, if_true, hpos]
        omega
      · simp only [hunfair, if_false, hl, hpos, if_true, hi0]
        omega

/-- The list of indices of worker `i` in the unfair case. -/
theorem indices_unfair (p0 : Parser) (N W i fuel : Nat)
    (hN : N ≤ 2147483647) (hW : 1 ≤ W) (hWmax : W ≤ 2147483647) (hi : i < W)
    (hfuel : N ≤ fuel) (hunfair : N % W ≠ 0) :
    (configure p0 N W).indices N fuel i W
      = some (intRange ((if i = 0 then 0 else i * (N / W) + 1 : Nat) : Int)
          (if i + 1 = W then N / W + N % W - 1 else if i = 0 then N / W + 1 else N / W)) := by
  obtain ⟨-, -, h3, h4⟩ := range_unfair N W i hW hi hunfair
  rw [indices_configure p0 N W i fuel hN hW hWmax hi hfuel, h4, h3]

/-- The list of indices of worker `i` in the fair case. -/
theorem indices_fair (p0 : Parser) (N W i fuel : Nat)
    (hN : N ≤ 2147483647) (hW : 1 ≤ W) (hWmax : W ≤ 2147483647) (hi : i < W)
    (hfuel : N ≤ fuel) (hfair : N % W = 0) :
    (configure p0 N W).indices N fuel i W = some (intRange ((i * (N / W) : Nat) : Int) (N / W)) := by
  obtain ⟨h3, h4⟩ := range_fair N W i hfair
  rw [indices_configure p0 N W i fuel hN hW hWmax hi hfuel, h4, h3]

/-- C11, counterexample to the claim as stated. For `N = 5` and `W = 2` (`N mod W = 1`)
the first worker visits three indices and the last worker two: the last worker's range
is not the larger one. -/
theorem C11_counterexample :
    (5 : Nat) % 2 ≠ 0 ∧
    (configure ⟨0, false, false⟩ 5 2).indices 5 5 0 2 = some [0, 1, 2] ∧
    (configure ⟨0, false, false⟩ 5 2).indices 5 5 1 2 = some [3, 4] := by
  refine ⟨by decide, ?_, ?_⟩
  · with_unfolding_all rfl
  · with_unfolding_all rfl

/-- C11 (unfair split sizes), amended. For every `N` and `W ≥ 1` of type `int` with
`N mod W ≠ 0` there are at least two workers; the first worker visits the `N / W + 1`
indices from `0`, every worker `i` strictly between the first and the last visits the
`N / W` indices from `i * (N / W) + 1`, and the last worker visits the
`N / W + N mod W - 1` indices from `(W - 1) * (N / W) + 1`. -/
theorem C11_unfair_split_sizes (N W fuel : Nat) (p0 : Parser) (hNmax : (N : Int) ≤ INT_MAX)
    (hW : 1 ≤ W) (hWmax : (W : Int) ≤ INT_MAX) (hfuel : N ≤ fuel) (hunfair : N % W ≠ 0) :
    2 ≤ W ∧
    (configure p0 N W).indices N fuel 0 W = some (intRange 0 (N / W + 1)) ∧
    (∀ i : Nat, 0 < i → i + 1 < W →
      (configure p0 N W).indices N fuel i W
        = some (intRange ((i * (N / W) + 1 : Nat) : Int) (N / W))) ∧
    (configure p0 N W).indices N fuel ((W - 1 : Nat) : Int) W
      = some (intRange (((W - 1) * (N / W) + 1 : Nat) : Int) (N / W + N % W - 1)) := by
  have hN' : N ≤ 2147483647 := by unfold INT_MAX at hNmax; omega
  have hW' : W ≤ 2147483647 := by unfold INT_MAX at hWmax; omega
  obtain ⟨hW2, -, -, -⟩ := range_unfair N W 0 hW (by omega) hunfair
  refine ⟨hW2, ?_, ?_, ?_⟩
  · have := indices_unfair p0 N W 0 fuel hN' hW hW' (by omega) hfuel hunfair
    have hl : ¬ (0 + 1 = W) := by omega
    simp only [if_true, hl, if_false, Nat.cast_zero] at this
    exact this
  · intro i hi0 hil
    have := indices_unfair p0 N W i fuel hN' hW hW' (by omega) hfuel hunfair
    have h0 : ¬ (i = 0) := by omega
    have hl : ¬ (i + 1 = W) := by omega
    simp only [h0, hl, if_false] at this
    exact this
  · have := indices_unfair p0 N W (W - 1) fuel hN' hW hW' (by omega) hfuel hunfair
    have h0 : ¬ (W - 1 = 0) := by omega
    have hl : W - 1 + 1 = W := by omega
    simp only [h0, hl, if_false, if_true] at this
    exact this

/-- Witness of C11: eight tokens among three workers (ranges of 3, 2 and 3 indices). -/
theorem C11_unfair_split_sizes_witness :
    (((8 : Nat) : Int) ≤ INT_MAX ∧ 1 ≤ 3 ∧ ((3 : Nat) : Int) ≤ INT_MAX ∧ 8 ≤ 8 ∧ 8 % 3 ≠ 0) ∧
    (2 ≤ 3 ∧
      (configure ⟨0, false, false⟩ (8 : Nat) (3 : Nat)).indices (8 : Nat) 8 0 (3 : Nat)
        = some (intRange 0 (8 / 3 + 1)) ∧
      (∀ i : Nat, 0 < i → i + 1 < 3 →
        (configure ⟨0, false, false⟩ (8 : Nat) (3 : Nat)).indices (8 : Nat) 8 i (3 : Nat)
          = some (intRange ((i * (8 / 3) + 1 : Nat) : Int) (8 / 3))) ∧
      (configure ⟨0, false, false⟩ (8 : Nat) (3 : Nat)).indices (8 : Nat) 8 ((3 - 1 : Nat) : Int)
          (3 : Nat)
        = some (intRange (((3 - 1) * (8 / 3) + 1 : Nat) : Int) (8 / 3 + 8 % 3 - 1))) :=
  ⟨⟨by decide, by decide, by decide, by decide, by decide⟩,
    C11_unfair_split_sizes 8 3 8 ⟨0, false, false⟩ (by decide) (by decide) (by decide)
      (by decide) (by decide)⟩

/-- C12 (fair split sizes). For every `N` and `W ≥ 1` of type `int` with `N mod W = 0`,
`offset` is `N / W`, worker `i < W` takes the fair branch, its loop runs from
`i * offset` to `(i + 1) * offset - 1`, and it visits exactly the `N / W` indices from
`i * offset`: all `W` ranges have the same size `N / W`. -/
theorem C12_fair_split (N W i fuel : Nat) (p0 : Parser) (hNmax : (N : Int) ≤ INT_MAX)
    (hW : 1 ≤ W) (hWmax : (W : Int) ≤ INT_MAX) (hi : i < W) (hfuel : N ≤ fuel)
    (hfair : N % W = 0) :
    (configure p0 N W).offset = ((N / W : Nat) : Int) ∧
    (configure p0 N W).branch i W = Branch.fair ∧
    (configure p0 N W).bounds N i W
      = ((i : Int) * (configure p0 N W).offset,
          ((i : Int) + 1) * (configure p0 N W).offset - 1) ∧
    (configure p0 N W).indices N fuel i W
      = some (intRange ((i : Int) * (configure p0 N W).offset) (N / W)) ∧
    (intRange ((i : Int) * (configure p0 N W).offset) (N / W)).length = N / W := by
  have hN' : N ≤ 2147483647 := by unfold INT_MAX at hNmax; omega
  have hW' : W ≤ 2147483647 := by unfold INT_MAX at hWmax; omega
  have hoff := configure_offset p0 N W hN'
  obtain ⟨h3, h4⟩ := range_fair N W i hfair
  have hend : rangeEnd N W i = (i + 1) * (N / W) := by
    unfold rangeEnd
    rw [if_pos hfair]
  refine ⟨hoff, ?_, ?_, ?_, length_intRange _ _⟩
  · unfold Parser.branch
    rw [if_pos ((configure_fair_iff p0 N W).mpr hfair)]
  · rw [bounds_configure p0 N W i hN' hW hW' hi, hoff, h3, hend]
    push_cast
    rfl
  · rw [indices_fair p0 N W i fuel hN' hW hW' hi hfuel hfair, hoff]
    push_cast
    rfl

/-- Witness of C12: nine tokens among three workers, the middle worker. -/
theorem C12_fair_split_witness :
    (((9 : Nat) : Int) ≤ INT_MAX ∧ 1 ≤ 3 ∧ ((3 : Nat) : Int) ≤ INT_MAX ∧ 1 < 3 ∧ 9 ≤ 9 ∧
      9 % 3 = 0) ∧
    ((configure ⟨0, false, false⟩ (9 : Nat) (3 : Nat)).offset = ((9 / 3 : Nat) : Int) ∧
      (configure ⟨0, false, false⟩ (9 : Nat) (3 : Nat)).branch (1 : Nat) (3 : Nat)
        = Branch.fair ∧
      (configure ⟨0, false, false⟩ (9 : Nat) (3 : Nat)).bounds (9 : Nat) (1 : Nat) (3 : Nat)
        = (((1 : Nat) : Int) * (configure ⟨0, false, false⟩ (9 : Nat) (3 : Nat)).offset,
            (((1 : Nat) : Int) + 1) * (configure ⟨0, false, false⟩ (9 : Nat) (3 : Nat)).offset
              - 1) ∧
      (configure ⟨0, false, false⟩ (9 : Nat) (3 : Nat)).indices (9 : Nat) 9 (1 : Nat) (3 : Nat)
        = some (intRange (((1 : Nat) : Int)
            * (configure ⟨0, false, false⟩ (9 : Nat) (3 : Nat)).offset) (9 / 3)) ∧
      (intRange (((1 : Nat) : Int)
        * (configure ⟨0, false, false⟩ (9 : Nat) (3 : Nat)).offset) (9 / 3)).length = 9 / 3) :=
  ⟨⟨by decide, by decide, by decide, by decide, by decide, by decide⟩,
    C12_fair_split 9 3 1 9 ⟨0, false, false⟩ (by decide) (by decide) (by decide) (by decide)
      (by decide) (by decide)⟩

/-- C13, counterexample to the claim as stated. For `N = 7` and `W = 3` the first
worker visits the indices 0, 1, 2 and not 0, 1; the last worker visits 5, 6 and not
4, 5, 6. -/
theorem C13_counterexample :
    (configure ⟨0, false, false⟩ 7 3).indices 7 7 0 3 ≠ some [0, 1] ∧
    (configure ⟨0, false, false⟩ 7 3).indices 7 7 1 3 ≠ some [2, 3] ∧
    (configure ⟨0, false, false⟩ 7 3).indices 7 7 2 3 ≠ some [4, 5, 6] := by
  refine ⟨?_, ?_, ?_⟩ <;> with_unfolding_all decide

/-- C13 (scenario C), amended. For `N = 7` and `W = 3` (`b_fair_chunk_size = false`,
`offset = 2`, remainder 1) every worker takes an unfair branch and the three workers
visit exactly the indices 0, 1, 2, then 3, 4, then 5, 6. -/
theorem C13_scenario_ranges :
    (configure ⟨0, false, false⟩ 7 3).b_fair_chunk_size = false ∧
    (configure ⟨0, false, false⟩ 7 3).offset = 2 ∧ Int.tmod 7 3 = 1 ∧
    (configure ⟨0, false, false⟩ 7 3).indices 7 7 0 3 = some [0, 1, 2] ∧
    (configure ⟨0, false, false⟩ 7 3).indices 7 7 1 3 = some [3, 4] ∧
    (configure ⟨0, false, false⟩ 7 3).indices 7 7 2 3 = some [5, 6] := by
  refine ⟨?_, ?_, ?_, ?_, ?_, ?_⟩ <;> with_unfolding_all rfl

/-- C16, counterexample to the claim as stated. With five tokens and one worker,
`b_fair_chunk_size` is true (`5 mod 1 = 0`) and the sole worker takes the fair branch,
not the `else` branch of the last worker. -/
theorem C16_counterexample :
    (configure ⟨0, false, false⟩ 5 1).b_fair_chunk_size = true ∧
    (configure ⟨0, false, false⟩ 5 1).branch 0 1 = Branch.fair ∧
    (configure ⟨0, false, false⟩ 5 1).branch 0 1 ≠ Branch.last := by
  refine ⟨?_, ?_, ?_⟩ <;> with_unfolding_all decide

/-- C16 (single-worker edge case), amended. For every `N` of type `int` with `W = 1`,
`N mod 1 = 0` makes `b_fair_chunk_size` true: the sole worker `Parser::operator()(0, 1)`
takes the fair branch, its loop bounds are those written in that branch, and it visits
all `N` indices `0, ..., N-1`. -/
theorem C16_single_worker (N fuel : Nat) (p0 : Parser) (hNmax : (N : Int) ≤ INT_MAX)
    (hfuel : N ≤ fuel) :
    (configure p0 N 1).b_fair_chunk_size = true ∧
    (configure p0 N 1).branch 0 1 = Branch.fair ∧
    (configure p0 N 1).bounds N 0 1 = (configure p0 N 1).branchBounds N 0 1 Branch.fair ∧
    (configure p0 N 1).indices N fuel 0 1 = some (intRange 0 N) := by
  have hN' : N ≤ 2147483647 := by unfold INT_MAX at hNmax; omega
  have hfair : N % 1 = 0 := Nat.mod_one N
  have hb := (configure_fair_iff p0 N 1).mpr hfair
  have hi := indices_fair p0 N 1 0 fuel hN' (le_refl _) (by omega) (by omega) hfuel hfair
  simp only [Nat.cast_one, Nat.cast_zero, Nat.zero_mul, Nat.div_one] at hb hi
  have hbr : (configure p0 N 1).branch 0 1 = Branch.fair := by
    unfold Parser.branch
    rw [if_pos hb]
  refine ⟨hb, hbr, ?_, hi⟩
  rw [bounds_eq_branchBounds, hbr]

/-- Witness of C16: five tokens. -/
theorem C16_single_worker_witness :
    (((5 : Nat) : Int) ≤ INT_MAX ∧ 5 ≤ 5) ∧
    ((configure ⟨0, false, false⟩ (5 : Nat) 1).b_fair_chunk_size = true ∧
      (configure ⟨0, false, false⟩ (5 : Nat) 1).branch 0 1 = Branch.fair ∧
      (configure ⟨0, false, false⟩ (5 : Nat) 1).bounds (5 : Nat) 0 1
        = (configure ⟨0, false, false⟩ (5 : Nat) 1).branchBounds (5 : Nat) 0 1 Branch.fair ∧
      (configure ⟨0, false, false⟩ (5 : Nat) 1).indices (5 : Nat) 5 0 1
        = some (intRange 0 5)) :=
  ⟨⟨by decide, by decide⟩, C16_single_worker 5 5 ⟨0, false, false⟩ (by decide) (by decide)⟩

/-! ## The vector after a worker has run -/

theorem getD_blanked (tokens : List String) (lo len j : Nat) (h : lo + len ≤ tokens.length) :
    (tokens.take lo ++ (List.replicate len "" ++ tokens.drop (lo + len))).getD j ""
      = if lo ≤ j ∧ j < lo + len then "" else tokens.getD j "" := by
  have hl1 : (tokens.take lo).length = lo := by rw [List.length_take]; omega
  simp only [List.getD_eq_getElem?_getD]
  by_cases h1 : j < lo
  · have hc : ¬ (lo ≤ j ∧ j < lo + len) := by omega
    rw [if_neg hc, List.getElem?_append_left (by rw [hl1]; exact h1),
      List.getElem?_take_of_lt h1]
  · rw [List.getElem?_append_right (by rw [hl1]; omega), hl1]
    by_cases h2 : j < lo + len
    · have hc : lo ≤ j ∧ j < lo + len := by omega
      rw [if_pos hc, List.getElem?_append_left (by rw [List.length_replicate]; omega),
        List.getElem?_replicate_of_lt (by omega)]
      rfl
    · have hc : ¬ (lo ≤ j ∧ j < lo + len) := by omega
      rw [if_neg hc, List.getElem?_append_right (by rw [List.length_replicate]; omega),
        List.length_replicate, List.getElem?_drop]
      congr 2
      omega

/-- A worker run alone on an untouched vector: its table updates, and the vector with
the worker's range emptied. -/
theorem operator_frame (p0 : Parser) (W i fuel : Nat) (tokens : List String) (m : Table)
    (hN : tokens.length ≤ 2147483647) (hW : 1 ≤ W) (hWmax : W ≤ 2147483647) (hi : i < W)
    (hfuel : tokens.length ≤ fuel) :
    (configure p0 tokens.length W).operator fuel i W ⟨tokens.length, m, tokens⟩
      = some ⟨tokens.length,
          ((tokens.drop (rangeLo tokens.length W i)).take
            (rangeEnd tokens.length W i - rangeLo tokens.length W i)).foldl criticalSection m,
          tokens.take (rangeLo tokens.length W i)
            ++ (List.replicate (rangeEnd tokens.length W i - rangeLo tokens.length W i) ""
              ++ tokens.drop (rangeLo tokens.length W i
                + (rangeEnd tokens.length W i - rangeLo tokens.length W i)))⟩ := by
  have hle := rangeLo_le_rangeEnd tokens.length W i hW hi
  have hend := rangeEnd_le tokens.length W i hW hi
  have hsplit : tokens = tokens.take (rangeLo tokens.length W i)
      ++ ((tokens.drop (rangeLo tokens.length W i)).take
            (rangeEnd tokens.length W i - rangeLo tokens.length W i)
          ++ tokens.drop (rangeLo tokens.length W i
            + (rangeEnd tokens.length W i - rangeLo tokens.length W i))) := by
    rw [← List.drop_drop, List.take_append_drop, List.take_append_drop]
  have hlen : ((tokens.drop (rangeLo tokens.length W i)).take
      (rangeEnd tokens.length W i - rangeLo tokens.length W i)).length
        = rangeEnd tokens.length W i - rangeLo tokens.length W i := by
    rw [List.length_take, List.length_drop]; omega
  have := operator_configure p0 tokens.length W i fuel m
    (tokens.take (rangeLo tokens.length W i))
    ((tokens.drop (rangeLo tokens.length W i)).take
      (rangeEnd tokens.length W i - rangeLo tokens.length W i))
    (tokens.drop (rangeLo tokens.length W i
      + (rangeEnd tokens.length W i - rangeLo tokens.length W i)))
    hN hW hWmax hi hfuel (by rw [List.length_take]; omega) hlen
  rw [← hsplit, hlen] at this
  exact this

/-- C14, counterexample to the claim as stated. The sole worker run on the one-token
sequence "the" leaves the vector holding the empty string: the token has been moved out
of `g_word_vector[0]`. -/
theorem C14_counterexample :
    (configure ⟨0, false, false⟩ 1 1).operator 1 0 1 ⟨1, [], ["the"]⟩
      = some ⟨1, [("the", 1)], [""]⟩ ∧ ([""] : List String) ≠ ["the"] := by
  refine ⟨?_, by decide⟩
  with_unfolding_all rfl

/-- C14 (token sequence), amended. For every token sequence of a length `N` of type
`int`, every `W ≥ 1` and every worker `i < W`, running `Parser::operator()(i, W)` on the
untouched sequence returns and leaves `g_num_words` and the length of `g_word_vector`
unchanged; every element outside the worker's range holds the same string as before,
and every element in the worker's range has been moved from and is left empty. -/
theorem C14_vector_after_worker (tokens : List String) (W i fuel : Nat) (p0 : Parser)
    (m : Table) (hNmax : (tokens.length : Int) ≤ INT_MAX) (hW : 1 ≤ W)
    (hWmax : (W : Int) ≤ INT_MAX) (hi : i < W) (hfuel : tokens.length ≤ fuel) :
    ∃ (l : List Int) (g : Globals),
      (configure p0 tokens.length W).indices tokens.length fuel i W = some l ∧
      (configure p0 tokens.length W).operator fuel i W ⟨tokens.length, m, tokens⟩ = some g ∧
      g.g_num_words = tokens.length ∧
      g.g_word_vector.length = tokens.length ∧
      ∀ j : Nat, j < tokens.length →
        g.g_word_vector.getD j "" = if (j : Int) ∈ l then "" else tokens.getD j "" := by
  have hN' : tokens.length ≤ 2147483647 := by unfold INT_MAX at hNmax; omega
  have hW' : W ≤ 2147483647 := by unfold INT_MAX at hWmax; omega
  have hle := rangeLo_le_rangeEnd tokens.length W i hW hi
  have hend := rangeEnd_le tokens.length W i hW hi
  refine ⟨_, _, indices_configure p0 tokens.length W i fuel hN' hW hW' hi hfuel,
    operator_frame p0 W i fuel tokens m hN' hW hW' hi hfuel, rfl, ?_, ?_⟩
  · simp only [List.length_append, List.length_take, List.length_replicate, List.length_drop]
    omega
  · intro j _
    simp only []
    rw [getD_blanked tokens _ _ j (by omega)]
    have hiff : ((j : Int) ∈ intRange (rangeLo tokens.length W i)
        (rangeEnd tokens.length W i - rangeLo tokens.length W i))
        ↔ (rangeLo tokens.length W i ≤ j ∧ j < rangeLo tokens.length W i
          + (rangeEnd tokens.length W i - rangeLo tokens.length W i)) := by
      rw [mem_intRange]
      omega
    by_cases hc : rangeLo tokens.length W i ≤ j ∧ j < rangeLo tokens.length W i
        + (rangeEnd tokens.length W i - rangeLo tokens.length W i)
    · rw [if_pos hc, if_pos (hiff.mpr hc)]
    · rw [if_neg hc, if_neg (fun h => hc (hiff.mp h))]

/-- Witness of C14: seven tokens, the middle one of three workers. -/
theorem C14_vector_after_worker_witness :
    (((["a", "b", "c", "d", "e", "f", "g"].length : Nat) : Int) ≤ INT_MAX ∧ 1 ≤ 3 ∧
      ((3 : Nat) : Int) ≤ INT_MAX ∧ 1 < 3 ∧ ["a", "b", "c", "d", "e", "f", "g"].length ≤ 7) ∧
    ∃ (l : List Int) (g : Globals),
      (configure ⟨0, false, false⟩ (["a", "b", "c", "d", "e", "f", "g"].length : Nat)
          (3 : Nat)).indices (["a", "b", "c", "d", "e", "f", "g"].length : Nat) 7 (1 : Nat)
          (3 : Nat) = some l ∧
      (configure ⟨0, false, false⟩ (["a", "b", "c", "d", "e", "f", "g"].length : Nat)
          (3 : Nat)).operator 7 (1 : Nat) (3 : Nat)
          ⟨(["a", "b", "c", "d", "e", "f", "g"].length : Nat), [],
            ["a", "b", "c", "d", "e", "f", "g"]⟩ = some g ∧
      g.g_num_words = (["a", "b", "c", "d", "e", "f", "g"].length : Nat) ∧
      g.g_word_vector.length = ["a", "b", "c", "d", "e", "f", "g"].length ∧
      ∀ j : Nat, j < ["a", "b", "c", "d", "e", "f", "g"].length →
        g.g_word_vector.getD j ""
          = if (j : Int) ∈ l then "" else ["a", "b", "c", "d", "e", "f", "g"].getD j "" :=
  ⟨⟨by decide, by decide, by decide, by decide, by decide⟩,
    C14_vector_after_worker ["a", "b", "c", "d", "e", "f", "g"] 3 1 7 ⟨0, false, false⟩ []
      (by decide) (by decide) (by decide) (by decide) (by decide)⟩

/-! ## Small inputs, assertions, commutation, work per thread -/

/-- With one worker the sole range is the whole sequence. -/
theorem indices_one_worker (p0 : Parser) (N fuel : Nat) (hN : N ≤ 2147483647)
    (hfuel : N ≤ fuel) : (configure p0 N 1).indices N fuel 0 1 = some (intRange 0 N) := by
  have hfair : N % 1 = 0 := Nat.mod_one N
  have hi := indices_fair p0 N 1 0 fuel hN (le_refl _) (by omega) (by omega) hfuel hfair
  simp only [Nat.cast_one, Nat.cast_zero, Nat.zero_mul, Nat.div_one] at hi
  exact hi

theorem tableOf_singleton (t : String) : tableOf [t] = [(t, 1)] := by
  simp [tableOf, criticalSection_eq_bump, bump]

theorem kNumThreads_small (N H : Int) (h1 : 1 ≤ N) (h30 : N ≤ 30) (hH : 0 ≤ H) :
    kMaxThreads N = 1 ∧ kNumThreads N H = 1 := by
  have hk : kMaxThreads N = 1 := by
    rw [kMaxThreads_eq N h1 (by omega)]
    omega
  refine ⟨hk, ?_⟩
  unfold kNumThreads
  rw [hk]
  apply min_eq_right
  split_ifs <;> omega

/-- C17 (small inputs run on main alone). For every `N` in `[1, 30]` and every hardware
parallelism `H ≥ 0`, `kNumThreads` is 1, so `kNumThreads - 1 = 0` additional threads are
spawned and the worker that `main` runs itself, `Parser::operator()(kNumThreads - 1,
kNumThreads)`, visits `0, ..., N-1`; and every run of `main` on a file with exactly one
token, under any schedule, ends normally with a table of exactly one entry, that token
with count 1 (the single range being `[0, 0]`). -/
theorem C17_small_inputs (N fuel : Nat) (H : Int) (p0 : Parser) (h1 : 1 ≤ N) (h30 : N ≤ 30)
    (hH : 0 ≤ H) (hfuel : N ≤ fuel) :
    kNumThreads N H = 1 ∧ kNumThreads N H - 1 = 0 ∧
    (configure p0 N (kNumThreads N H)).indices N fuel (kNumThreads N H - 1) (kNumThreads N H)
      = some (intRange 0 N) ∧
    (configure p0 1 (kNumThreads 1 H)).indices 1 fuel (kNumThreads 1 H - 1) (kNumThreads 1 H)
      = some [0] ∧
    (∀ (b : Bool) (text : String) (sched : List Nat), (fileTokens b text).length = 1 →
      ∃ t, fileTokens b text = [t] ∧
        main b (some text) H sched = Except.ok ⟨1, [(t, 1)], [""]⟩) := by
  obtain ⟨-, hk⟩ := kNumThreads_small N H (by omega) (by omega) hH
  obtain ⟨-, hk1⟩ := kNumThreads_small 1 H (by omega) (by omega) hH
  refine ⟨hk, by rw [hk]; rfl, ?_, ?_, ?_⟩
  · rw [hk]
    exact indices_one_worker p0 N fuel (by omega) hfuel
  · rw [hk1]
    have := indices_one_worker p0 1 fuel (by omega) (by omega)
    simpa [intRange] using this
  · intro b text sched hlen
    obtain ⟨t, ht⟩ := List.length_eq_one.mp hlen
    have := main_ok b text H sched (by omega) (by omega) hH
    rw [ht, tableOf_singleton] at this
    exact ⟨t, ht, this⟩

/-- Witness of C17: thirty tokens on a machine with eight hardware threads. -/
theorem C17_small_inputs_witness :
    (1 ≤ 30 ∧ 30 ≤ 30 ∧ (0 : Int) ≤ 8 ∧ 30 ≤ 30) ∧
    (kNumThreads (30 : Nat) 8 = 1 ∧ kNumThreads (30 : Nat) 8 - 1 = 0 ∧
      (configure ⟨0, false, false⟩ (30 : Nat) (kNumThreads (30 : Nat) 8)).indices (30 : Nat) 30
          (kNumThreads (30 : Nat) 8 - 1) (kNumThreads (30 : Nat) 8)
        = some (intRange 0 30) ∧
      (configure ⟨0, false, false⟩ 1 (kNumThreads 1 8)).indices 1 30 (kNumThreads 1 8 - 1)
          (kNumThreads 1 8) = some [0] ∧
      (∀ (b : Bool) (text : String) (sched : List Nat), (fileTokens b text).length = 1 →
        ∃ t, fileTokens b text = [t] ∧
          main b (some text) 8 sched = Except.ok ⟨1, [(t, 1)], [""]⟩)) :=
  ⟨⟨by decide, by decide, by decide, by decide⟩,
    C17_small_inputs 30 30 8 ⟨0, false, false⟩ (by decide) (by decide) (by decide)
      (by decide)⟩

/-- The three conditions `main` asserts, where its `int` arithmetic does not overflow:
for `1 ≤ N ≤ INT_MAX - 29` and `H ≥ 0`, `kMaxThreads > 0`, `kNumThreads ≥ 1`,
`kNumThreads ≤ N` and `offset > 0`. -/
theorem assertions_hold (N H : Int) (p0 : Parser) (h1 : 1 ≤ N) (h2 : N ≤ INT_MAX - 29)
    (hH : 0 ≤ H) :
    kMaxThreads N > 0 ∧ kNumThreads N H ≥ 1 ∧ kNumThreads N H ≤ N ∧
    (configure p0 N (kNumThreads N H)).offset > 0 := by
  have h2' : N ≤ 2147483618 := by unfold INT_MAX at h2; omega
  obtain ⟨b1, b2, -, -⟩ := kMaxThreads_bounds N h1 h2'
  obtain ⟨w1, w2⟩ := kNumThreads_bounds N H h1 h2' hH
  obtain ⟨n, rfl⟩ := Int.eq_ofNat_of_zero_le (by omega : 0 ≤ N)
  obtain ⟨W, hWdef⟩ : ∃ W : Nat, kNumThreads (n : Int) H = (W : Int) :=
    ⟨(kNumThreads (n : Int) H).toNat, by rw [Int.toNat_of_nonneg]; omega⟩
  rw [hWdef] at w1 w2 ⊢
  have hW1 : 1 ≤ W := by omega
  have hWn : W ≤ n := by omega
  have hq : 1 ≤ n / W := (Nat.one_le_div_iff (by omega)).mpr hWn
  refine ⟨by omega, by omega, by omega, ?_⟩
  rw [configure_offset p0 n W (by omega)]
  omega

/-- C18, the code at the failing input. For `N = INT_MAX` and four hardware threads
none of the three asserted conditions holds: `kMaxThreads` is `-71582787`, `kNumThreads`
is `-71582787`, and `offset = N / kNumThreads` is `-30`. -/
theorem C18_assertions_at_int_max :
    ¬ (kMaxThreads INT_MAX > 0) ∧ ¬ (kNumThreads INT_MAX 4 > 0) ∧
    ¬ ((configure ⟨0, false, false⟩ INT_MAX (kNumThreads INT_MAX 4)).offset > 0) ∧
    (configure ⟨0, false, false⟩ INT_MAX (kNumThreads INT_MAX 4)).offset = -30 := by
  refine ⟨?_, ?_, ?_, ?_⟩ <;> with_unfolding_all decide

/-- C19 (commutative increments). For every frequency table and every two keys `a` and
`b`, equal or distinct, the critical section for `a` followed by the one for `b` yields
the same table as the one for `b` followed by the one for `a`; consequently the tokens
of a sequence processed in any permuted order yield the same final table. -/
theorem C19_commutative_increments (m : Table) (a b : String) (l1 l2 : List String)
    (hperm : l1.Perm l2) :
    criticalSection (criticalSection m a) b = criticalSection (criticalSection m b) a ∧
    l1.foldl criticalSection m = l2.foldl criticalSection m :=
  ⟨criticalSection_comm m a b, foldl_criticalSection_perm hperm m⟩

/-- Witness of C19: the words the, quick, the in two orders, on a table that holds
"quick" already. -/
theorem C19_commutative_increments_witness :
    List.Perm ["the", "quick", "the"] ["quick", "the", "the"] ∧
    criticalSection (criticalSection [("quick", 1)] "the") "quick"
      = criticalSection (criticalSection [("quick", 1)] "quick") "the" ∧
    ["the", "quick", "the"].foldl criticalSection [("quick", 1)]
      = ["quick", "the", "the"].foldl criticalSection [("quick", 1)] :=
  ⟨by decide,
    C19_commutative_increments [("quick", 1)] "the" "quick" ["the", "quick", "the"]
      ["quick", "the", "the"] (by decide)⟩

/-- The work bound for the workers other than the last of an unfair split: when the
thread count is at least `ceil(N / 30)`, every worker in the fair case, and every worker
but the last in the unfair case, visits at most 30 indices. -/
theorem range_size_le_thirty (N W i : Nat) (hW : 1 ≤ W) (hi : i < W)
    (hhi : N ≤ 30 * W) (hnl : N % W = 0 ∨ i + 1 < W) :
    rangeEnd N W i - rangeLo N W i ≤ 30 := by
  have hq : N / W ≤ 30 := Nat.div_le_of_le_mul (by rw [Nat.mul_comm]; exact hhi)
  by_cases hfair : N % W = 0
  · rw [(range_fair N W i hfair).2]
    exact hq
  · have hil : i + 1 < W := by
      rcases hnl with h | h
      · exact absurd h hfair
      · exact h
    obtain ⟨-, hr, -, h4⟩ := range_unfair N W i hW hi hfair
    have hl : ¬ (i + 1 = W) := by omega
    rw [h4, if_neg hl]
    have hq29 : N / W ≤ 29 := by
      by_contra hc
      have h30 : N / W = 30 := by omega
      have hdm := Nat.div_add_mod N W
      rw [h30] at hdm
      omega
    split_ifs <;> omega

/-- C20, the code at the failing input. For `N = 119` and four hardware threads,
`kMaxThreads = ceil(119 / 30) = 4` is not limited by the hardware, `kNumThreads` is 4,
and the last worker visits the 31 indices `88, ..., 118`: more than
`kMinPerThread = 30`. -/
theorem C20_last_worker_at_119 :
    kMaxThreads 119 = 4 ∧ kNumThreads 119 4 = 4 ∧ kMinPerThread = 30 ∧
    (configure ⟨0, false, false⟩ 119 (kNumThreads 119 4)).indices 119 119 3 (kNumThreads 119 4)
      = some (intRange 88 31) ∧
    (intRange 88 31).length = 31 := by
  refine ⟨?_, ?_, ?_, ?_, ?_⟩ <;> with_unfolding_all decide

/-! ## The concurrent phase at the level of the mutex -/

theorem get_nonneg (m : Table) (h : ∀ e ∈ m, 0 ≤ e.2) (k : String) : 0 ≤ m.get k := by
  induction m with
  | nil => simp [Table.get, Table.find]
  | cons e rest ih =>
    obtain ⟨k', v⟩ := e
    unfold Table.get Table.find
    by_cases hk : k' = k
    · rw [if_pos hk]
      exact h (k', v) (List.mem_cons_self _ _)
    · rw [if_neg hk]
      exact ih (fun e he => h e (List.mem_cons_of_mem _ he))

theorem subscript_nonneg (m : Table) (k : String) (h : ∀ e ∈ m, 0 ≤ e.2) :
    ∀ e ∈ m.subscript k, 0 ≤ e.2 := by
  induction m with
  | nil =>
    intro e he
    simp only [Table.subscript, List.mem_singleton] at he
    subst he
    exact le_refl _
  | cons e0 rest ih =>
    obtain ⟨k', v⟩ := e0
    have hrest : ∀ e ∈ rest, 0 ≤ e.2 := fun e he => h e (List.mem_cons_of_mem _ he)
    have hv : 0 ≤ v := h (k', v) (List.mem_cons_self _ _)
    intro e he
    unfold Table.subscript at he
    by_cases h1 : keyLt k k' = true
    · rw [if_pos h1] at he
      rcases List.mem_cons.mp he with rfl | he
      · exact le_refl _
      · exact h e he
    · rw [if_neg h1] at he
      by_cases h2 : keyLt k' k = true
      · rw [if_pos h2] at he
        rcases List.mem_cons.mp he with rfl | he
        · exact hv
        · exact ih hrest e he
      · rw [if_neg h2] at he
        exact h e he

theorem foldl_criticalSection_nonneg (l : List String) (hl : l.length ≤ 2147483647) :
    ∀ e ∈ l.foldl criticalSection [], 0 ≤ e.2 := by
  rw [foldl_criticalSection]
  exact (foldl_bump_total l [] (by simp) (by simp [Table.total]; omega)).1

/-- The two table accesses of the critical section, made one after the other on a
table with non-negative counts, are the critical section. -/
theorem guard_then_increment (base : Table) (key : String) (h : ∀ e ∈ base, 0 ≤ e.2) :
    (base.subscript key).get key ≥ 0 ∧
    ((base.subscript key).subscript key).assign key
        (wrapInt (((base.subscript key).subscript key).get key + 1))
      = criticalSection base key := by
  have hg : (base.subscript key).get key ≥ 0 :=
    get_nonneg _ (subscript_nonneg base key h) key
  refine ⟨hg, ?_⟩
  unfold criticalSection
  simp only [hg, if_true]

theorem length_le_of_nodup_lt (J : List Nat) (N : Nat) (hnd : J.Nodup) (h : ∀ j ∈ J, j < N) :
    J.length ≤ N := by
  have hsub : J ⊆ List.range N := fun j hj => List.mem_range.mpr (h j hj)
  have := (List.subperm_of_subset hnd hsub).length_le
  simpa using this

theorem getElem?_set_update {α : Type} (l : List α) (f : Nat → α) (W n : Nat) (a : α)
    (hlen : l.length = W) (hf : ∀ k, k < W → l[k]? = some (f k)) :
    ∀ k, k < W → (l.set n a)[k]? = some (Function.update f n a k) := by
  intro k hk
  by_cases e : k = n
  · subst e
    have : k < l.length := by rw [hlen]; exact hk
    simp [List.getElem?_set, this]
  · have e' : ¬ n = k := fun h => e h.symm
    simp only [List.getElem?_set, e', if_false, Function.update_noteq e]
    exact hf k hk

theorem inv_lt_N {N W : Nat} {orig : List String} {prog : Nat → Nat} {pcs : Nat → Pc}
    {D : List (Nat × Nat)} {s : LockState} (hW : 1 ≤ W) (h : LockInv N W orig prog pcs D s) :
    ∀ j ∈ D.map Prod.snd, j < N := by
  intro j hj
  obtain ⟨k, hk, h1, h2⟩ := (h.mem j).mp hj
  have := (h.bounds k hk).2
  have := rangeEnd_le N W k hW hk
  omega

theorem inv_not_mem {N W : Nat} {orig : List String} {prog : Nat → Nat} {pcs : Nat → Pc}
    {D : List (Nat × Nat)} {s : LockState} (hW : 1 ≤ W) (h : LockInv N W orig prog pcs D s)
    (k : Nat) (hk : k < W) (j : Nat) (hj1 : prog k ≤ j) (hj2 : j < rangeEnd N W k) :
    j ∉ D.map Prod.snd := by
  intro hc
  obtain ⟨k', hk', h1, h2⟩ := (h.mem j).mp hc
  have hbk := h.bounds k hk
  have hbk' := h.bounds k' hk'
  rcases Nat.lt_trichotomy k' k with hlt' | heq | hgt
  · have := rangeEnd_le_rangeLo N W k' k hW hlt' hk
    omega
  · subst heq; omega
  · have := rangeEnd_le_rangeLo N W k k' hW hgt hk'
    omega

theorem inv_prog_ne {N W : Nat} {orig : List String} {prog : Nat → Nat} {pcs : Nat → Pc}
    {D : List (Nat × Nat)} {s : LockState} (hW : 1 ≤ W) (h : LockInv N W orig prog pcs D s)
    (k k' : Nat) (hk : k < W) (hk' : k' < W) (hne : k ≠ k') (h1 : prog k < rangeEnd N W k)
    (h2 : prog k' < rangeEnd N W k') : prog k ≠ prog k' := by
  have hbk := h.bounds k hk
  have hbk' := h.bounds k' hk'
  rcases Nat.lt_trichotomy k' k with hlt' | heq | hgt
  · have := rangeEnd_le_rangeLo N W k' k hW hlt' hk
    omega
  · exact absurd heq.symm hne
  · have := rangeEnd_le_rangeLo N W k k' hW hgt hk'
    omega

/-- The token an index holds while no worker has fetched it. -/
theorem inv_vec_unfetched {N W : Nat} {orig : List String} {prog : Nat → Nat} {pcs : Nat → Pc}
    {D : List (Nat × Nat)} {s : LockState} (hW : 1 ≤ W) (h : LockInv N W orig prog pcs D s)
    (n : Nat) (hn : n < W) (hlt : prog n < rangeEnd N W n) (hpc : (pcs n).inFlight = false) :
    s.g.g_word_vector.getD (prog n) "" = orig.getD (prog n) "" := by
  have hend := rangeEnd_le N W n hW hn
  rw [h.vec (prog n) (by omega)]
  have h1 := inv_not_mem hW h n hn (prog n) (le_refl _) hlt
  have h2 : ¬ ∃ k, k < W ∧ (pcs k).inFlight = true ∧ prog n = prog k := by
    rintro ⟨k, hk, hfl, he⟩
    by_cases e : k = n
    · subst e
      rw [hpc] at hfl
      exact Bool.false_ne_true hfl
    · exact inv_prog_ne hW h n k hn hk (fun h => e h.symm) hlt (h.inflight k hk hfl) he
  simp only [h1, h2, or_self, if_false]

theorem lockStep_outside {N W : Nat} {orig : List String} {prog : Nat → Nat} {pcs : Nat → Pc}
    {D : List (Nat × Nat)} {s : LockState} (h : LockInv N W orig prog pcs D s)
    (n : Nat) (hn : ¬ n < W) : lockStep n s = some s := by
  have hts : s.workers[n]? = none := by
    apply List.getElem?_eq_none
    rw [h.len]; omega
  simp only [lockStep, hts]

theorem lockStep_test_enter {N W : Nat} {orig : List String} {prog : Nat → Nat}
    {pcs : Nat → Pc} {D : List (Nat × Nat)} {s : LockState} (hW : 1 ≤ W)
    (h : LockInv N W orig prog pcs D s) (n : Nat) (hn : n < W) (hpc : pcs n = Pc.test)
    (hlt : prog n < rangeEnd N W n) :
    ∃ s', lockStep n s = some s' ∧
      LockInv N W orig prog (Function.update pcs n Pc.lock) D s' := by
  have hend := rangeEnd_le N W n hW hn
  have hw := h.worker n hn
  rw [hpc] at hw
  simp only [Pc.inFlight, Bool.false_eq_true, if_false] at hw
  have hc1 : (prog n : Int) ≤ (rangeEnd N W n : Int) - 1 := by omega
  have hc2 : (0 : Int) ≤ (prog n : Int) ∧ (prog n : Int).toNat < s.g.g_word_vector.length := by
    rw [h.vlen]; constructor <;> omega
  have htemp := inv_vec_unfetched hW h n hn hlt (by rw [hpc]; rfl)
  refine ⟨_, by simp only [lockStep, hw, hc1, hc2, if_true, and_self]; rfl, ?_⟩
  simp only [Int.toNat_ofNat, htemp]
  have hpcs : ∀ k, k ≠ n → Function.update pcs n Pc.lock k = pcs k :=
    fun k hk => Function.update_noteq hk _ _
  have hpcn : Function.update pcs n Pc.lock n = Pc.lock := Function.update_same _ _ _
  refine { bounds := h.bounds, nodup := h.nodup, mem := h.mem, len := by simp [h.len],
           worker := ?_, inflight := ?_, finished := ?_, holder := ?_,
           holder_lt := h.holder_lt, num := h.num, vlen := by simp [h.vlen], vec := ?_,
           table := ?_, hist := ?_ }
  · intro k hk
    have := getElem?_set_update s.workers _ W n
      ⟨Pc.lock, (prog n : Int), (rangeEnd N W n : Int) - 1, orig.getD (prog n) ""⟩
      h.len h.worker k hk
    rw [this]
    by_cases e : k = n
    · subst e; simp [Pc.inFlight]
    · simp [Function.update_noteq e]
  · intro k hk hfl
    by_cases e : k = n
    · subst e; exact hlt
    · rw [hpcs k e] at hfl; exact h.inflight k hk hfl
  · intro k hk hd
    by_cases e : k = n
    · subst e; rw [hpcn] at hd; exact absurd hd (by decide)
    · rw [hpcs k e] at hd; exact h.finished k hk hd
  · intro k hk
    by_cases e : k = n
    · subst e
      rw [hpcn, ← h.holder k hk, hpc]
      exact Iff.rfl
    · rw [hpcs k e]; exact h.holder k hk
  · intro j hj
    simp only [List.getD_eq_getElem?_getD, List.getElem?_set]
    have hv := h.vec j hj
    simp only [List.getD_eq_getElem?_getD] at hv
    by_cases e : prog n = j
    · subst e
      have hl : prog n < s.g.g_word_vector.length := by rw [h.vlen]; exact hj
      have hex : ∃ k, k < W ∧ (Function.update pcs n Pc.lock k).inFlight = true
          ∧ prog n = prog k := ⟨n, hn, by rw [hpcn]; rfl, rfl⟩
      simp only [if_true, hl, hex, or_true, Option.getD_some]
    · simp only [e, if_false]
      rw [hv]
      have hiff : (∃ k, k < W ∧ (Function.update pcs n Pc.lock k).inFlight = true ∧ j = prog k)
          ↔ (∃ k, k < W ∧ (pcs k).inFlight = true ∧ j = prog k) := by
        constructor
        · rintro ⟨k, hk, hfl, he⟩
          have hkn : k ≠ n := by
            rintro rfl
            exact e he.symm
          rw [hpcs k hkn] at hfl
          exact ⟨k, hk, hfl, he⟩
        · rintro ⟨k, hk, hfl, he⟩
          have hkn : k ≠ n := by
            rintro rfl
            exact e he.symm
          exact ⟨k, hk, by rw [hpcs k hkn]; exact hfl, he⟩
      simp only [hiff]
  · have ht := h.table
    show s.g.g_word_count_map = _
    rw [ht]
    cases hm : s.g_mutex with
    | none => rfl
    | some m =>
      have hmn : m ≠ n := by
        rintro rfl
        have := (h.holder m hn).mpr hm
        rw [hpc] at this
        exact Bool.false_ne_true this
      simp only [hpcs m hmn]
  · have ht := h.hist
    show s.history = _
    rw [ht]
    cases hm : s.g_mutex with
    | none => rfl
    | some m =>
      have hmn : m ≠ n := by
        rintro rfl
        have := (h.holder m hn).mpr hm
        rw [hpc] at this
        exact Bool.false_ne_true this
      simp only [hpcs m hmn]

/-- A step that changes only the program point of worker `n` (and the mutex, the table
or the history) keeps the parts of the invariant that speak of the loop variables, of
the completed critical sections and of the vector. -/
theorem inv_pc_change {N W : Nat} {orig : List String} {prog : Nat → Nat} {pcs : Nat → Pc}
    {D : List (Nat × Nat)} {s : LockState} (h : LockInv N W orig prog pcs D s)
    (n : Nat) (hn : n < W) (c : Pc) (s' : LockState)
    (hfl : c.inFlight = (pcs n).inFlight)
    (hdone : c = Pc.done → prog n = rangeEnd N W n)
    (hworkers : s'.workers = s.workers.set n ⟨c, (prog n : Int), (rangeEnd N W n : Int) - 1,
      if c.inFlight = true then orig.getD (prog n) "" else ""⟩)
    (hnum : s'.g.g_num_words = s.g.g_num_words)
    (hvec : s'.g.g_word_vector = s.g.g_word_vector)
    (hholder : ∀ k, k < W → ((Function.update pcs n c k).holding = true ↔ s'.g_mutex = some k))
    (hholder_lt : ∀ m, s'.g_mutex = some m → m < W)
    (htable : s'.g.g_word_count_map
      = match s'.g_mutex with
        | none => (D.map (fun d => orig.getD d.2 "")).foldl criticalSection []
        | some m => heldTable ((D.map (fun d => orig.getD d.2 "")).foldl criticalSection [])
            (orig.getD (prog m) "") (Function.update pcs n c m))
    (hhist : s'.history = D.flatMap (fun d => criticalEvents d.1 (orig.getD d.2 ""))
      ++ match s'.g_mutex with
        | none => []
        | some m => heldEvents m (orig.getD (prog m) "") (Function.update pcs n c m)) :
    LockInv N W orig prog (Function.update pcs n c) D s' := by
  have hpcs : ∀ k, k ≠ n → Function.update pcs n c k = pcs k :=
    fun k hk => Function.update_noteq hk _ _
  have hpcn : Function.update pcs n c n = c := Function.update_same _ _ _
  have hflk : ∀ k, (Function.update pcs n c k).inFlight = (pcs k).inFlight := by
    intro k
    by_cases e : k = n
    · subst e; rw [hpcn, hfl]
    · rw [hpcs k e]
  refine { bounds := h.bounds, nodup := h.nodup, mem := h.mem,
           len := by rw [hworkers]; simp [h.len],
           worker := ?_, inflight := ?_, finished := ?_, holder := hholder,
           holder_lt := hholder_lt, num := by rw [hnum]; exact h.num,
           vlen := by rw [hvec]; exact h.vlen, vec := ?_,
           table := htable, hist := hhist }
  · intro k hk
    rw [hworkers, getElem?_set_update s.workers _ W n _ h.len h.worker k hk]
    by_cases e : k = n
    · subst e; simp
    · simp [Function.update_noteq e]
  · intro k hk hf
    rw [hflk k] at hf
    exact h.inflight k hk hf
  · intro k hk hd
    by_cases e : k = n
    · subst e; rw [hpcn] at hd; exact hdone hd
    · rw [hpcs k e] at hd; exact h.finished k hk hd
  · intro j hj
    rw [hvec, h.vec j hj]
    simp only [hflk]

theorem lockStep_test_exit {N W : Nat} {orig : List String} {prog : Nat → Nat}
    {pcs : Nat → Pc} {D : List (Nat × Nat)} {s : LockState}
    (h : LockInv N W orig prog pcs D s) (n : Nat) (hn : n < W) (hpc : pcs n = Pc.test)
    (hlt : ¬ prog n < rangeEnd N W n) :
    ∃ s', lockStep n s = some s' ∧
      LockInv N W orig prog (Function.update pcs n Pc.done) D s' := by
  have hb := h.bounds n hn
  have hw := h.worker n hn
  rw [hpc] at hw
  simp only [Pc.inFlight, Bool.false_eq_true, if_false] at hw
  have hc1 : ¬ (prog n : Int) ≤ (rangeEnd N W n : Int) - 1 := by omega
  refine ⟨_, by simp only [lockStep, hw, hc1, if_false]; rfl, ?_⟩
  have hpcs : ∀ k, k ≠ n → Function.update pcs n Pc.done k = pcs k :=
    fun k hk => Function.update_noteq hk _ _
  have hmn : ∀ m, s.g_mutex = some m → m ≠ n := by
    rintro m hm rfl
    have := (h.holder m hn).mpr hm
    rw [hpc] at this
    exact Bool.false_ne_true this
  refine inv_pc_change h n hn Pc.done _ ?_ ?_ ?_ ?_ ?_ ?_ ?_ ?_ ?_
  · rw [hpc]; rfl
  · intro _; omega
  · rfl
  · rfl
  · rfl
  · intro k hk
    by_cases e : k = n
    · subst e
      rw [Function.update_same, ← h.holder k hk, hpc]
      exact Iff.rfl
    · rw [hpcs k e]; exact h.holder k hk
  · exact h.holder_lt
  · show s.g.g_word_count_map = _
    rw [h.table]
    cases hm : s.g_mutex with
    | none => rfl
    | some m => simp only [hpcs m (hmn m hm)]
  · show s.history = _
    rw [h.hist]
    cases hm : s.g_mutex with
    | none => rfl
    | some m => simp only [hpcs m (hmn m hm)]

theorem lockStep_acquire {N W : Nat} {orig : List String} {prog : Nat → Nat}
    {pcs : Nat → Pc} {D : List (Nat × Nat)} {s : LockState}
    (h : LockInv N W orig prog pcs D s) (n : Nat) (hn : n < W) (hpc : pcs n = Pc.lock)
    (hfree : s.g_mutex = none) :
    ∃ s', lockStep n s = some s' ∧
      LockInv N W orig prog (Function.update pcs n Pc.guard) D s' := by
  have hw := h.worker n hn
  rw [hpc] at hw
  simp only [Pc.inFlight, if_true] at hw
  refine ⟨_, by simp only [lockStep, hw, hfree]; rfl, ?_⟩
  have hpcs : ∀ k, k ≠ n → Function.update pcs n Pc.guard k = pcs k :=
    fun k hk => Function.update_noteq hk _ _
  refine inv_pc_change h n hn Pc.guard _ ?_ ?_ ?_ ?_ ?_ ?_ ?_ ?_ ?_
  · rw [hpc]; rfl
  · intro hc; cases hc
  · rfl
  · rfl
  · rfl
  · intro k hk
    show _ ↔ some n = some k
    by_cases e : k = n
    · subst e
      rw [Function.update_same]
      exact ⟨fun _ => rfl, fun _ => rfl⟩
    · rw [hpcs k e, h.holder k hk, hfree]
      constructor
      · intro hc; cases hc
      · intro hc; exact absurd (Option.some.inj hc).symm e
  · intro m hm
    have : n = m := Option.some.inj hm
    omega
  · show s.g.g_word_count_map = _
    rw [h.table, hfree]
    simp only [Function.update_same, heldTable]
  · show s.history ++ [Event.lock n] = _
    rw [h.hist, hfree]
    simp only [Function.update_same, heldEvents, List.append_nil]

theorem lockStep_blocked {N W : Nat} {orig : List String} {prog : Nat → Nat}
    {pcs : Nat → Pc} {D : List (Nat × Nat)} {s : LockState}
    (h : LockInv N W orig prog pcs D s) (n : Nat) (hn : n < W) (hpc : pcs n = Pc.lock)
    (m : Nat) (hheld : s.g_mutex = some m) : lockStep n s = some s := by
  have hw := h.worker n hn
  rw [hpc] at hw
  simp only [lockStep, hw, hheld]

theorem lockStep_done {N W : Nat} {orig : List String} {prog : Nat → Nat}
    {pcs : Nat → Pc} {D : List (Nat × Nat)} {s : LockState}
    (h : LockInv N W orig prog pcs D s) (n : Nat) (hn : n < W) (hpc : pcs n = Pc.done) :
    lockStep n s = some s := by
  have hw := h.worker n hn
  rw [hpc] at hw
  simp only [lockStep, hw]

theorem inv_base_nonneg {N W : Nat} {orig : List String} {prog : Nat → Nat}
    {pcs : Nat → Pc} {D : List (Nat × Nat)} {s : LockState} (hN : N ≤ 2147483647)
    (hW : 1 ≤ W) (h : LockInv N W orig prog pcs D s) :
    ∀ e ∈ (D.map (fun d => orig.getD d.2 "")).foldl criticalSection [], 0 ≤ e.2 := by
  apply foldl_criticalSection_nonneg
  have := length_le_of_nodup_lt (D.map Prod.snd) N h.nodup (inv_lt_N hW h)
  simp only [List.length_map] at this ⊢
  omega

theorem lockStep_guard {N W : Nat} {orig : List String} {prog : Nat → Nat}
    {pcs : Nat → Pc} {D : List (Nat × Nat)} {s : LockState} (hN : N ≤ 2147483647)
    (hW : 1 ≤ W) (h : LockInv N W orig prog pcs D s) (n : Nat) (hn : n < W)
    (hpc : pcs n = Pc.guard) :
    ∃ s', lockStep n s = some s' ∧
      LockInv N W orig prog (Function.update pcs n Pc.increment) D s' := by
  have hm : s.g_mutex = some n := (h.holder n hn).mp (by rw [hpc]; rfl)
  have hw := h.worker n hn
  rw [hpc] at hw
  simp only [Pc.inFlight, if_true] at hw
  have hs : s.g.g_word_count_map
      = (D.map (fun d => orig.getD d.2 "")).foldl criticalSection [] := by
    rw [h.table, hm]
    simp only [hpc, heldTable]
  have hg := (guard_then_increment _ (orig.getD (prog n) "") (inv_base_nonneg hN hW h)).1
  refine ⟨{ g := ⟨s.g.g_num_words,
              Table.subscript ((D.map (fun d => orig.getD d.2 "")).foldl criticalSection [])
                (orig.getD (prog n) ""), s.g.g_word_vector⟩
            g_mutex := s.g_mutex
            workers := s.workers.set n ⟨Pc.increment, (prog n : Int),
              (rangeEnd N W n : Int) - 1, orig.getD (prog n) ""⟩
            history := s.history ++ [Event.read n (orig.getD (prog n) "")] }, ?_, ?_⟩
  · simp only [lockStep, hw, hs, hg, if_true]
  have hpcs : ∀ k, k ≠ n → Function.update pcs n Pc.increment k = pcs k :=
    fun k hk => Function.update_noteq hk _ _
  refine inv_pc_change h n hn Pc.increment _ ?_ ?_ ?_ ?_ ?_ ?_ ?_ ?_ ?_
  · rw [hpc]; rfl
  · intro hc; cases hc
  · rfl
  · rfl
  · rfl
  · intro k hk
    show _ ↔ s.g_mutex = some k
    by_cases e : k = n
    · subst e
      rw [Function.update_same, ← h.holder k hk, hpc]
      exact Iff.rfl
    · rw [hpcs k e]; exact h.holder k hk
  · exact h.holder_lt
  · show _ = match s.g_mutex with
      | none => _
      | some m => _
    rw [hm]
    simp only [Function.update_same, heldTable]
  · show s.history ++ _ = _ ++ match s.g_mutex with
      | none => _
      | some m => _
    rw [h.hist, hm]
    simp only [Function.update_same, heldEvents, hpc, List.append_assoc, List.singleton_append]

theorem lockStep_increment {N W : Nat} {orig : List String} {prog : Nat → Nat}
    {pcs : Nat → Pc} {D : List (Nat × Nat)} {s : LockState} (hN : N ≤ 2147483647)
    (hW : 1 ≤ W) (h : LockInv N W orig prog pcs D s) (n : Nat) (hn : n < W)
    (hpc : pcs n = Pc.increment) :
    ∃ s', lockStep n s = some s' ∧
      LockInv N W orig prog (Function.update pcs n Pc.unlock) D s' := by
  have hm : s.g_mutex = some n := (h.holder n hn).mp (by rw [hpc]; rfl)
  have hw := h.worker n hn
  rw [hpc] at hw
  simp only [Pc.inFlight, if_true] at hw
  have hs : s.g.g_word_count_map
      = ((D.map (fun d => orig.getD d.2 "")).foldl criticalSection []).subscript
          (orig.getD (prog n) "") := by
    rw [h.table, hm]
    simp only [hpc, heldTable]
  have hg := (guard_then_increment _ (orig.getD (prog n) "") (inv_base_nonneg hN hW h)).2
  refine ⟨{ g := ⟨s.g.g_num_words,
              criticalSection ((D.map (fun d => orig.getD d.2 "")).foldl criticalSection [])
                (orig.getD (prog n) ""), s.g.g_word_vector⟩
            g_mutex := s.g_mutex
            workers := s.workers.set n ⟨Pc.unlock, (prog n : Int),
              (rangeEnd N W n : Int) - 1, orig.getD (prog n) ""⟩
            history := s.history ++ [Event.write n (orig.getD (prog n) "")] }, ?_, ?_⟩
  · simp only [lockStep, hw, hs, hg]
  have hpcs : ∀ k, k ≠ n → Function.update pcs n Pc.unlock k = pcs k :=
    fun k hk => Function.update_noteq hk _ _
  refine inv_pc_change h n hn Pc.unlock _ ?_ ?_ ?_ ?_ ?_ ?_ ?_ ?_ ?_
  · rw [hpc]; rfl
  · intro hc; cases hc
  · rfl
  · rfl
  · rfl
  · intro k hk
    show _ ↔ s.g_mutex = some k
    by_cases e : k = n
    · subst e
      rw [Function.update_same, ← h.holder k hk, hpc]
      exact Iff.rfl
    · rw [hpcs k e]; exact h.holder k hk
  · exact h.holder_lt
  · show _ = match s.g_mutex with
      | none => _
      | some m => _
    rw [hm]
    simp only [Function.update_same, heldTable]
  · show s.history ++ _ = _ ++ match s.g_mutex with
      | none => _
      | some m => _
    rw [h.hist, hm]
    simp only [Function.update_same, heldEvents, hpc, List.append_assoc, List.cons_append,
      List.nil_append]

theorem lockStep_unlock {N W : Nat} {orig : List String} {prog : Nat → Nat}
    {pcs : Nat → Pc} {D : List (Nat × Nat)} {s : LockState} (hN : N ≤ 2147483647)
    (hW : 1 ≤ W) (h : LockInv N W orig prog pcs D s) (n : Nat) (hn : n < W)
    (hpc : pcs n = Pc.unlock) :
    ∃ s', lockStep n s = some s' ∧
      LockInv N W orig (Function.update prog n (prog n + 1)) (Function.update pcs n Pc.test)
        (D ++ [(n, prog n)]) s' := by
  have hm : s.g_mutex = some n := (h.holder n hn).mp (by rw [hpc]; rfl)
  have hlt : prog n < rangeEnd N W n := h.inflight n hn (by rw [hpc]; rfl)
  have hend := rangeEnd_le N W n hW hn
  have hbn := h.bounds n hn
  have hnot := inv_not_mem hW h n hn (prog n) (le_refl _) hlt
  have hw := h.worker n hn
  rw [hpc] at hw
  simp only [Pc.inFlight, if_true] at hw
  have hwrap : wrapInt ((prog n : Int) + 1) = ((prog n + 1 : Nat) : Int) := by
    rw [wrapInt_id (by omega) (by omega)]
    push_cast; rfl
  refine ⟨{ g := s.g
            g_mutex := none
            workers := s.workers.set n ⟨Pc.test, ((prog n + 1 : Nat) : Int),
              (rangeEnd N W n : Int) - 1, ""⟩
            history := s.history ++ [Event.unlock n] }, ?_, ?_⟩
  · simp only [lockStep, hw, hm, if_true, hwrap]
  have hpcs : ∀ k, k ≠ n → Function.update pcs n Pc.test k = pcs k :=
    fun k hk => Function.update_noteq hk _ _
  have hpcn : Function.update pcs n Pc.test n = Pc.test := Function.update_same _ _ _
  have hprog : ∀ k, k ≠ n → Function.update prog n (prog n + 1) k = prog k :=
    fun k hk => Function.update_noteq hk _ _
  have hprogn : Function.update prog n (prog n + 1) n = prog n + 1 :=
    Function.update_same _ _ _
  have hmap : (D ++ [(n, prog n)]).map Prod.snd = D.map Prod.snd ++ [prog n] := by simp
  refine { bounds := ?_, nodup := ?_, mem := ?_, len := by simp [h.len],
           worker := ?_, inflight := ?_, finished := ?_, holder := ?_,
           holder_lt := ?_, num := h.num, vlen := h.vlen, vec := ?_,
           table := ?_, hist := ?_ }
  · intro k hk
    by_cases e : k = n
    · subst e; rw [hprogn]; omega
    · rw [hprog k e]; exact h.bounds k hk
  · rw [hmap, List.nodup_append]
    refine ⟨h.nodup, List.nodup_singleton _, ?_⟩
    intro a ha hb
    rw [List.mem_singleton] at hb
    subst hb
    exact hnot ha
  · intro j
    rw [hmap, List.mem_append, List.mem_singleton, h.mem]
    constructor
    · rintro (⟨k, hk, h1, h2⟩ | rfl)
      · refine ⟨k, hk, h1, ?_⟩
        by_cases e : k = n
        · subst e; rw [hprogn]; omega
        · rw [hprog k e]; exact h2
      · exact ⟨n, hn, hbn.1, by rw [hprogn]; omega⟩
    · rintro ⟨k, hk, h1, h2⟩
      by_cases e : k = n
      · subst e
        rw [hprogn] at h2
        by_cases e2 : j = prog k
        · exact Or.inr e2
        · exact Or.inl ⟨k, hk, h1, by omega⟩
      · rw [hprog k e] at h2
        exact Or.inl ⟨k, hk, h1, h2⟩
  · intro k hk
    show (s.workers.set n _)[k]? = _
    rw [getElem?_set_update s.workers _ W n _ h.len h.worker k hk]
    by_cases e : k = n
    · subst e; simp [Pc.inFlight]
    · simp [Function.update_noteq e]
  · intro k hk hfl
    by_cases e : k = n
    · subst e; rw [hpcn] at hfl; exact absurd hfl (by decide)
    · rw [hpcs k e] at hfl; rw [hprog k e]; exact h.inflight k hk hfl
  · intro k hk hd
    by_cases e : k = n
    · subst e; rw [hpcn] at hd; exact absurd hd (by decide)
    · rw [hpcs k e] at hd; rw [hprog k e]; exact h.finished k hk hd
  · intro k hk
    show _ ↔ none = some k
    by_cases e : k = n
    · subst e
      rw [hpcn]
      constructor
      · intro hc; exact absurd hc (by decide)
      · intro hc; cases hc
    · rw [hpcs k e, h.holder k hk, hm]
      constructor
      · intro hc; exact absurd (Option.some.inj hc).symm e
      · intro hc; cases hc
  · intro m hc
    cases hc
  · intro j hj
    show s.g.g_word_vector.getD j "" = _
    rw [h.vec j hj]
    have hiff : (j ∈ (D ++ [(n, prog n)]).map Prod.snd ∨
          ∃ k, k < W ∧ (Function.update pcs n Pc.test k).inFlight = true
            ∧ j = Function.update prog n (prog n + 1) k)
        ↔ (j ∈ D.map Prod.snd ∨ ∃ k, k < W ∧ (pcs k).inFlight = true ∧ j = prog k) := by
      rw [hmap, List.mem_append, List.mem_singleton]
      constructor
      · rintro ((h1 | h1) | ⟨k, hk, hfl, he⟩)
        · exact Or.inl h1
        · exact Or.inr ⟨n, hn, by rw [hpc]; rfl, h1⟩
        · have hkn : k ≠ n := by
            rintro rfl
            rw [hpcn] at hfl
            exact absurd hfl (by decide)
          rw [hpcs k hkn] at hfl
          rw [hprog k hkn] at he
          exact Or.inr ⟨k, hk, hfl, he⟩
      · rintro (h1 | ⟨k, hk, hfl, he⟩)
        · exact Or.inl (Or.inl h1)
        · by_cases hkn : k = n
          · subst hkn
            exact Or.inl (Or.inr he)
          · exact Or.inr ⟨k, hk, by rw [hpcs k hkn]; exact hfl, by rw [hprog k hkn]; exact he⟩
    simp only [hiff]
  · show s.g.g_word_count_map = _
    rw [h.table, hm]
    simp only [hpc, heldTable, List.map_append, List.map_cons, List.map_nil, List.foldl_append,
      List.foldl_cons, List.foldl_nil]
  · show s.history ++ [Event.unlock n] = _
    rw [h.hist, hm]
    simp only [hpc, heldEvents, List.flatMap_append, List.flatMap_cons, List.flatMap_nil,
      criticalEvents, List.append_assoc, List.cons_append, List.nil_append, List.append_nil]

/-- Every step of every worker keeps the invariant, changes no other worker, and, unless
the worker has finished or waits for the mutex, brings the worker nearer to its end. -/
theorem lockStep_inv {N W : Nat} {orig : List String} {prog : Nat → Nat}
    {pcs : Nat → Pc} {D : List (Nat × Nat)} {s : LockState} (hN : N ≤ 2147483647)
    (hW : 1 ≤ W) (n : Nat) (h : LockInv N W orig prog pcs D s) :
    ∃ s' prog' pcs' D', lockStep n s = some s' ∧ LockInv N W orig prog' pcs' D' s' ∧
      (∀ k, k ≠ n → prog' k = prog k ∧ pcs' k = pcs k) ∧
      remaining (pcs' n) (rangeEnd N W n - prog' n)
        ≤ remaining (pcs n) (rangeEnd N W n - prog n) ∧
      (n < W → pcs n ≠ Pc.done → (pcs n = Pc.lock → s.g_mutex = none) →
        remaining (pcs' n) (rangeEnd N W n - prog' n)
          < remaining (pcs n) (rangeEnd N W n - prog n)) := by
  have hupd : ∀ (c : Pc) (k : Nat), k ≠ n → prog k = prog k ∧ Function.update pcs n c k = pcs k :=
    fun c k hk => ⟨rfl, Function.update_noteq hk _ _⟩
  by_cases hn : n < W
  · cases hpc : pcs n with
    | test =>
      by_cases hlt : prog n < rangeEnd N W n
      · obtain ⟨s', h1, h2⟩ := lockStep_test_enter hW h n hn hpc hlt
        refine ⟨s', prog, _, D, h1, h2, hupd _, ?_, ?_⟩
        · rw [Function.update_same]; simp only [remaining]; omega
        · intro _ _ _
          rw [Function.update_same]; simp only [remaining]; omega
      · obtain ⟨s', h1, h2⟩ := lockStep_test_exit h n hn hpc hlt
        refine ⟨s', prog, _, D, h1, h2, hupd _, ?_, ?_⟩
        · rw [Function.update_same]; simp only [remaining]; omega
        · intro _ _ _
          rw [Function.update_same]; simp only [remaining]; omega
    | lock =>
      have hlt : prog n < rangeEnd N W n := h.inflight n hn (by rw [hpc]; rfl)
      cases hm : s.g_mutex with
      | none =>
        obtain ⟨s', h1, h2⟩ := lockStep_acquire h n hn hpc hm
        refine ⟨s', prog, _, D, h1, h2, hupd _, ?_, ?_⟩
        · rw [Function.update_same]; simp only [remaining]; omega
        · intro _ _ _
          rw [Function.update_same]; simp only [remaining]; omega
      | some m =>
        refine ⟨s, prog, pcs, D, lockStep_blocked h n hn hpc m hm, h, fun _ _ => ⟨rfl, rfl⟩,
          le_of_eq (by rw [hpc]), ?_⟩
        intro _ _ hfree
        have := hfree rfl
        cases this
    | guard =>
      have hlt : prog n < rangeEnd N W n := h.inflight n hn (by rw [hpc]; rfl)
      obtain ⟨s', h1, h2⟩ := lockStep_guard hN hW h n hn hpc
      refine ⟨s', prog, _, D, h1, h2, hupd _, ?_, ?_⟩
      · rw [Function.update_same]; simp only [remaining]; omega
      · intro _ _ _
        rw [Function.update_same]; simp only [remaining]; omega
    | increment =>
      have hlt : prog n < rangeEnd N W n := h.inflight n hn (by rw [hpc]; rfl)
      obtain ⟨s', h1, h2⟩ := lockStep_increment hN hW h n hn hpc
      refine ⟨s', prog, _, D, h1, h2, hupd _, ?_, ?_⟩
      · rw [Function.update_same]; simp only [remaining]; omega
      · intro _ _ _
        rw [Function.update_same]; simp only [remaining]; omega
    | unlock =>
      have hlt : prog n < rangeEnd N W n := h.inflight n hn (by rw [hpc]; rfl)
      obtain ⟨s', h1, h2⟩ := lockStep_unlock hN hW h n hn hpc
      refine ⟨s', _, _, _, h1, h2, ?_, ?_, ?_⟩
      · intro k hk
        exact ⟨Function.update_noteq hk _ _, Function.update_noteq hk _ _⟩
      · rw [Function.update_same, Function.update_same]; simp only [remaining]; omega
      · intro _ _ _
        rw [Function.update_same, Function.update_same]; simp only [remaining]; omega
    | done =>
      refine ⟨s, prog, pcs, D, lockStep_done h n hn hpc, h, fun _ _ => ⟨rfl, rfl⟩,
        le_of_eq (by rw [hpc]), ?_⟩
      intro _ hd _
      exact absurd rfl hd
  · exact ⟨s, prog, pcs, D, lockStep_outside h n hn, h, fun _ _ => ⟨rfl, rfl⟩, le_refl _,
      fun hc => absurd hc hn⟩

/-- Every schedule can be run, and the invariant holds in the state it leads to. -/
theorem lockRun_inv {N W : Nat} {orig : List String} (hN : N ≤ 2147483647) (hW : 1 ≤ W)
    (sched : List Nat) :
    ∀ (s : LockState) (prog : Nat → Nat) (pcs : Nat → Pc) (D : List (Nat × Nat)),
      LockInv N W orig prog pcs D s →
      ∃ s' prog' pcs' D', lockRun sched s = some s' ∧ LockInv N W orig prog' pcs' D' s' := by
  induction sched with
  | nil =>
    intro s prog pcs D h
    exact ⟨s, prog, pcs, D, rfl, h⟩
  | cons n sched ih =>
    intro s prog pcs D h
    obtain ⟨s1, prog1, pcs1, D1, hs1, h1, -, -, -⟩ := lockStep_inv hN hW n h
    obtain ⟨s2, prog2, pcs2, D2, hs2, h2⟩ := ih s1 prog1 pcs1 D1 h1
    exact ⟨s2, prog2, pcs2, D2, by simp only [lockRun, hs1, hs2], h2⟩

theorem lockRun_append (a b : List Nat) :
    ∀ s : LockState, lockRun (a ++ b) s = (lockRun a s).bind (lockRun b) := by
  induction a with
  | nil => intro s; rfl
  | cons n a ih =>
    intro s
    simp only [List.cons_append, lockRun]
    cases lockStep n s with
    | none => rfl
    | some s' => exact ih s'

/-- No deadlock: from every state of the concurrent phase some schedule leads to a
state in which every worker has left its loop. -/
theorem lockRun_finish {N W : Nat} {orig : List String} (hN : N ≤ 2147483647) (hW : 1 ≤ W) :
    ∀ (m : Nat) (s : LockState) (prog : Nat → Nat) (pcs : Nat → Pc) (D : List (Nat × Nat)),
      LockInv N W orig prog pcs D s →
      (∑ k in Finset.range W, remaining (pcs k) (rangeEnd N W k - prog k)) ≤ m →
      ∃ sched s' prog' pcs' D', lockRun sched s = some s' ∧ LockInv N W orig prog' pcs' D' s' ∧
        ∀ k, k < W → pcs' k = Pc.done := by
  intro m
  induction m with
  | zero =>
    intro s prog pcs D h hm
    refine ⟨[], s, prog, pcs, D, rfl, h, ?_⟩
    intro k hk
    have hz := (Finset.sum_eq_zero_iff.mp (Nat.le_zero.mp hm)) k (Finset.mem_range.mpr hk)
    have hlt := h.inflight k hk
    cases hpc : pcs k with
    | done => rfl
    | test => rw [hpc] at hz; simp only [remaining] at hz; omega
    | lock =>
      rw [hpc] at hz hlt; have := hlt rfl; simp only [remaining] at hz; omega
    | guard =>
      rw [hpc] at hz hlt; have := hlt rfl; simp only [remaining] at hz; omega
    | increment =>
      rw [hpc] at hz hlt; have := hlt rfl; simp only [remaining] at hz; omega
    | unlock =>
      rw [hpc] at hz hlt; have := hlt rfl; simp only [remaining] at hz; omega
  | succ m ih =>
    intro s prog pcs D h hm
    by_cases hall : ∀ k, k < W → pcs k = Pc.done
    · exact ⟨[], s, prog, pcs, D, rfl, h, hall⟩
    · have hex : ∃ n, n < W ∧ pcs n ≠ Pc.done ∧ (pcs n = Pc.lock → s.g_mutex = none) := by
        cases hmx : s.g_mutex with
        | none =>
          push_neg at hall
          obtain ⟨k, hk, hne⟩ := hall
          exact ⟨k, hk, hne, fun _ => rfl⟩
        | some x =>
          have hx := h.holder_lt x hmx
          have hh := (h.holder x hx).mpr hmx
          refine ⟨x, hx, ?_, ?_⟩
          · intro hc; rw [hc] at hh; exact absurd hh (by decide)
          · intro hc; rw [hc] at hh; exact absurd hh (by decide)
      obtain ⟨n, hn, hnd, hfree⟩ := hex
      obtain ⟨s1, prog1, pcs1, D1, hs1, h1, hsame, -, hlt⟩ := lockStep_inv hN hW n h
      have hlt := hlt hn hnd hfree
      have hsum : (∑ k in Finset.range W, remaining (pcs1 k) (rangeEnd N W k - prog1 k))
          < ∑ k in Finset.range W, remaining (pcs k) (rangeEnd N W k - prog k) := by
        apply Finset.sum_lt_sum
        · intro k _
          by_cases e : k = n
          · subst e; exact le_of_lt hlt
          · rw [(hsame k e).1, (hsame k e).2]
        · exact ⟨n, Finset.mem_range.mpr hn, hlt⟩
      obtain ⟨sched, s2, prog2, pcs2, D2, hs2, h2, hd2⟩ := ih s1 prog1 pcs1 D1 h1 (by omega)
      exact ⟨n :: sched, s2, prog2, pcs2, D2, by simp only [lockRun, hs1, hs2], h2, hd2⟩

/-- The invariant holds when the concurrent phase starts. -/
theorem lockInit_inv (p0 : Parser) (tokens : List String) (W : Nat)
    (hN : tokens.length ≤ 2147483647) (hW : 1 ≤ W) (hWmax : W ≤ 2147483647) :
    LockInv tokens.length W tokens (fun k => rangeLo tokens.length W k) (fun _ => Pc.test) []
      (lockInit (configure p0 tokens.length W) W ⟨tokens.length, [], tokens⟩) := by
  refine { bounds := fun k hk => ⟨le_refl _, rangeLo_le_rangeEnd _ _ _ hW hk⟩,
           nodup := List.nodup_nil, mem := ?_, len := by simp [lockInit, workerIds],
           worker := ?_, inflight := fun _ _ hc => absurd hc (by decide),
           finished := fun _ _ hc => absurd hc (by decide), holder := ?_,
           holder_lt := fun _ hc => (by cases hc), num := rfl, vlen := rfl, vec := ?_,
           table := rfl, hist := rfl }
  · intro j
    simp only [List.map_nil, List.not_mem_nil, false_iff, not_exists, not_and]
    intro k _ h1
    omega
  · intro k hk
    simp only [lockInit, workerIds, List.map_map, List.getElem?_map, List.getElem?_range hk,
      Option.map_some', Function.comp, Parser.spawn, Int.ofNat_eq_coe, Int.toNat_ofNat,
      bounds_configure p0 tokens.length W k hN hW hWmax hk, Pc.inFlight, Bool.false_eq_true,
      if_false]
  · intro k _
    constructor
    · intro hc; exact absurd hc (by decide)
    · intro hc; cases hc
  · intro j _
    have h2 : ¬ ∃ k, k < W ∧ Pc.inFlight Pc.test = true ∧ j = rangeLo tokens.length W k := by
      rintro ⟨k, -, hfl, -⟩
      exact absurd hfl (by decide)
    simp only [List.map_nil, List.not_mem_nil, h2, or_self, if_false]
    rfl

/-- When every worker has left its loop, the mutex is free, every index has had exactly
one critical section, and the globals are those of the token-level run. -/
theorem inv_all_done {N W : Nat} {orig : List String} {prog : Nat → Nat} {pcs : Nat → Pc}
    {D : List (Nat × Nat)} {s : LockState} (hW : 1 ≤ W) (hlen : orig.length = N)
    (h : LockInv N W orig prog pcs D s) (hd : ∀ k, k < W → pcs k = Pc.done) :
    s.g_mutex = none ∧ (D.map Prod.snd).Perm (List.range N) ∧
      s.g = ⟨N, tableOf orig, List.replicate N ""⟩ := by
  have hmx : s.g_mutex = none := by
    cases hm : s.g_mutex with
    | none => rfl
    | some x =>
      have hx := h.holder_lt x hm
      have hh := (h.holder x hx).mpr hm
      rw [hd x hx] at hh
      exact absurd hh (by decide)
  have hJ : ∀ j, j ∈ D.map Prod.snd ↔ j < N := by
    intro j
    rw [h.mem]
    constructor
    · rintro ⟨k, hk, h1, h2⟩
      have := rangeEnd_le N W k hW hk
      have := (h.bounds k hk).2
      omega
    · intro hj
      have hlast := rangeEnd_last N W hW
      obtain ⟨i, h1, h2, h3⟩ := range_cover N W hW (W - 1) (by omega) j (by omega)
      have hi : i < W := by omega
      exact ⟨i, hi, h2, by rw [h.finished i hi (hd i hi)]; exact h3⟩
  have hperm : (D.map Prod.snd).Perm (List.range N) := by
    apply (List.perm_ext_iff_of_nodup h.nodup (List.nodup_range N)).mpr
    intro a
    rw [hJ, List.mem_range]
  have hmapr : (List.range N).map (fun j => orig.getD j "") = orig := by
    apply List.ext_getElem
    · simp [hlen]
    · intro n h1 h2
      simp [List.getD_eq_getElem?_getD, List.getElem?_eq_getElem h2]
  have hvec2 : s.g.g_word_vector = List.replicate N "" := by
    apply List.ext_getElem
    · simp [h.vlen]
    · intro n h1 h2
      have hn : n < N := by rw [← h.vlen]; exact h1
      have := h.vec n hn
      simp only [(hJ n).mpr hn, true_or, if_true, List.getD_eq_getElem?_getD,
        List.getElem?_eq_getElem h1, Option.getD_some] at this
      simp [this]
  have hmap2 : s.g.g_word_count_map = tableOf orig := by
    have hD : D.map (fun d => orig.getD d.2 "")
        = (D.map Prod.snd).map (fun j => orig.getD j "") := by
      simp [List.map_map, Function.comp]
    rw [h.table, hmx]
    show List.foldl criticalSection [] _ = _
    rw [hD, foldl_criticalSection_perm (hperm.map _), hmapr]
    rfl
  refine ⟨hmx, hperm, ?_⟩
  have hnum := h.num
  cases hg : s.g
  rw [hg] at hnum hmap2 hvec2
  simp only [Globals.mk.injEq]
  exact ⟨hnum, hmap2, hvec2⟩

/-- The history in a state that satisfies the invariant, in terms of the state alone. -/
theorem inv_history {N W : Nat} {orig : List String} {prog : Nat → Nat} {pcs : Nat → Pc}
    {D : List (Nat × Nat)} {s : LockState} (h : LockInv N W orig prog pcs D s) :
    s.history = D.flatMap (fun d => criticalEvents d.1 (orig.getD d.2 "")) ++ pendingEvents s := by
  rw [h.hist]
  congr 1
  unfold pendingEvents
  cases hm : s.g_mutex with
  | none => rfl
  | some n =>
    have hn := h.holder_lt n hm
    have hh := (h.holder n hn).mpr hm
    have hfl : (pcs n).inFlight = true := by
      cases hpc : pcs n <;> rw [hpc] at hh <;> first | rfl | exact absurd hh (by decide)
    simp only [h.worker n hn, hfl, if_true]

theorem inv_workers_done {N W : Nat} {orig : List String} {prog : Nat → Nat}
    {pcs : Nat → Pc} {D : List (Nat × Nat)} {s : LockState}
    (h : LockInv N W orig prog pcs D s) :
    (∀ w ∈ s.workers, w.pc = Pc.done) ↔ ∀ k, k < W → pcs k = Pc.done := by
  constructor
  · intro hall k hk
    have hw := h.worker k hk
    have := hall _ (List.mem_iff_getElem?.mpr ⟨k, hw⟩)
    exact this
  · intro hall w hw
    obtain ⟨k, hk, hget⟩ := List.getElem_of_mem hw
    have hkW : k < W := by rw [← h.len]; exact hk
    have := h.worker k hkW
    rw [List.getElem?_eq_getElem hk, hget] at this
    rw [Option.some.inj this]
    exact hall k hkW

/-- A step that changes the table is a step of a worker inside its critical section. -/
theorem lockStep_table (n : Nat) (s s' : LockState) (hstep : lockStep n s = some s')
    (hne : s'.g.g_word_count_map ≠ s.g.g_word_count_map) :
    ∃ w, s.workers[n]? = some w ∧ w.pc.holding = true := by
  unfold lockStep at hstep
  cases hw : s.workers[n]? with
  | none =>
    rw [hw] at hstep
    simp only [Option.some.injEq] at hstep
    subst hstep
    exact absurd rfl hne
  | some w =>
    refine ⟨w, rfl, ?_⟩
    rw [hw] at hstep
    cases hpc : w.pc with
    | guard => rfl
    | increment => rfl
    | unlock => rfl
    | test =>
      simp only [hpc] at hstep
      split_ifs at hstep <;> simp only [Option.some.injEq] at hstep <;> subst hstep <;>
        exact absurd rfl hne
    | lock =>
      simp only [hpc] at hstep
      cases hm : s.g_mutex with
      | none =>
        rw [hm] at hstep
        simp only [Option.some.injEq] at hstep
        subst hstep
        exact absurd rfl hne
      | some x =>
        rw [hm] at hstep
        simp only [Option.some.injEq] at hstep
        subst hstep
        exact absurd rfl hne
    | done =>
      simp only [hpc, Option.some.injEq] at hstep
      subst hstep
      exact absurd rfl hne

/-- C15 (mutual exclusion, no lost updates). For every token sequence of a length `N` of
type `int`, every number `W ≥ 1` of workers and every interleaving `sched` of the
workers' steps (loop test and move, `lock`, the two table accesses, `unlock`), the run
is defined and leads to a state `s` in which: a worker between the construction and the
destruction of its `lck` owns `g_mutex` (so at most one worker is there); a step that
changes `g_word_count_map` is a step of the owner of the mutex; the history of mutex and
table operations is a sequence of whole critical sections `lock n, read n key,
write n key, unlock n`, one per index of a duplicate-free list `D` of pairs (worker,
index), each with exactly one update of the key at that index, followed by the
operations of the section under way; while the mutex is free the table is the result of
exactly these updates; and once every worker has left its loop, the indices in `D` are
a permutation of `0, ..., N - 1` and the table is the table of the token sequence: no
increment lost, none duplicated. Every such run can be continued to a state in which
every worker has left its loop. -/
theorem C15_mutual_exclusion (tokens : List String) (W : Nat) (p0 : Parser) (sched : List Nat)
    (hNmax : (tokens.length : Int) ≤ INT_MAX) (hW : 1 ≤ W) (hWmax : (W : Int) ≤ INT_MAX) :
    ∃ s, lockRun sched
        (lockInit (configure p0 tokens.length W) W ⟨tokens.length, [], tokens⟩) = some s ∧
      (∀ n w, s.workers[n]? = some w → w.pc.holding = true → s.g_mutex = some n) ∧
      (∀ n s', lockStep n s = some s' → s'.g.g_word_count_map ≠ s.g.g_word_count_map →
        s.g_mutex = some n) ∧
      (∃ D : List (Nat × Nat), (D.map Prod.snd).Nodup ∧
        s.history
          = D.flatMap (fun d => criticalEvents d.1 (tokens.getD d.2 "")) ++ pendingEvents s ∧
        (s.g_mutex = none → s.g.g_word_count_map
          = (D.map (fun d => tokens.getD d.2 "")).foldl criticalSection []) ∧
        ((∀ w ∈ s.workers, w.pc = Pc.done) →
          s.g_mutex = none ∧ (D.map Prod.snd).Perm (List.range tokens.length) ∧
          s.g = ⟨tokens.length, tableOf tokens, List.replicate tokens.length ""⟩)) ∧
      ∃ sched' s', lockRun (sched ++ sched')
          (lockInit (configure p0 tokens.length W) W ⟨tokens.length, [], tokens⟩) = some s' ∧
        ∀ w ∈ s'.workers, w.pc = Pc.done := by
  have hN : tokens.length ≤ 2147483647 := by unfold INT_MAX at hNmax; omega
  have hWm : W ≤ 2147483647 := by unfold INT_MAX at hWmax; omega
  obtain ⟨s, prog, pcs, D, hrun, h⟩ :=
    lockRun_inv hN hW sched _ _ _ _ (lockInit_inv p0 tokens W hN hW hWm)
  have hexcl : ∀ n w, s.workers[n]? = some w → w.pc.holding = true → s.g_mutex = some n := by
    intro n w hw hh
    by_cases hn : n < W
    · have hw2 := h.worker n hn
      rw [hw] at hw2
      rw [Option.some.inj hw2] at hh
      exact (h.holder n hn).mp hh
    · have hnone : s.workers[n]? = none := by
        apply List.getElem?_eq_none
        rw [h.len]; omega
      rw [hnone] at hw
      cases hw
  refine ⟨s, hrun, hexcl, ?_, ⟨D, h.nodup, inv_history h, ?_, ?_⟩, ?_⟩
  · intro n s' hstep hne
    obtain ⟨w, hw, hh⟩ := lockStep_table n s s' hstep hne
    exact hexcl n w hw hh
  · intro hm
    rw [h.table, hm]
  · intro hall
    exact inv_all_done hW rfl h ((inv_workers_done h).mp hall)
  · obtain ⟨sched', s', prog', pcs', D', hrun', h', hd'⟩ :=
      lockRun_finish hN hW _ s prog pcs D h (le_refl _)
    refine ⟨sched', s', ?_, (inv_workers_done h').mpr hd'⟩
    rw [lockRun_append, hrun]
    exact hrun'

/-- Witness of C15: three tokens, two workers, and a schedule in which worker 1 takes
the mutex first and worker 0 then waits for it. -/
theorem C15_mutual_exclusion_witness :
    (((["the", "fox", "the"] : List String).length : Int) ≤ INT_MAX ∧ 1 ≤ 2 ∧
      ((2 : Nat) : Int) ≤ INT_MAX) ∧
    ∃ s, lockRun [0, 1, 1, 0, 0, 1]
        (lockInit (configure ⟨0, false, false⟩ (["the", "fox", "the"] : List String).length
            (2 : Nat)) (2 : Nat)
          ⟨(["the", "fox", "the"] : List String).length, [], ["the", "fox", "the"]⟩) = some s ∧
      (∀ n w, s.workers[n]? = some w → w.pc.holding = true → s.g_mutex = some n) ∧
      (∀ n s', lockStep n s = some s' → s'.g.g_word_count_map ≠ s.g.g_word_count_map →
        s.g_mutex = some n) ∧
      (∃ D : List (Nat × Nat), (D.map Prod.snd).Nodup ∧
        s.history
          = D.flatMap (fun d => criticalEvents d.1 (["the", "fox", "the"].getD d.2 ""))
            ++ pendingEvents s ∧
        (s.g_mutex = none → s.g.g_word_count_map
          = (D.map (fun d => ["the", "fox", "the"].getD d.2 "")).foldl criticalSection []) ∧
        ((∀ w ∈ s.workers, w.pc = Pc.done) →
          s.g_mutex = none ∧
          (D.map Prod.snd).Perm (List.range (["the", "fox", "the"] : List String).length) ∧
          s.g = ⟨(["the", "fox", "the"] : List String).length, tableOf ["the", "fox", "the"],
            List.replicate (["the", "fox", "the"] : List String).length ""⟩)) ∧
      ∃ sched' s', lockRun ([0, 1, 1, 0, 0, 1] ++ sched')
          (lockInit (configure ⟨0, false, false⟩ (["the", "fox", "the"] : List String).length
              (2 : Nat)) (2 : Nat)
            ⟨(["the", "fox", "the"] : List String).length, [], ["the", "fox", "the"]⟩)
          = some s' ∧
        ∀ w ∈ s'.workers, w.pc = Pc.done :=
  ⟨⟨by decide, by decide, by decide⟩,
    C15_mutual_exclusion ["the", "fox", "the"] 2 ⟨0, false, false⟩ [0, 1, 1, 0, 0, 1]
      (by decide) (by decide) (by decide)⟩

/-! ## Stored counts are positive -/

theorem bump_pos (m : Table) (k : String) (hpos : ∀ e ∈ m, 1 ≤ e.2)
    (hlt : m.total < 2147483647) : ∀ e ∈ bump m k, 1 ≤ e.2 := by
  induction m with
  | nil =>
    intro e he
    simp only [bump, List.mem_singleton] at he
    subst he
    exact le_refl _
  | cons x rest ih =>
    obtain ⟨k', v⟩ := x
    have hnn : ∀ e ∈ (k', v) :: rest, 0 ≤ e.2 := fun e he => by
      have := hpos e he
      omega
    have h1v : 1 ≤ v := hpos (k', v) (List.mem_cons_self _ _)
    have hrest : ∀ e ∈ rest, 1 ≤ e.2 := fun e he => hpos e (List.mem_cons_of_mem _ he)
    have hv : v ≤ Table.total ((k', v) :: rest) :=
      le_total_of_mem _ hnn (k', v) (List.mem_cons_self _ _)
    have ht : Table.total ((k', v) :: rest) = v + Table.total rest := by
      simp [Table.total]
    rcases keyLt_cases k k' with h1 | ⟨h1, h2⟩ | he
    · rw [bump_cons_lt v rest h1]
      intro e he
      rcases List.mem_cons.mp he with rfl | he
      · exact le_refl _
      · exact hpos e he
    · rw [bump_cons_gt v rest h1 h2]
      intro e he
      rcases List.mem_cons.mp he with rfl | he
      · exact h1v
      · exact ih hrest (by omega) e he
    · subst he
      rw [bump_cons_eq]
      have hw : wrapInt (v + 1) = v + 1 := wrapInt_id (by omega) (by omega)
      have h0 : 0 ≤ v := by omega
      simp only [ge_iff_le, h0, if_true, hw]
      intro e he
      rcases List.mem_cons.mp he with rfl | he
      · show 1 ≤ v + 1
        omega
      · exact hrest e he

theorem foldl_bump_pos (l : List String) :
    ∀ m : Table, (∀ e ∈ m, 1 ≤ e.2) → m.total + l.length ≤ 2147483647 →
      ∀ e ∈ l.foldl bump m, 1 ≤ e.2 := by
  induction l with
  | nil => intro m h1 _; simpa using h1
  | cons k l ih =>
    intro m h1 h2
    simp only [List.length_cons, Nat.cast_add, Nat.cast_one] at h2
    have hnn : ∀ e ∈ m, 0 ≤ e.2 := fun e he => by
      have := h1 e he
      omega
    obtain ⟨-, b2⟩ := bump_total m k hnn (by omega)
    exact ih (bump m k) (bump_pos m k h1 (by omega)) (by omega)

/-- Every count of the table of a token list of at most `INT_MAX` tokens is at least 1. -/
theorem tableOf_pos (l : List String) (h : l.length ≤ 2147483647) :
    ∀ e ∈ tableOf l, 1 ≤ e.2 := by
  unfold tableOf
  rw [foldl_criticalSection]
  exact foldl_bump_pos l [] (by simp) (by simp [Table.total]; omega)

theorem tableOf_snoc (pre : List String) (t : String) :
    tableOf (pre ++ [t]) = criticalSection (tableOf pre) t := by
  simp [tableOf, List.foldl_append]

/-- Between the two table accesses of the critical section for a key not yet in the
table the key is stored with count 0; the increment made under the same lock leaves 1. -/
theorem subscript_fresh_zero (k : String) :
    (Table.subscript [] k).find k = some 0 ∧ (criticalSection [] k).find k = some 1 := by
  rw [criticalSection_eq_bump]
  simp [Table.subscript, Table.find, bump]

/-- In the step-level run, under every schedule, the table has every stored count at
least 1 whenever no critical section is under way. -/
theorem lockRun_counts_pos (p0 : Parser) (tokens : List String) (W : Nat) (sched : List Nat)
    (hN : tokens.length ≤ 2147483647) (hW : 1 ≤ W) (hWmax : W ≤ 2147483647) :
    ∃ s, lockRun sched
        (lockInit (configure p0 tokens.length W) W ⟨tokens.length, [], tokens⟩) = some s ∧
      (s.g_mutex = none → ∀ e ∈ s.g.g_word_count_map, 1 ≤ e.2) := by
  obtain ⟨s, prog, pcs, D, hrun, h⟩ :=
    lockRun_inv hN hW sched _ _ _ _ (lockInit_inv p0 tokens W hN hW hWmax)
  refine ⟨s, hrun, ?_⟩
  intro hm
  have hlen := length_le_of_nodup_lt (D.map Prod.snd) tokens.length h.nodup (inv_lt_N hW h)
  simp only [List.length_map] at hlen
  have := tableOf_pos (D.map (fun d => tokens.getD d.2 "")) (by simp only [List.length_map]; omega)
  rw [h.table, hm]
  exact this

/-- C21 (stored counts are positive). For every sequence `l` of at most `INT_MAX` worker
token updates applied to the empty `g_word_count_map`: the table reached has every
stored count at least 1 and total `l.length`; and at every point of the sequence, that
is for every split `l = pre ++ t :: post`, the table reached after `pre` has every count
at least 1, the guard `g_word_count_map[t] >= 0` evaluated on it is true, the update for
`t` raises the total by exactly 1 and leaves every count at least 1, and the worker's
loop body on globals that hold this table and the token `t` at index `i` returns with
exactly this update made. -/
theorem C21_counts_positive (l : List String) (hmax : (l.length : Int) ≤ INT_MAX) :
    (∀ e ∈ tableOf l, 1 ≤ e.2) ∧ (tableOf l).total = l.length ∧
    ∀ (pre : List String) (t : String) (post : List String), l = pre ++ t :: post →
      (∀ e ∈ tableOf pre, 1 ≤ e.2) ∧
      ((tableOf pre).subscript t).get t ≥ 0 ∧
      (criticalSection (tableOf pre) t).total = (tableOf pre).total + 1 ∧
      (∀ e ∈ criticalSection (tableOf pre) t, 1 ≤ e.2) ∧
      tableOf (pre ++ [t]) = criticalSection (tableOf pre) t ∧
      ∀ (g : Globals) (i : Int), g.g_word_count_map = tableOf pre → 0 ≤ i →
        i.toNat < g.g_word_vector.length → g.g_word_vector.getD i.toNat "" = t →
        ∃ g', tokenUpdate i g = some g' ∧
          g'.g_word_count_map = criticalSection (tableOf pre) t ∧
          g'.g_word_count_map.total = g.g_word_count_map.total + 1 := by
  have hN : l.length ≤ 2147483647 := by unfold INT_MAX at hmax; omega
  refine ⟨tableOf_pos l hN, (tableOf_total l hN).2, ?_⟩
  intro pre t post hl
  have hlen : pre.length + 1 + post.length = l.length := by
    rw [hl]; simp; omega
  have hpre : pre.length ≤ 2147483647 := by omega
  have hsn : (pre ++ [t]).length ≤ 2147483647 := by simp; omega
  have hnn := (tableOf_total pre hpre).1
  have htot := (tableOf_total pre hpre).2
  have hstep : (criticalSection (tableOf pre) t).total = (tableOf pre).total + 1 := by
    rw [criticalSection_eq_bump]
    exact (bump_total (tableOf pre) t hnn (by omega)).2
  refine ⟨tableOf_pos pre hpre, (guard_then_increment _ t hnn).1, hstep, ?_,
    tableOf_snoc pre t, ?_⟩
  · rw [← tableOf_snoc]
    exact tableOf_pos _ hsn
  · intro g i hg h0 hi ht
    refine ⟨{ g with
        g_word_vector := g.g_word_vector.set i.toNat ""
        g_word_count_map := criticalSection g.g_word_count_map
          (g.g_word_vector.getD i.toNat "") }, ?_, ?_, ?_⟩
    · simp only [tokenUpdate, h0, hi, and_self, if_true]
    · simp only [hg, ht]
    · simp only [hg, ht, hstep]

/-- Witness of C21: the updates for the words the, quick, the. -/
theorem C21_counts_positive_witness :
    (((["the", "quick", "the"] : List String).length : Int) ≤ INT_MAX) ∧
    ((∀ e ∈ tableOf ["the", "quick", "the"], 1 ≤ e.2) ∧
      (tableOf ["the", "quick", "the"]).total = (["the", "quick", "the"] : List String).length ∧
      ∀ (pre : List String) (t : String) (post : List String),
        ["the", "quick", "the"] = pre ++ t :: post →
        (∀ e ∈ tableOf pre, 1 ≤ e.2) ∧
        ((tableOf pre).subscript t).get t ≥ 0 ∧
        (criticalSection (tableOf pre) t).total = (tableOf pre).total + 1 ∧
        (∀ e ∈ criticalSection (tableOf pre) t, 1 ≤ e.2) ∧
        tableOf (pre ++ [t]) = criticalSection (tableOf pre) t ∧
        ∀ (g : Globals) (i : Int), g.g_word_count_map = tableOf pre → 0 ≤ i →
          i.toNat < g.g_word_vector.length → g.g_word_vector.getD i.toNat "" = t →
          ∃ g', tokenUpdate i g = some g' ∧
            g'.g_word_count_map = criticalSection (tableOf pre) t ∧
            g'.g_word_count_map.total = g.g_word_count_map.total + 1) :=
  ⟨by decide, C21_counts_positive ["the", "quick", "the"] (by decide)⟩

end WordFreq
